import Mathlib

/-!
# getstream: the AggregatedFeedActivity JSON codec

A shallow embedding of `feed_aggregated_io.go`: `MarshalJSON`, `UnmarshalJSON`
and `getAggregatedFeedOutput.output`, together with the parts of the Go standard
library they call (`encoding/json`, `regexp`, `strings`, `time`).

Conventions of the embedding:

* a Go string is a Lean `String`, that is well-formed Unicode text; a byte slice
  given to or produced by `encoding/json` is a `RawMessage`, the JSON value it
  is the text of, or `malformed`; the escaping of strings on the wire is not
  modelled, a JSON string is the text it denotes;
* a Go map is a `GoMap`; the order of a `range` over the raw payload is a
  `RangeOrder`, an arbitrary rearrangement of the entries;
* a call that can fail returns `Except Failure`, with the Go error or a panic;
* the two patterns and the layout of the time are fixed in the source, so
  `regexp` is a matcher for whole-text patterns and `time.Parse` and
  `Time.Format` are written for the layout `2006-01-02T15:04:05.999999`;
* `time.Now()` is the parameter `now` of `MarshalJSON`.
-/

namespace Getstream

/-! ## JSON values and raw messages -/

/-- A parsed JSON value. Numbers keep their literal text. -/
inductive JVal where
  | null : JVal
  | bool (b : Bool) : JVal
  | num (text : String) : JVal
  | str (s : String) : JVal
  | arr (items : List JVal) : JVal
  | obj (members : List (String × JVal)) : JVal

/-- A byte slice handed to or produced by `encoding/json` (`[]byte`,
`json.RawMessage`), classified by how the JSON scanner reads it: either the text
of one JSON value, or bytes that are not a JSON text at all. -/
inductive RawMessage where
  | json (v : JVal) : RawMessage
  | malformed : RawMessage

/-- How a call ends when it does not return normally: a Go `error` value with
its message, or a run-time panic (index out of range, nil dereference). -/
inductive Failure where
  | error (msg : String) : Failure
  | panic : Failure
deriving DecidableEq, Repr

/-! ## Go maps

A map is kept as its entries in increasing key order, so that two maps with the
same content are equal. The order in which a `range` visits a map is a separate
matter (`RangeOrder` below). -/

/-- Lexicographic order on character lists by code point, the order of Go
strings (byte-wise on UTF-8). -/
def ltChars : List Char → List Char → Bool
  | _, [] => false
  | [], _ :: _ => true
  | a :: as, b :: bs => decide (a.toNat < b.toNat) || (a == b && ltChars as bs)

/-- The comparison `a < b` of two Go strings. -/
def keyLT (a b : String) : Bool := ltChars a.data b.data

theorem ltChars_irrefl (a : List Char) : ltChars a a = false := by
  induction a with
  | nil => rfl
  | cons c cs ih => simp [ltChars, ih]

theorem ltChars_total (a b : List Char) (h : a ≠ b) : ltChars a b = true ∨ ltChars b a = true := by
  induction a generalizing b with
  | nil => cases b with
    | nil => exact absurd rfl h
    | cons d ds => left; rfl
  | cons c cs ih => cases b with
    | nil => right; rfl
    | cons d ds =>
      simp only [ltChars, Bool.or_eq_true, decide_eq_true_eq, Bool.and_eq_true, beq_iff_eq]
      rcases Nat.lt_trichotomy c.toNat d.toNat with hlt | heq | hgt
      · exact Or.inl (Or.inl hlt)
      · have hcd : c = d := by
          have e := congrArg Char.ofNat heq
          simpa using e
        subst hcd
        have hne : cs ≠ ds := fun e => h (by rw [e])
        rcases ih ds hne with h1 | h1
        · exact Or.inl (Or.inr ⟨rfl, h1⟩)
        · exact Or.inr (Or.inr ⟨rfl, h1⟩)
      · exact Or.inr (Or.inl hgt)

theorem ltChars_trans (a b c : List Char) (h1 : ltChars a b = true) (h2 : ltChars b c = true) :
    ltChars a c = true := by
  induction a generalizing b c with
  | nil => cases c with
    | nil => cases b <;> simp [ltChars] at h2
    | cons e es => rfl
  | cons x xs ih =>
    cases b with
    | nil => simp [ltChars] at h1
    | cons y ys =>
      cases c with
      | nil => simp [ltChars] at h2
      | cons z zs =>
        simp only [ltChars, Bool.or_eq_true, decide_eq_true_eq, Bool.and_eq_true, beq_iff_eq] at h1 h2 ⊢
        rcases h1 with h1 | ⟨h1, h1r⟩ <;> rcases h2 with h2 | ⟨h2, h2r⟩
        · exact Or.inl (lt_trans h1 h2)
        · subst h2; exact Or.inl h1
        · subst h1; exact Or.inl h2
        · subst h1; subst h2; exact Or.inr ⟨rfl, ih ys zs h1r h2r⟩

theorem keyLT_irrefl (a : String) : keyLT a a = false := ltChars_irrefl _

theorem keyLT_total (a b : String) (h : a ≠ b) : keyLT a b = true ∨ keyLT b a = true := by
  apply ltChars_total
  intro e
  apply h
  cases a; cases b; simp_all

theorem keyLT_trans {a b c : String} (h1 : keyLT a b = true) (h2 : keyLT b c = true) :
    keyLT a c = true := ltChars_trans _ _ _ h1 h2

theorem keyLT_ne {a b : String} (h : keyLT a b = true) : a ≠ b := by
  intro e; subst e; rw [keyLT_irrefl] at h; exact Bool.noConfusion h

/-- Entries in strictly increasing key order. -/
def SortedKeys {V : Type} (l : List (String × V)) : Prop :=
  l.Pairwise (fun x y => keyLT x.1 y.1 = true)

/-- Put an entry at its place in a sorted entry list, replacing an entry of the
same key. -/
def insertEntry {V : Type} (k : String) (v : V) : List (String × V) → List (String × V)
  | [] => [(k, v)]
  | e :: rest =>
    if k = e.1 then (k, v) :: rest
    else if keyLT k e.1 then (k, v) :: e :: rest
    else e :: insertEntry k v rest

/-- The value stored under a key, if any. -/
def lookupKey {V : Type} (k : String) : List (String × V) → Option V
  | [] => none
  | e :: rest => if e.1 = k then some e.2 else lookupKey k rest

theorem mem_insertEntry {V : Type} {k : String} {v : V} {l : List (String × V)} {e : String × V}
    (h : e ∈ insertEntry k v l) : e = (k, v) ∨ e ∈ l := by
  induction l with
  | nil => simp [insertEntry] at h; exact Or.inl h
  | cons x rest ih =>
    unfold insertEntry at h
    split_ifs at h with h1 h2
    · rcases List.mem_cons.1 h with h | h
      · exact Or.inl h
      · exact Or.inr (List.mem_cons_of_mem _ h)
    · rcases List.mem_cons.1 h with h | h
      · exact Or.inl h
      · exact Or.inr h
    · rcases List.mem_cons.1 h with h | h
      · exact Or.inr (h ▸ List.mem_cons_self _ _)
      · rcases ih h with h | h
        · exact Or.inl h
        · exact Or.inr (List.mem_cons_of_mem _ h)

theorem sorted_insertEntry {V : Type} (k : String) (v : V) {l : List (String × V)}
    (hs : SortedKeys l) : SortedKeys (insertEntry k v l) := by
  induction l with
  | nil => simp [insertEntry, SortedKeys]
  | cons x rest ih =>
    have hx := List.pairwise_cons.1 hs
    unfold insertEntry
    split_ifs with h1 h2
    · exact List.pairwise_cons.2 ⟨fun e he => by rw [h1]; exact hx.1 e he, hx.2⟩
    · refine List.pairwise_cons.2 ⟨fun e he => ?_, hs⟩
      rcases List.mem_cons.1 he with he | he
      · rw [he]; exact h2
      · exact keyLT_trans h2 (hx.1 e he)
    · refine List.pairwise_cons.2 ⟨fun e he => ?_, ih hx.2⟩
      rcases mem_insertEntry he with he | he
      · rw [he]
        rcases keyLT_total k x.1 h1 with h | h
        · exact absurd h h2
        · exact h
      · exact hx.1 e he

/-- A Go `map[string]V`: finitely many entries with pairwise distinct keys,
listed in increasing key order. -/
structure GoMap (V : Type) where
  entries : List (String × V)
  sorted : SortedKeys entries

namespace GoMap

/-- The empty (or nil) map. -/
def empty {V : Type} : GoMap V := ⟨[], List.Pairwise.nil⟩

/-- The read `m[k]` with its presence flag. -/
def get? {V : Type} (m : GoMap V) (k : String) : Option V := lookupKey k m.entries

/-- The assignment `m[k] = v`. -/
def set {V : Type} (m : GoMap V) (k : String) (v : V) : GoMap V :=
  ⟨insertEntry k v m.entries, sorted_insertEntry k v m.sorted⟩

end GoMap

/-! ## strings -/

/-- The lower case of one character as far as it can be an ASCII letter:
`A`..`Z` go to `a`..`z`, and so do the two letters outside ASCII whose lower
case `unicode.ToLower` gives as an ASCII letter, U+0130 (to `i`) and U+212A
(to `k`). Every other character is kept: its lower case is no ASCII letter. -/
def toLowerRune (c : Char) : Char :=
  if c = Char.ofNat 304 then 'i'
  else if c = Char.ofNat 8490 then 'k'
  else c.toLower

/-- The function `strings.ToLower`, character by character. Whether a key
lower-cases to one of the (ASCII) field names is as in Go; letters outside ASCII
with a lower case outside ASCII are kept as they are. -/
def ToLower (s : String) : String := String.mk (s.data.map toLowerRune)

/-- Pieces of a character list between occurrences of `sep`. -/
def splitChars (sep : Char) : List Char → List (List Char)
  | [] => [[]]
  | c :: cs =>
    if c = sep then [] :: splitChars sep cs
    else
      match splitChars sep cs with
      | [] => [[c]]
      | p :: ps => (c :: p) :: ps

/-- The function `strings.Split(s, sep)` for a one-character separator: all
pieces, in order; the empty string gives one empty piece. -/
def Split (s : String) (sep : Char) : List String :=
  (splitChars sep s.data).map String.mk

/-! ## regexp -/

/-- Regular expressions over characters, with character classes as predicates. -/
inductive Regex where
  | none : Regex
  | eps : Regex
  | cls (p : Char → Bool) : Regex
  | seq (r s : Regex) : Regex
  | alt (r s : Regex) : Regex
  | star (r : Regex) : Regex

namespace Regex

/-- One or more repetitions, `r+`. -/
def plus (r : Regex) : Regex := seq r (star r)

/-- Exactly `n` repetitions, `r{n}`. -/
def rep : Nat → Regex → Regex
  | 0, _ => eps
  | n + 1, r => seq r (rep n r)

/-- A single literal character. -/
def chr (c : Char) : Regex := cls (fun x => x == c)

/-- Whether the expression accepts the empty text. -/
def nullable : Regex → Bool
  | none => false
  | eps => true
  | cls _ => false
  | seq r s => nullable r && nullable s
  | alt r s => nullable r || nullable s
  | star _ => true

/-- Brzozowski derivative: what remains to be matched after reading `c`. -/
def deriv : Regex → Char → Regex
  | none, _ => none
  | eps, _ => none
  | cls p, c => if p c then eps else none
  | seq r s, c =>
    if nullable r then alt (seq (deriv r c) s) (deriv s c) else seq (deriv r c) s
  | alt r s, c => alt (deriv r c) (deriv s c)
  | star r, c => seq (deriv r c) (star r)

/-- Whole-text match of `^r$` (no flags: `^` and `$` are begin and end of text). -/
def matchChars (r : Regex) (s : List Char) : Bool := nullable (s.foldl deriv r)

/-- The call `r.MatchString(s)` for a pattern of the form `^r$`. -/
def MatchString (r : Regex) (s : String) : Bool := matchChars r s.data

/-- The texts an expression denotes. -/
def Matches : Regex → List Char → Prop
  | none, _ => False
  | eps, s => s = []
  | cls p, s => ∃ c, s = [c] ∧ p c = true
  | seq r t, s => ∃ u v, s = u ++ v ∧ Matches r u ∧ Matches t v
  | alt r t, s => Matches r s ∨ Matches t s
  | star r, s => ∃ L : List (List Char), s = L.flatten ∧ ∀ u ∈ L, u ≠ [] ∧ Matches r u

end Regex

/-- Class `\w`: ASCII letters, digits and underscore. -/
def isWord (c : Char) : Bool := c.isAlphanum || c == '_'

/-- Class `.` without the `s` flag: any character but a line feed. -/
def isDot (c : Char) : Bool := !(c == '\n')

/-- Class `[a-z0-9]`. -/
def isLowerOrDigit (c : Char) : Bool := c.isLower || c.isDigit

/-- Class `[1-5]`. -/
def isOneToFive (c : Char) : Bool := decide ('1' ≤ c ∧ c ≤ '5')

/-- Pattern `^[a-z0-9]{8}-[a-z0-9]{4}-[1-5][a-z0-9]{3}-[a-z0-9]{4}-[a-z0-9]{12}$`. -/
def foreignIDPattern : Regex :=
  .seq (.rep 8 (.cls isLowerOrDigit)) <| .seq (.chr '-') <|
  .seq (.rep 4 (.cls isLowerOrDigit)) <| .seq (.chr '-') <|
  .seq (.cls isOneToFive) <| .seq (.rep 3 (.cls isLowerOrDigit)) <| .seq (.chr '-') <|
  .seq (.rep 4 (.cls isLowerOrDigit)) <| .seq (.chr '-') <|
  .rep 12 (.cls isLowerOrDigit)

/-- Pattern `^\w+:\w+ .*?$`. -/
def toTokenPattern : Regex :=
  .seq (.plus (.cls isWord)) <| .seq (.chr ':') <| .seq (.plus (.cls isWord)) <|
  .seq (.chr ' ') (.star (.cls isDot))

/-- A non-empty run of word characters, what `\w+` matches. -/
def IsWordRun (w : List Char) : Prop := w ≠ [] ∧ ∀ c ∈ w, isWord c = true

/-- Pattern `^\w+:\w+$`. -/
def toPlainPattern : Regex :=
  .seq (.plus (.cls isWord)) <| .seq (.chr ':') (.plus (.cls isWord))

/-! ## time -/

/-- A `time.Time`, given by its civil reading in its own location (what
`t.Date()`, `t.Clock()` and `t.Nanosecond()` return) and that location's offset
from UTC in seconds east. -/
structure Time where
  year : Int
  month : Nat
  day : Nat
  hour : Nat
  minute : Nat
  second : Nat
  nanosecond : Nat
  offset : Int
deriving DecidableEq, Repr

/-- Leap years of the proleptic Gregorian calendar (`time.isLeap`). -/
def isLeap (year : Int) : Bool :=
  year % 4 == 0 && (year % 100 != 0 || year % 400 == 0)

/-- Number of days of a month (`time.daysIn`). -/
def daysIn (month : Nat) (year : Int) : Nat :=
  if month == 2 && isLeap year then 29
  else [31, 28, 31, 30, 31, 30, 31, 31, 30, 31, 30, 31].getD (month - 1) 0

/-- The readings a `time.Time` can have. -/
def Time.valid (t : Time) : Prop :=
  1 ≤ t.month ∧ t.month ≤ 12 ∧ 1 ≤ t.day ∧ t.day ≤ daysIn t.month t.year ∧
  t.hour < 24 ∧ t.minute < 60 ∧ t.second < 60 ∧ t.nanosecond < 1000000000

instance (t : Time) : Decidable t.valid := by unfold Time.valid; infer_instance

/-- Days from 1970-01-01 to the given civil date. -/
def daysFromCivil (year : Int) (month day : Nat) : Int :=
  let y : Int := if month ≤ 2 then year - 1 else year
  let era : Int := y / 400
  let yoe : Int := y - era * 400
  let mp : Int := ((month : Int) + 9) % 12
  let doy : Int := (153 * mp + 2) / 5 + (day : Int) - 1
  let doe : Int := yoe * 365 + yoe / 4 - yoe / 100 + doy
  era * 146097 + doe - 719468

/-- Seconds since the Unix epoch of the instant (`t.Unix()`). -/
def Time.Unix (t : Time) : Int :=
  daysFromCivil t.year t.month t.day * 86400 + (t.hour : Int) * 3600 +
    (t.minute : Int) * 60 + (t.second : Int) - t.offset

/-- Same instant, whatever the location (`t.Equal(u)`). -/
def Time.Equal (t u : Time) : Prop := t.Unix = u.Unix ∧ t.nanosecond = u.nanosecond

instance (t u : Time) : Decidable (t.Equal u) := by unfold Time.Equal; infer_instance

/-- Decimal digit character of a number below ten. -/
def digitChar (d : Nat) : Char := Char.ofNat (48 + d)

/-- Value of a decimal digit character. -/
def digitVal (c : Char) : Nat := c.toNat - 48

/-- The `w` low-order decimal digits of `n`, most significant first. -/
def lowDigits : Nat → Nat → List Char
  | 0, _ => []
  | w + 1, n => lowDigits w (n / 10) ++ [digitChar (n % 10)]

/-- Number of decimal digits of `n` (one for zero); `fuel` bounds the loop. -/
def numDigits : Nat → Nat → Nat
  | 0, _ => 1
  | fuel + 1, n => if n < 10 then 1 else 1 + numDigits fuel (n / 10)

/-- The helper `appendInt(b, x, width)` of package time: a minus sign for a
negative number, then its decimal digits zero-padded to `width`. -/
def appendInt (x : Int) (width : Nat) : List Char :=
  (if x < 0 then ['-'] else []) ++
    lowDigits (max width (numDigits x.natAbs x.natAbs)) x.natAbs

/-- Drop the zeros at the end of a digit list. -/
def trimZeros : List Char → List Char
  | [] => []
  | c :: cs =>
    match trimZeros cs with
    | [] => if c = '0' then [] else [c]
    | t => c :: t

/-- The helper `appendNano` for the layout element `.999999`: nothing for a
zero nanosecond; otherwise a point and the first six of the nine digits, with
trailing zeros removed, and the point removed too when no digit is left. -/
def appendNano (nanosec : Nat) : List Char :=
  if nanosec = 0 then []
  else
    match trimZeros ((lowDigits 9 nanosec).take 6) with
    | [] => []
    | t => '.' :: t

/-- The call `t.Format("2006-01-02T15:04:05.999999")`. -/
def Time.Format (t : Time) : String :=
  String.mk (appendInt t.year 4 ++ '-' :: appendInt t.month 2 ++ '-' :: appendInt t.day 2 ++
    'T' :: appendInt t.hour 2 ++ ':' :: appendInt t.minute 2 ++ ':' :: appendInt t.second 2 ++
    appendNano t.nanosecond)

/-- Value of a run of decimal digits. -/
def digitsVal (ds : List Char) : Nat := ds.foldl (fun acc c => acc * 10 + digitVal c) 0

/-- The helper `getnum(s, fixed)`: one or two leading digits, exactly two when
`fixed`. -/
def getnum (s : List Char) (fixed : Bool) : Option (Nat × List Char) :=
  match s with
  | [] => none
  | [c] => if c.isDigit && !fixed then some (digitVal c, []) else none
  | c :: d :: rest =>
    if !c.isDigit then none
    else if !d.isDigit then (if fixed then none else some (digitVal c, d :: rest))
    else some (digitVal c * 10 + digitVal d, rest)

/-- The helper `skip(value, prefix)` for a one-character literal of the layout. -/
def skipChar (c : Char) (s : List Char) : Option (List Char) :=
  match s with
  | [] => none
  | x :: rest => if x = c then some rest else none

/-- Layout element `2006`: exactly four digits. -/
def parseYear (s : List Char) : Option (Int × List Char) :=
  if s.length < 4 then none
  else if (s.take 4).all Char.isDigit then some ((digitsVal (s.take 4) : Nat), s.drop 4)
  else none

/-- Layout element `.999999`: an optional fraction, a point or comma followed
by digits; all digits are consumed and those after the ninth are ignored. -/
def parseFrac (s : List Char) : Nat × List Char :=
  match s with
  | sep :: d :: rest =>
    if (sep == '.' || sep == ',') && d.isDigit then
      let ds := ((d :: rest).takeWhile Char.isDigit).take 9
      (digitsVal ds * 10 ^ (9 - ds.length), (d :: rest).dropWhile Char.isDigit)
    else (0, s)
  | _ => (0, s)

/-- The call `time.Parse("2006-01-02T15:04:05.999999", value)`; `none` is a
parse error. A text without zone information is read in UTC. -/
def Parse (value : String) : Option Time :=
  match parseYear value.data with
  | none => none
  | some (year, s) =>
  match skipChar '-' s with
  | none => none
  | some s =>
  match getnum s true with
  | none => none
  | some (month, s) =>
  if ¬ (1 ≤ month ∧ month ≤ 12) then none else
  match skipChar '-' s with
  | none => none
  | some s =>
  match getnum s true with
  | none => none
  | some (day, s) =>
  match skipChar 'T' s with
  | none => none
  | some s =>
  match getnum s false with
  | none => none
  | some (hour, s) =>
  if ¬ hour < 24 then none else
  match skipChar ':' s with
  | none => none
  | some s =>
  match getnum s true with
  | none => none
  | some (minute, s) =>
  if ¬ minute < 60 then none else
  match skipChar ':' s with
  | none => none
  | some s =>
  match getnum s true with
  | none => none
  | some (second, s) =>
  if ¬ second < 60 then none else
  match parseFrac s with
  | (nanosecond, s) =>
  if s ≠ [] then none else
  if ¬ (1 ≤ day ∧ day ≤ daysIn month year) then none else
  some ⟨year, month, day, hour, minute, second, nanosecond, 0⟩

/-! ## Feeds -/

/-- Modelled from the spec: a Feed Reference (`FeedID`), a string of the shape
`slug:id`; its declaration is not part of the sources at hand. -/
abbrev FeedID := String

/-- Modelled from the spec: `FeedID.Value()`, the reference as a plain string. -/
def FeedID.Value (f : FeedID) : String := f

/-- Modelled from the spec: the general (unspecified) feed the decoder builds,
a slug, a user id and an optional token; its declaration is not part of the
sources at hand. -/
structure GeneralFeed where
  FeedSlug : String
  UserID : String
  token : String
deriving DecidableEq, Repr

/-- Modelled from the spec: the `Feed` capability (an interface whose
declaration is not part of the sources at hand): any value that yields a feed
reference and an optional token. A general feed, or any other variant given by
what its two methods return. -/
inductive Feed where
  | general (g : GeneralFeed) : Feed
  | variant (reference : FeedID) (token : String) : Feed
deriving DecidableEq, Repr

/-- Modelled from the spec: `feed.FeedID()`; a general feed's reference is
`slug:id`. -/
def Feed.FeedID : Feed → FeedID
  | .general g => g.FeedSlug ++ ":" ++ g.UserID
  | .variant reference _ => reference

/-- Modelled from the spec: `feed.Token()`, empty when the feed has no token. -/
def Feed.Token : Feed → String
  | .general g => g.token
  | .variant _ token => token

/-! ## The activity -/

/-- The struct `AggregatedFeedActivity`. -/
structure AggregatedFeedActivity where
  ID : String
  Actor : FeedID
  Verb : String
  Object : FeedID
  Target : FeedID
  Origin : FeedID
  TimeStamp : Option Time
  ForeignID : String
  Data : Option RawMessage
  MetaData : GoMap String
  To : List Feed

/-- The zero value of `AggregatedFeedActivity`. -/
def AggregatedFeedActivity.zero : AggregatedFeedActivity :=
  ⟨"", "", "", "", "", "", none, "", none, GoMap.empty, []⟩

/-! ## Encoding -/

/-- The values `MarshalJSON` stores in its `map[string]interface{}`. -/
inductive PayloadValue where
  | str (s : String) : PayloadValue
  | raw (m : RawMessage) : PayloadValue
  | strs (l : List String) : PayloadValue

/-- How `json.Marshal` encodes one payload value: a string, a list of strings,
or a raw message, which is copied after validation and rejected when it is not
a JSON text. -/
def marshalValue : PayloadValue → Except Failure JVal
  | .str s => .ok (.str s)
  | .strs l => .ok (.arr (l.map JVal.str))
  | .raw (.json v) => .ok v
  | .raw .malformed => .error (.error "json: error calling MarshalJSON for type json.RawMessage")

/-- All members of a payload, encoded in the given order. -/
def marshalMembers : List (String × PayloadValue) → Except Failure (List (String × JVal))
  | [] => .ok []
  | (k, v) :: rest =>
    match marshalValue v with
    | .error e => .error e
    | .ok j =>
      match marshalMembers rest with
      | .error e => .error e
      | .ok js => .ok ((k, j) :: js)

/-- The call `json.Marshal(payload)` on a `map[string]interface{}`: an object
whose members are the map entries sorted by key, the order in which a `GoMap`
lists them. -/
def jsonMarshal (payload : GoMap PayloadValue) : Except Failure RawMessage :=
  match marshalMembers payload.entries with
  | .error e => .error e
  | .ok ms => .ok (.json (.obj ms))

/-- The loop `for key, value := range a.MetaData { payload[key] = value }`. -/
def copyMetaData (md : GoMap String) (payload : GoMap PayloadValue) : GoMap PayloadValue :=
  md.entries.foldl (fun p e => p.set e.1 (.str e.2)) payload

/-- The string written for one recipient: the reference, followed by a space
and the token when the token is not empty. -/
def encodeTo (feed : Feed) : String :=
  if feed.Token != "" then feed.FeedID.Value ++ (" " ++ feed.Token) else feed.FeedID.Value

/-- The loop over `a.To` building `tos`. -/
def encodeTos (feeds : List Feed) : List String :=
  feeds.foldl (fun tos feed => tos ++ [encodeTo feed]) []

/-- The text stored under `time`: the formatted time stamp, or the formatted
current time when there is none. -/
def timeText (now : Time) (a : AggregatedFeedActivity) : String :=
  match a.TimeStamp with
  | none => now.Format
  | some t => t.Format

/-- The assignments to `payload` in the order of the source. -/
def payloadOf (now : Time) (a : AggregatedFeedActivity) : GoMap PayloadValue :=
  let payload := copyMetaData a.MetaData GoMap.empty
  let payload := payload.set "actor" (.str a.Actor.Value)
  let payload := payload.set "verb" (.str a.Verb)
  let payload := payload.set "object" (.str a.Object.Value)
  let payload := payload.set "origin" (.str a.Origin.Value)
  let payload := if a.ID != "" then payload.set "id" (.str a.ID) else payload
  let payload := if a.Target != "" then payload.set "target" (.str a.Target.Value) else payload
  let payload :=
    match a.Data with
    | some d => payload.set "data" (.raw d)
    | none => payload
  let payload :=
    if a.ForeignID != "" then payload.set "foreign_id" (.str a.ForeignID) else payload
  let payload := payload.set "time" (.str (timeText now a))
  let tos := encodeTos a.To
  if tos.length > 0 then payload.set "to" (.strs tos) else payload

/-- The payload map `MarshalJSON` assembles, or the validation error it returns
on the way for a `ForeignID` that is not empty and does not match; `now` is
what `time.Now()` returns. -/
def buildPayload (now : Time) (a : AggregatedFeedActivity) :
    Except Failure (GoMap PayloadValue) :=
  if a.ForeignID != "" && !foreignIDPattern.MatchString a.ForeignID then
    .error (.error "invalid ForeignID")
  else .ok (payloadOf now a)

/-- The method `AggregatedFeedActivity.MarshalJSON`; `now` is what `time.Now()`
returns. -/
def MarshalJSON (now : Time) (a : AggregatedFeedActivity) : Except Failure RawMessage :=
  match buildPayload now a with
  | .error e => .error e
  | .ok payload => jsonMarshal payload

/-! ## Decoding -/

/-- The pointer `json.Unmarshal` stores for a member of the object: nil for the
literal `null`, otherwise a pointer to the raw value. -/
def nilIfNull : JVal → Option JVal
  | .null => none
  | v => some v

/-- The call `json.Unmarshal(b, &rawPayload)` into a
`map[string]*json.RawMessage`: a syntax error for bytes that are no JSON text, a
type error for a value that is neither an object nor null; null leaves the map
without entries; in an object a later member replaces an earlier one of the
same key, and a null member is stored as a nil pointer (`none`). -/
def jsonUnmarshalMap : RawMessage → Except Failure (GoMap (Option JVal))
  | .malformed => .error (.error "invalid character looking for beginning of value")
  | .json .null => .ok GoMap.empty
  | .json (.obj members) =>
    .ok (members.foldl (fun m e => m.set e.1 (nilIfNull e.2)) GoMap.empty)
  | .json _ =>
    .error (.error "json: cannot unmarshal into Go value of type map[string]*json.RawMessage")

/-- The call `json.Unmarshal(*value, &strValue)` into a fresh string: the
string it leaves in `strValue` and whether it returned an error. -/
def unmarshalString : JVal → String × Bool
  | .str s => (s, false)
  | .null => ("", false)
  | _ => ("", true)

/-- The call `json.Unmarshal(*value, &to1D)` into a nil `[]string`: the slice it
leaves and whether it returned an error. Elements that are not strings are left
empty and reported. -/
def unmarshalStrings : JVal → List String × Bool
  | .arr items =>
    (items.map (fun v => (unmarshalString v).1), items.any (fun v => (unmarshalString v).2))
  | .null => ([], false)
  | _ => ([], true)

/-- The call `json.Unmarshal(*value, &to2D)` into a nil `[][]string`, likewise. -/
def unmarshalStrings2 : JVal → List (List String) × Bool
  | .arr items =>
    (items.map (fun v => (unmarshalStrings v).1), items.any (fun v => (unmarshalStrings v).2))
  | .null => ([], false)
  | _ => ([], true)

/-- The element `xs[i]` of a slice; indexing out of range panics. -/
def index {α : Type} (xs : List α) (i : Nat) : Except Failure α :=
  match xs.get? i with
  | some x => .ok x
  | none => .error .panic

/-- One round of the loop `for _, to := range to2D`: a pair is joined with a
space, a single element is passed on, any other length is skipped. -/
def flattenPair (to1D : List String) (pair : List String) : Except Failure (List String) :=
  if pair.length == 2 then do
    let x ← index pair 0
    let y ← index pair 1
    pure (to1D ++ [x ++ " " ++ y])
  else if pair.length == 1 then do
    let x ← index pair 0
    pure (to1D ++ [x])
  else pure to1D

/-- The loop `for _, to := range to2D` that flattens pairs onto `to1D`. -/
def flattenPairs (to1D : List String) (to2D : List (List String)) : Except Failure (List String) :=
  to2D.foldlM flattenPair to1D

/-- One round of the loop `for _, to := range to1D`, on the `To` list. -/
def decodeRecipient (tos : List Feed) (entry : String) : Except Failure (List Feed) :=
  if toTokenPattern.MatchString entry then do
    let firstSplit := Split entry ':'
    let second ← index firstSplit 1
    let secondSplit := Split second ' '
    let slug ← index firstSplit 0
    let user ← index secondSplit 0
    let token ← index secondSplit 1
    pure (tos ++ [Feed.general ⟨slug, user, token⟩])
  else if toPlainPattern.MatchString entry then do
    let firstSplit := Split entry ':'
    let slug ← index firstSplit 0
    let user ← index firstSplit 1
    pure (tos ++ [Feed.general ⟨slug, user, ""⟩])
  else pure tos

/-- The branch `lowerKey == "to"` of the decoder. -/
def decodeTo (a : AggregatedFeedActivity) (value : JVal) : Except Failure AggregatedFeedActivity :=
  if (unmarshalStrings value).2 then
    if (unmarshalStrings2 value).2 then .ok a
    else
      match flattenPairs (unmarshalStrings value).1 (unmarshalStrings2 value).1 with
      | .error e => .error e
      | .ok to1D =>
        match to1D.foldlM decodeRecipient a.To with
        | .error e => .error e
        | .ok tos => .ok { a with To := tos }
  else
    match (unmarshalStrings value).1.foldlM decodeRecipient a.To with
    | .error e => .error e
    | .ok tos => .ok { a with To := tos }

/-- The branch `lowerKey == "time"` of the decoder: the time stamp is replaced
only by a string that parses. -/
def decodeTime (a : AggregatedFeedActivity) (value : JVal) : AggregatedFeedActivity :=
  if (unmarshalString value).2 then a
  else
    match Parse (unmarshalString value).1 with
    | none => a
    | some timeStamp => { a with TimeStamp := some timeStamp }

/-- The state of the decoding loop: the activity being filled and the local
`metadata` map. -/
abbrev DecodeState := AggregatedFeedActivity × GoMap String

/-- The branches of the `if lowerKey == ...` chain of the decoder. -/
inductive Field where
  | id | actor | verb | foreignID | object | origin | target | time | data | to | other
deriving DecidableEq, Repr

/-- The branch the chain `if lowerKey == "id" ... else if ... else` takes, the
comparisons tried in the order of the source. -/
def classify (lowerKey : String) : Field :=
  if lowerKey = "id" then .id
  else if lowerKey = "actor" then .actor
  else if lowerKey = "verb" then .verb
  else if lowerKey = "foreign_id" then .foreignID
  else if lowerKey = "object" then .object
  else if lowerKey = "origin" then .origin
  else if lowerKey = "target" then .target
  else if lowerKey = "time" then .time
  else if lowerKey = "data" then .data
  else if lowerKey = "to" then .to
  else .other

/-- The body of the loop `for key, value := range rawPayload` for a value that
is not nil, by the branch the lower-cased key selects. -/
def decodeField (a : AggregatedFeedActivity) (metadata : GoMap String) (key : String)
    (value : JVal) : Except Failure DecodeState :=
  match classify (ToLower key) with
  | .id => .ok ({ a with ID := (unmarshalString value).1 }, metadata)
  | .actor => .ok ({ a with Actor := (unmarshalString value).1 }, metadata)
  | .verb => .ok ({ a with Verb := (unmarshalString value).1 }, metadata)
  | .foreignID => .ok ({ a with ForeignID := (unmarshalString value).1 }, metadata)
  | .object => .ok ({ a with Object := (unmarshalString value).1 }, metadata)
  | .origin => .ok ({ a with Origin := (unmarshalString value).1 }, metadata)
  | .target => .ok ({ a with Target := (unmarshalString value).1 }, metadata)
  | .time => .ok (decodeTime a value, metadata)
  | .data => .ok ({ a with Data := some (.json value) }, metadata)
  | .to =>
    match decodeTo a value with
    | .error e => .error e
    | .ok a2 => .ok (a2, metadata)
  | .other => .ok (a, metadata.set key (unmarshalString value).1)

/-- One round of the loop `for key, value := range rawPayload`; a nil value is
skipped. -/
def decodeEntry (st : DecodeState) (e : String × Option JVal) : Except Failure DecodeState :=
  match e.2 with
  | none => .ok st
  | some value => decodeField st.1 st.2 e.1 value

/-- The order in which one `range` over the raw payload visits its entries: Go
leaves it unspecified, so it is any rearrangement of them. -/
structure RangeOrder where
  visit : List (String × Option JVal) → List (String × Option JVal)
  perm : ∀ l, (visit l).Perm l

/-- The order in which the entries are stored. -/
def RangeOrder.stored : RangeOrder := ⟨id, fun l => List.Perm.refl l⟩

/-- The reverse of the order in which the entries are stored. -/
def RangeOrder.reversed : RangeOrder := ⟨List.reverse, List.reverse_perm⟩

/-- The order that visits the entry stored first after all the others. -/
def RangeOrder.rotated : RangeOrder :=
  ⟨fun l => l.drop 1 ++ l.take 1, fun l =>
    List.perm_append_comm.trans (by rw [List.take_append_drop])⟩

/-- The whole loop of the decoder over a visiting sequence. -/
def decodeLoop (visit : List (String × Option JVal)) (st : DecodeState) :
    Except Failure DecodeState :=
  visit.foldlM decodeEntry st

/-- The method `AggregatedFeedActivity.UnmarshalJSON` on the receiver `a`: the
receiver after the call, or the error returned. -/
def UnmarshalJSON (order : RangeOrder) (a : AggregatedFeedActivity) (b : RawMessage) :
    Except Failure AggregatedFeedActivity :=
  match jsonUnmarshalMap b with
  | .error e => .error e
  | .ok rawPayload =>
    match decodeLoop (order.visit rawPayload.entries) (a, GoMap.empty) with
    | .error e => .error e
    | .ok (a, metadata) => .ok { a with MetaData := metadata }

/-! ## Reshaping the grouped listing -/

/-- The struct `getAggregatedFeedOutputResult`, one group of the wire response;
an activity is held by a pointer, which may be nil. -/
structure getAggregatedFeedOutputResult where
  Activities : List (Option AggregatedFeedActivity)
  ActivityCount : Int
  ActorCount : Int
  CreatedAt : String
  Group : String
  ID : String
  UpdatedAt : String
  Verb : String

/-- The struct `getAggregatedFeedOutput`, the wire response; a group is held by
a pointer, which may be nil. -/
structure getAggregatedFeedOutput where
  Duration : String
  Next : String
  Results : List (Option getAggregatedFeedOutputResult)

/-- The anonymous struct of `GetAggregatedFeedOutput.Results`, one group of the
public result. -/
structure GetAggregatedFeedOutputResult where
  Activities : List (Option AggregatedFeedActivity)
  ActivityCount : Int
  ActorCount : Int
  CreatedAt : String
  Group : String
  ID : String
  UpdatedAt : String
  Verb : String

/-- The struct `GetAggregatedFeedOutput`, the public result. -/
structure GetAggregatedFeedOutput where
  Duration : String
  Next : String
  Results : List GetAggregatedFeedOutputResult

/-- The loop `for _, activity := range result.Activities` appending to
`outputResult.Activities`. -/
def copyActivities (activities : List (Option AggregatedFeedActivity)) :
    List (Option AggregatedFeedActivity) :=
  activities.foldl (fun acc activity => acc ++ [activity]) []

/-- One round of the loop `for _, result := range a.Results`: the group is
copied field by field and appended; reading through a nil pointer panics. -/
def outputGroup (results : List GetAggregatedFeedOutputResult)
    (result : Option getAggregatedFeedOutputResult) :
    Except Failure (List GetAggregatedFeedOutputResult) :=
  match result with
  | none => .error .panic
  | some r =>
    .ok (results ++ [{
      ActivityCount := r.ActivityCount
      ActorCount := r.ActorCount
      CreatedAt := r.CreatedAt
      Group := r.Group
      ID := r.ID
      UpdatedAt := r.UpdatedAt
      Verb := r.Verb
      Activities := copyActivities r.Activities }])

/-- The method `getAggregatedFeedOutput.output`. -/
def getAggregatedFeedOutput.output (a : getAggregatedFeedOutput) :
    Except Failure GetAggregatedFeedOutput :=
  match a.Results.foldlM outputGroup [] with
  | .error e => .error e
  | .ok results => .ok { Duration := a.Duration, Next := a.Next, Results := results }

/-! ## Notions used in the statements -/

/-- The text up to the first occurrence of `sep`. -/
def upTo (sep : Char) (l : List Char) : List Char := l.takeWhile (fun c => !(c == sep))

/-- What one `to` entry contributes to the `To` list: the recipient the decoding
round appends to an empty list, if it appends one. -/
def recipientOf (entry : String) : Option Feed :=
  match decodeRecipient [] entry with
  | .ok [feed] => some feed
  | _ => none

/-- The string a pair of the paired recipient form stands for: the reference
alone, or reference and token joined by a space; nothing for other lengths. -/
def joinPair (pair : List String) : Option String :=
  match pair with
  | [x] => some x
  | [x, y] => some (x ++ " " ++ y)
  | _ => none

/-- The normalised list of `to` entries the decoder classifies: the flat list
when the value is a list of strings, otherwise what the first attempt left
followed by the joined pairs, and nothing when both attempts fail. -/
def toEntries (value : JVal) : List String :=
  if (unmarshalStrings value).2 then
    if (unmarshalStrings2 value).2 then []
    else (unmarshalStrings value).1 ++ (unmarshalStrings2 value).1.filterMap joinPair
  else (unmarshalStrings value).1

/-- One round of the decoding loop as a state change. -/
def decodeStep (st : DecodeState) (e : String × Option JVal) : DecodeState :=
  match decodeEntry st e with
  | .ok st2 => st2
  | .error _ => st

/-- The receiver once the loop is over: `a.MetaData = metadata`. -/
def finish (st : DecodeState) : AggregatedFeedActivity := { st.1 with MetaData := st.2 }

/-- The known field names of the wire format. -/
def knownFields : List String :=
  ["id", "actor", "verb", "object", "origin", "target", "time", "foreign_id", "data", "to"]

/-- What the decoder stores in `MetaData` under a key: the string read from the
value of a key that selects no typed field, nothing for any other key. -/
def metaValue (m : GoMap (Option JVal)) (k : String) : Option String :=
  match m.get? k with
  | some (some value) =>
    if classify (ToLower k) = .other then some (unmarshalString value).1 else none
  | _ => none

/-- Whether a raw message is the text of a JSON object. -/
def RawMessage.isObject : RawMessage → Bool
  | .json (.obj _) => true
  | _ => false

/-- Whether a raw message is the JSON literal `null`. -/
def RawMessage.isNull : RawMessage → Bool
  | .json .null => true
  | _ => false

/-- All fields of an activity but `MetaData`. -/
def typedFields (a : AggregatedFeedActivity) : AggregatedFeedActivity :=
  { a with MetaData := GoMap.empty }

/-- The paired recipient form: a list of lists of strings. -/
def pairedValue (pairs : List (List String)) : JVal :=
  .arr (pairs.map (fun p => .arr (p.map JVal.str)))

/-- The flat counterpart of a pair: a single element as it is, two elements
joined by one space. -/
def flatOf (pair : List String) : String :=
  match pair with
  | [x] => x
  | [x, y] => x ++ " " ++ y
  | _ => ""

/-- The flat recipient form the paired form stands for. -/
def flatValue (pairs : List (List String)) : JVal := .arr ((pairs.map flatOf).map JVal.str)

/-- The value `MarshalJSON` has stored under a key when it calls `json.Marshal`. -/
def payloadValue (now : Time) (a : AggregatedFeedActivity) (k : String) : Option PayloadValue :=
  if (encodeTos a.To).length > 0 ∧ k = "to" then some (.strs (encodeTos a.To))
  else if k = "time" then some (.str (timeText now a))
  else if (a.ForeignID != "") = true ∧ k = "foreign_id" then some (.str a.ForeignID)
  else if a.Data.isSome = true ∧ k = "data" then a.Data.map PayloadValue.raw
  else if (a.Target != "") = true ∧ k = "target" then some (.str a.Target)
  else if (a.ID != "") = true ∧ k = "id" then some (.str a.ID)
  else if k = "origin" then some (.str a.Origin)
  else if k = "object" then some (.str a.Object)
  else if k = "verb" then some (.str a.Verb)
  else if k = "actor" then some (.str a.Actor)
  else (a.MetaData.get? k).map PayloadValue.str

/-- The member of a JSON object under a key (the first one, should the key be
repeated); nothing for any other raw message. -/
def RawMessage.member? (doc : RawMessage) (k : String) : Option JVal :=
  match doc with
  | .json (.obj ms) => lookupKey k ms
  | _ => none

/-- The JSON value `json.Marshal` writes for a payload value, if it writes one. -/
def jsonOf (pv : PayloadValue) : Option JVal :=
  match marshalValue pv with
  | .ok j => some j
  | .error _ => none

/-- A group of `n` lowercase letters or digits. -/
def IsGroup (n : Nat) (g : List Char) : Prop := g.length = n ∧ ∀ c ∈ g, isLowerOrDigit c = true

/-- The texts the `ForeignID` pattern accepts: five groups of 8, 4, 4, 4 and 12
lowercase letters or digits separated by hyphens, the first character `v` of the
third group being one of `1` to `5`. -/
def IsForeignIDShape (s : List Char) : Prop :=
  ∃ (g1 g2 : List Char) (v : Char) (g3 g4 g5 : List Char),
    s = g1 ++ '-' :: (g2 ++ '-' :: (v :: (g3 ++ '-' :: (g4 ++ '-' :: g5)))) ∧
    IsGroup 8 g1 ∧ IsGroup 4 g2 ∧ isOneToFive v = true ∧ IsGroup 3 g3 ∧ IsGroup 4 g4 ∧
    IsGroup 12 g5

/-- Class `[0-9a-f]`, a lowercase hexadecimal digit. -/
def isLowerHex (c : Char) : Bool := c.isDigit || decide ('a' ≤ c ∧ c ≤ 'f')

/-- The copy of one group. -/
def copyGroup (r : getAggregatedFeedOutputResult) : GetAggregatedFeedOutputResult :=
  ⟨r.Activities, r.ActivityCount, r.ActorCount, r.CreatedAt, r.Group, r.ID, r.UpdatedAt, r.Verb⟩

/-- Whether a raw value is not a JSON string that `time.Parse` accepts under the
layout: it is not a string, or its text does not parse. -/
def timeMalformed (value : JVal) : Bool :=
  (unmarshalString value).2 || (Parse (unmarshalString value).1).isNone

/-- The time stamp after the `time` branch, from the one before it. -/
def newTimeStamp (old : Option Time) (value : JVal) : Option Time :=
  if (unmarshalString value).2 then old
  else
    match Parse (unmarshalString value).1 with
    | none => old
    | some timeStamp => some timeStamp

/-- No two distinct keys with a value that is not null lower-case to the same
known field name. -/
def CaseDistinct (m : GoMap (Option JVal)) : Prop :=
  ∀ k1 k2 v1 v2, m.get? k1 = some (some v1) → m.get? k2 = some (some v2) →
    ToLower k1 = ToLower k2 → ToLower k1 ∈ knownFields → k1 = k2

/-- The values other than null that a visiting sequence meets under the keys
that lower-case to `name`, in the order in which it meets them. -/
def routed (name : String) (visit : List (String × Option JVal)) : List JVal :=
  visit.filterMap (fun e => if ToLower e.1 = name then e.2 else none)

/-- The string read from the last of the values; `old` when there is no value. -/
def lastString (old : String) (vs : List JVal) : String :=
  match vs.getLast? with
  | some v => (unmarshalString v).1
  | none => old

/-- The raw message of the last of the values; `old` when there is no value. -/
def lastRaw (old : Option RawMessage) (vs : List JVal) : Option RawMessage :=
  match vs.getLast? with
  | some v => some (.json v)
  | none => old

/-- The time read from the last of the values that is a JSON string the layout
parses; `old` when there is no such value. -/
def lastTime (old : Option Time) (vs : List JVal) : Option Time :=
  match (vs.filter (fun v => !timeMalformed v)).getLast? with
  | some v => Parse (unmarshalString v).1
  | none => old

/-- The recipients the values give, value after value. -/
def recipientsOf (vs : List JVal) : List Feed :=
  vs.flatMap (fun v => (toEntries v).filterMap recipientOf)

/-- The wire keys of the seven string fields. -/
def stringFieldNames : List String :=
  ["id", "actor", "verb", "object", "origin", "target", "foreign_id"]

/-- A token the recipient decoder reads back whole: no space, no colon and no
line feed. -/
def IsPlainToken (t : List Char) : Prop := ∀ c ∈ t, c ≠ ' ' ∧ c ≠ ':' ∧ c ≠ '\n'

/-- The instants whose text `Parse` reads back: a reading in UTC, a year of
four digits and whole microseconds. -/
def Time.roundTrips (t : Time) : Prop :=
  t.valid ∧ t.offset = 0 ∧ 0 ≤ t.year ∧ t.year ≤ 9999 ∧ t.nanosecond % 1000 = 0

instance (t : Time) : Decidable t.roundTrips := by unfold Time.roundTrips; infer_instance

/-! ## Sample values -/

/-- A sample inbound document: known keys in several casings, unknown keys with
string and non-string values, a malformed time and a flat recipient list. -/
def sampleDocument : RawMessage :=
  .json (.obj [("id", .str "1"), ("Actor", .str "user:1"), ("foo", .str "bar"),
    ("n", .num "7"), ("time", .str "yesterday"),
    ("to", .arr [.str "user:1 tok", .str "flat:2", .str "junk"])])

/-- The key to raw value mapping of the sample document. -/
def sampleMap : GoMap (Option JVal) :=
  match jsonUnmarshalMap sampleDocument with
  | .ok m => m
  | .error _ => GoMap.empty

/-- An activity whose `Data` is not a JSON text and whose `ForeignID` is empty. -/
def malformedDataActivity : AggregatedFeedActivity :=
  { AggregatedFeedActivity.zero with Actor := "user:1", Data := some .malformed }

/-- A fixed instant, 2016-03-09 07:05:00.12 UTC. -/
def sampleTime : Time := ⟨2016, 3, 9, 7, 5, 0, 120000000, 0⟩

/-- An activity with two recipients, one without and one with a token. -/
def twoRecipients : AggregatedFeedActivity :=
  { AggregatedFeedActivity.zero with
    Actor := "user:1", Verb := "post", Object := "flat:2", Origin := "flat:3",
    TimeStamp := some sampleTime,
    To := [Feed.variant "user:1" "", Feed.variant "user:1" "tok"] }

/-- An activity whose only content is a metadata entry under the key `id`. -/
def metaIdActivity : AggregatedFeedActivity :=
  { AggregatedFeedActivity.zero with
    TimeStamp := some sampleTime, MetaData := GoMap.empty.set "id" "7" }

/-- An activity whose metadata has entries under the keys of typed fields. -/
def shadowedActivity : AggregatedFeedActivity :=
  { AggregatedFeedActivity.zero with
    Actor := "user:1", Verb := "post", TimeStamp := some sampleTime,
    MetaData := (GoMap.empty.set "actor" "other:9").set "origin" "x" }

/-- An activity whose `ForeignID` has the five groups but letters beyond `f`. -/
def nonHexActivity : AggregatedFeedActivity :=
  { AggregatedFeedActivity.zero with
    TimeStamp := some sampleTime, ForeignID := "zzzzzzzz-zzzz-1zzz-zzzz-zzzzzzzzzzzz" }

/-- An activity whose `ForeignID` is a mail address. -/
def mailActivity : AggregatedFeedActivity :=
  { AggregatedFeedActivity.zero with ForeignID := "tester@mail.com" }

/-- A wire response with two groups. -/
def sampleResponse : getAggregatedFeedOutput :=
  { Duration := "12ms", Next := "/next",
    Results := [
      some ⟨[some AggregatedFeedActivity.zero, none], 2, 1, "c1", "g1", "id1", "u1", "post"⟩,
      some ⟨[], 0, 0, "c2", "g2", "id2", "u2", "like"⟩] }

/-- A document with a number under `time` and a well-formed time under `Time`. -/
def twoTimesDocument : RawMessage :=
  .json (.obj [("time", .num "5"), ("Time", .str "2016-03-09T07:05:00.12")])

/-- A document with one known and one unknown key. -/
def smallDocument : RawMessage := .json (.obj [("id", .str "1"), ("Foo", .str "bar")])

/-- The key to raw value mapping of the small document. -/
def smallMap : GoMap (Option JVal) :=
  (GoMap.empty.set "id" (some (.str "1"))).set "Foo" (some (.str "bar"))

/-- A document with the keys `id` and `ID`. -/
def twoIdsDocument : RawMessage := .json (.obj [("id", .str "1"), ("ID", .str "2")])

/-- A document with the keys `ID` and `id` and a key that is no field name. -/
def threeKeysDocument : RawMessage :=
  .json (.obj [("id", .str "1"), ("ID", .str "2"), ("A", .str "x")])

/-- The key to raw value mapping of the document with three keys. -/
def threeKeysMap : GoMap (Option JVal) :=
  ((GoMap.empty.set "id" (some (.str "1"))).set "ID" (some (.str "2"))).set "A" (some (.str "x"))

/-- An activity with metadata under keys that are no field names. -/
def plainMetaActivity : AggregatedFeedActivity :=
  { AggregatedFeedActivity.zero with
    Actor := "user:1", Verb := "post", Object := "flat:2", Origin := "flat:3",
    ID := "42", TimeStamp := some sampleTime,
    MetaData := (GoMap.empty.set "Color" "red").set "size" "9",
    To := [Feed.variant "user:1" "tok", Feed.general ⟨"flat", "2", ""⟩] }

/-- An instant with a nanosecond that is no whole microsecond. -/
def nanoTime : Time := ⟨2016, 3, 9, 7, 5, 0, 120000001, 0⟩

/-- The reading 07:05:00.12 in a zone one hour east of UTC. -/
def zoneTime : Time := ⟨2016, 3, 9, 7, 5, 0, 120000000, 3600⟩

/-- An instant in the year 10000. -/
def farTime : Time := ⟨10000, 3, 9, 7, 5, 0, 120000000, 0⟩

/-- The activity with the given time stamp and nothing else. -/
def stamped (t : Time) : AggregatedFeedActivity :=
  { AggregatedFeedActivity.zero with TimeStamp := some t }

/-! # Theorems

## Go maps -/

theorem lookupKey_insertEntry_self {V : Type} (k : String) (v : V) (l : List (String × V)) :
    lookupKey k (insertEntry k v l) = some v := by
  induction l with
  | nil => simp [insertEntry, lookupKey]
  | cons x rest ih =>
    unfold insertEntry
    split_ifs with h1 h2
    · simp [lookupKey]
    · simp [lookupKey]
    · simp [lookupKey, ih, Ne.symm h1]

theorem lookupKey_insertEntry_ne {V : Type} {k k2 : String} (v : V) (l : List (String × V))
    (h : k2 ≠ k) : lookupKey k2 (insertEntry k v l) = lookupKey k2 l := by
  induction l with
  | nil => simp [insertEntry, lookupKey, Ne.symm h]
  | cons x rest ih =>
    unfold insertEntry
    split_ifs with h1 h2
    · simp [lookupKey, Ne.symm h, ← h1]
    · simp [lookupKey, Ne.symm h]
    · simp [lookupKey, ih]

theorem lookupKey_eq_none {V : Type} {k : String} {l : List (String × V)}
    (h : ∀ e ∈ l, e.1 ≠ k) : lookupKey k l = none := by
  induction l with
  | nil => rfl
  | cons x rest ih =>
    simp [lookupKey, h x (List.mem_cons_self _ _)]
    exact ih (fun e he => h e (List.mem_cons_of_mem _ he))

theorem lookupKey_mem {V : Type} {k : String} {v : V} {l : List (String × V)}
    (h : lookupKey k l = some v) : (k, v) ∈ l := by
  induction l with
  | nil => simp [lookupKey] at h
  | cons x rest ih =>
    unfold lookupKey at h
    split_ifs at h with h1
    · have : x = (k, v) := by
        cases x; simp at h1 h; simp [h1, h]
      rw [this]; exact List.mem_cons_self _ _
    · exact List.mem_cons_of_mem _ (ih h)

theorem lookupKey_of_mem {V : Type} {k : String} {v : V} {l : List (String × V)}
    (hs : SortedKeys l) (h : (k, v) ∈ l) : lookupKey k l = some v := by
  induction l with
  | nil => simp at h
  | cons x rest ih =>
    have hx := List.pairwise_cons.1 hs
    rcases List.mem_cons.1 h with h | h
    · rw [← h]; simp [lookupKey]
    · have : x.1 ≠ k := keyLT_ne (hx.1 _ h)
      simp [lookupKey, this]
      exact ih hx.2 h

theorem sortedKeys_ext {V : Type} {l1 l2 : List (String × V)} (h1 : SortedKeys l1)
    (h2 : SortedKeys l2) (h : ∀ k, lookupKey k l1 = lookupKey k l2) : l1 = l2 := by
  induction l1 generalizing l2 with
  | nil =>
    cases l2 with
    | nil => rfl
    | cons y ys =>
      have := h y.1
      simp [lookupKey] at this
  | cons x xs ih =>
    cases l2 with
    | nil =>
      have := h x.1
      simp [lookupKey] at this
    | cons y ys =>
      have hx := List.pairwise_cons.1 h1
      have hy := List.pairwise_cons.1 h2
      have hxn : lookupKey x.1 xs = none :=
        lookupKey_eq_none (fun e he => Ne.symm (keyLT_ne (hx.1 e he)))
      have hyn : lookupKey y.1 ys = none :=
        lookupKey_eq_none (fun e he => Ne.symm (keyLT_ne (hy.1 e he)))
      have hk : x.1 = y.1 := by
        by_contra hne
        have a1 := h x.1
        have a2 := h y.1
        simp only [lookupKey, if_true, if_neg (Ne.symm hne), if_neg hne, hxn, hyn] at a1 a2
        have m1 := lookupKey_mem a1.symm
        have m2 := lookupKey_mem a2
        have l1 := hy.1 _ m1
        have l2 := hx.1 _ m2
        have := keyLT_trans l1 l2
        simp [keyLT_irrefl] at this
      have hv : x.2 = y.2 := by
        have a1 := h x.1
        simp only [lookupKey, if_true, hk] at a1
        simpa using a1
      have hxy : x = y := Prod.ext hk hv
      subst hxy
      congr 1
      apply ih hx.2 hy.2
      intro k
      by_cases hkx : x.1 = k
      · subst hkx; rw [hxn, hyn]
      · have := h k
        simpa [lookupKey, hkx] using this

/-! ## Regular expressions -/

namespace Regex

theorem nullable_iff (r : Regex) : nullable r = true ↔ Matches r [] := by
  induction r with
  | none => simp [nullable, Matches]
  | eps => simp [nullable, Matches]
  | cls p => simp [nullable, Matches]
  | seq r t ihr iht =>
    simp only [nullable, Matches, Bool.and_eq_true, ihr, iht]
    constructor
    · rintro ⟨h1, h2⟩; exact ⟨[], [], rfl, h1, h2⟩
    · rintro ⟨u, v, huv, h1, h2⟩
      have hu : u = [] := (List.append_eq_nil.1 huv.symm).1
      have hv : v = [] := (List.append_eq_nil.1 huv.symm).2
      subst hu; subst hv; exact ⟨h1, h2⟩
  | alt r t ihr iht => simp only [nullable, Matches, Bool.or_eq_true, ihr, iht]
  | star r _ =>
    simp only [nullable, Matches, true_iff]
    exact ⟨[], rfl, fun u hu => absurd hu (List.not_mem_nil u)⟩

theorem matches_seq_cons {r t : Regex} {c : Char} {s : List Char} :
    Matches (seq r t) (c :: s) ↔
      (Matches r [] ∧ Matches t (c :: s)) ∨
      ∃ u v, s = u ++ v ∧ Matches r (c :: u) ∧ Matches t v := by
  simp only [Matches]
  constructor
  · rintro ⟨u, v, huv, h1, h2⟩
    cases u with
    | nil => left; simp at huv; subst huv; exact ⟨h1, h2⟩
    | cons x u =>
      simp at huv
      obtain ⟨hx, hs⟩ := huv
      subst hx
      right; exact ⟨u, v, hs, h1, h2⟩
  · rintro (⟨h1, h2⟩ | ⟨u, v, hs, h1, h2⟩)
    · exact ⟨[], c :: s, rfl, h1, h2⟩
    · exact ⟨c :: u, v, by simp [hs], h1, h2⟩

theorem matches_star_cons {r : Regex} {c : Char} {s : List Char} :
    Matches (star r) (c :: s) ↔
      ∃ u v, s = u ++ v ∧ Matches r (c :: u) ∧ Matches (star r) v := by
  simp only [Matches]
  constructor
  · rintro ⟨L, hL, hall⟩
    cases L with
    | nil => simp at hL
    | cons w L =>
      have hw := hall w (List.mem_cons_self _ _)
      cases w with
      | nil => exact absurd rfl hw.1
      | cons x w =>
        simp at hL
        obtain ⟨hx, hs⟩ := hL
        subst hx
        exact ⟨w, L.flatten, hs, hw.2, L, rfl, fun u hu => hall u (List.mem_cons_of_mem _ hu)⟩
  · rintro ⟨u, v, hs, h1, L, hv, hall⟩
    refine ⟨(c :: u) :: L, by simp [hs, hv], ?_⟩
    intro w hw
    rcases List.mem_cons.1 hw with hw | hw
    · subst hw; exact ⟨List.cons_ne_nil _ _, h1⟩
    · exact hall w hw

theorem deriv_iff (r : Regex) (c : Char) (s : List Char) :
    Matches (deriv r c) s ↔ Matches r (c :: s) := by
  induction r generalizing s with
  | none => simp [deriv, Matches]
  | eps => simp [deriv, Matches]
  | cls p =>
    simp only [deriv]
    by_cases hp : p c = true
    · simp only [hp, if_true, Matches]
      constructor
      · intro h; subst h; exact ⟨c, rfl, hp⟩
      · rintro ⟨x, hx, _⟩; simp at hx; exact hx.2
    · simp only [hp, Matches]
      simp only [Bool.false_eq_true, if_false, Matches, false_iff]
      rintro ⟨x, hx, hpx⟩
      simp at hx
      rw [← hx.1] at hpx
      exact hp hpx
  | seq r t ihr iht =>
    rw [matches_seq_cons]
    simp only [deriv]
    by_cases hn : nullable r = true
    · simp only [hn, if_true, Matches]
      rw [iht, ← nullable_iff, hn]
      constructor
      · rintro (⟨u, v, hs, h1, h2⟩ | h)
        · right; exact ⟨u, v, hs, (ihr u).1 h1, h2⟩
        · left; exact ⟨rfl, h⟩
      · rintro (⟨_, h⟩ | ⟨u, v, hs, h1, h2⟩)
        · right; exact h
        · left; exact ⟨u, v, hs, (ihr u).2 h1, h2⟩
    · simp only [hn, Bool.false_eq_true, if_false, Matches]
      rw [← nullable_iff]
      constructor
      · rintro ⟨u, v, hs, h1, h2⟩
        right; exact ⟨u, v, hs, (ihr u).1 h1, h2⟩
      · rintro (⟨h, _⟩ | ⟨u, v, hs, h1, h2⟩)
        · exact absurd h hn
        · exact ⟨u, v, hs, (ihr u).2 h1, h2⟩
  | alt r t ihr iht => simp only [deriv, Matches, ihr, iht]
  | star r ih =>
    rw [matches_star_cons]
    simp only [deriv]
    show (∃ u v, s = u ++ v ∧ Matches (deriv r c) u ∧ Matches (star r) v) ↔ _
    constructor
    · rintro ⟨u, v, hs, h1, h2⟩; exact ⟨u, v, hs, (ih u).1 h1, h2⟩
    · rintro ⟨u, v, hs, h1, h2⟩; exact ⟨u, v, hs, (ih u).2 h1, h2⟩

theorem matchChars_iff (r : Regex) (s : List Char) : matchChars r s = true ↔ Matches r s := by
  induction s generalizing r with
  | nil => exact nullable_iff r
  | cons c s ih =>
    show matchChars (deriv r c) s = true ↔ _
    rw [ih, deriv_iff]


theorem matches_cls {p : Char → Bool} {s : List Char} :
    Matches (cls p) s ↔ ∃ c, s = [c] ∧ p c = true := by simp [Matches]

theorem matches_chr {c : Char} {s : List Char} : Matches (chr c) s ↔ s = [c] := by
  simp [chr, Matches]

theorem matches_seq {r t : Regex} {s : List Char} :
    Matches (seq r t) s ↔ ∃ u v, s = u ++ v ∧ Matches r u ∧ Matches t v := by simp [Matches]

theorem matches_star_cls {p : Char → Bool} {s : List Char} :
    Matches (star (cls p)) s ↔ ∀ c ∈ s, p c = true := by
  induction s with
  | nil =>
    simp only [List.not_mem_nil, false_implies, implies_true, iff_true]
    exact ⟨[], rfl, fun u hu => absurd hu (List.not_mem_nil u)⟩
  | cons x s ih =>
    rw [matches_star_cons]
    constructor
    · rintro ⟨u, v, hs, h1, h2⟩
      obtain ⟨c, hc, hp⟩ := matches_cls.1 h1
      simp at hc
      obtain ⟨hxc, hu⟩ := hc
      subst hu; subst hxc
      simp at hs; subst hs
      intro c hc
      rcases List.mem_cons.1 hc with hc | hc
      · rw [hc]; exact hp
      · exact ih.1 h2 c hc
    · intro h
      exact ⟨[], s, rfl, matches_cls.2 ⟨x, rfl, h x (List.mem_cons_self _ _)⟩,
        ih.2 (fun c hc => h c (List.mem_cons_of_mem _ hc))⟩

theorem matches_plus_cls {p : Char → Bool} {s : List Char} :
    Matches (plus (cls p)) s ↔ s ≠ [] ∧ ∀ c ∈ s, p c = true := by
  unfold plus
  rw [matches_seq]
  constructor
  · rintro ⟨u, v, hs, h1, h2⟩
    obtain ⟨c, hc, hp⟩ := matches_cls.1 h1
    subst hc; subst hs
    refine ⟨by simp, ?_⟩
    intro x hx
    rcases List.mem_cons.1 hx with hx | hx
    · rw [hx]; exact hp
    · exact matches_star_cls.1 h2 x hx
  · rintro ⟨hne, h⟩
    cases s with
    | nil => exact absurd rfl hne
    | cons x s =>
      exact ⟨[x], s, rfl, matches_cls.2 ⟨x, rfl, h x (List.mem_cons_self _ _)⟩,
        matches_star_cls.2 (fun c hc => h c (List.mem_cons_of_mem _ hc))⟩

end Regex

theorem toTokenPattern_iff (s : List Char) :
    toTokenPattern.matchChars s = true ↔
      ∃ w1 w2 rest, s = w1 ++ ':' :: (w2 ++ ' ' :: rest) ∧ IsWordRun w1 ∧ IsWordRun w2 ∧
        ∀ c ∈ rest, isDot c = true := by
  rw [Regex.matchChars_iff]
  unfold toTokenPattern
  simp only [Regex.matches_seq, Regex.matches_plus_cls, Regex.matches_chr, Regex.matches_star_cls]
  constructor
  · rintro ⟨w1, v1, hs, hw1, c1, v2, hv1, hc1, w2, v3, hv2, hw2, c2, rest, hv3, hc2, hrest⟩
    subst hc1; subst hc2; subst hv3; subst hv2; subst hv1; subst hs
    exact ⟨w1, w2, rest, by simp, hw1, hw2, hrest⟩
  · rintro ⟨w1, w2, rest, hs, hw1, hw2, hrest⟩
    exact ⟨w1, _, hs, hw1, [':'], _, rfl, rfl, w2, _, rfl, hw2, [' '], rest, rfl, rfl, hrest⟩

theorem toPlainPattern_iff (s : List Char) :
    toPlainPattern.matchChars s = true ↔
      ∃ w1 w2, s = w1 ++ ':' :: w2 ∧ IsWordRun w1 ∧ IsWordRun w2 := by
  rw [Regex.matchChars_iff]
  unfold toPlainPattern
  simp only [Regex.matches_seq, Regex.matches_plus_cls, Regex.matches_chr]
  constructor
  · rintro ⟨w1, v1, hs, hw1, c1, w2, hv1, hc1, hw2⟩
    subst hc1; subst hv1; subst hs
    exact ⟨w1, w2, by simp, hw1, hw2⟩
  · rintro ⟨w1, w2, hs, hw1, hw2⟩
    exact ⟨w1, _, hs, hw1, [':'], w2, rfl, rfl, hw2⟩

/-! ## Splitting -/

theorem splitChars_ne_nil (sep : Char) (l : List Char) : splitChars sep l ≠ [] := by
  cases l with
  | nil => simp [splitChars]
  | cons c cs =>
    unfold splitChars
    split_ifs
    · simp
    · split <;> simp

theorem splitChars_no_sep {sep : Char} {w : List Char} (h : ∀ c ∈ w, c ≠ sep) :
    splitChars sep w = [w] := by
  induction w with
  | nil => rfl
  | cons c cs ih =>
    have hc : c ≠ sep := h c (List.mem_cons_self _ _)
    have := ih (fun x hx => h x (List.mem_cons_of_mem _ hx))
    simp [splitChars, hc, this]

theorem splitChars_append_sep {sep : Char} {w : List Char} (rest : List Char)
    (h : ∀ c ∈ w, c ≠ sep) :
    splitChars sep (w ++ sep :: rest) = w :: splitChars sep rest := by
  induction w with
  | nil => simp [splitChars]
  | cons c cs ih =>
    have hc : c ≠ sep := h c (List.mem_cons_self _ _)
    have := ih (fun x hx => h x (List.mem_cons_of_mem _ hx))
    simp [splitChars, hc, this]

theorem splitChars_head (sep : Char) (l : List Char) :
    (splitChars sep l).head? = some (l.takeWhile (fun c => !(c == sep))) := by
  induction l with
  | nil => rfl
  | cons c cs ih =>
    by_cases hc : c = sep
    · simp [splitChars, hc, List.takeWhile]
    · have hne := splitChars_ne_nil sep cs
      cases hsp : splitChars sep cs with
      | nil => exact absurd hsp hne
      | cons p ps =>
        rw [hsp] at ih
        simp at ih
        have hb : (!(c == sep)) = true := by simp [hc]
        simp [splitChars, hc, hsp, List.takeWhile, ih, hb]

theorem isWord_ne_colon {c : Char} (h : isWord c = true) : c ≠ ':' := by
  intro e; subst e; revert h; decide

theorem isWord_ne_space {c : Char} (h : isWord c = true) : c ≠ ' ' := by
  intro e; subst e; revert h; decide

theorem get?_one_of_head {α : Type} {x y : α} {l : List α} (h : l.head? = some y) :
    (x :: l).get? 1 = some y := by
  cases l with
  | nil => simp at h
  | cons z zs => simpa using h

theorem decodeRecipient_token (tos : List Feed) {w1 w2 rest : List Char}
    (h1 : IsWordRun w1) (h2 : IsWordRun w2) (hr : ∀ c ∈ rest, isDot c = true) :
    decodeRecipient tos (String.mk (w1 ++ ':' :: (w2 ++ ' ' :: rest))) =
      .ok (tos ++ [Feed.general ⟨String.mk w1, String.mk w2,
        String.mk (upTo ' ' (upTo ':' rest))⟩]) := by
  have hm : toTokenPattern.MatchString (String.mk (w1 ++ ':' :: (w2 ++ ' ' :: rest))) = true :=
    (toTokenPattern_iff _).2 ⟨w1, w2, rest, rfl, h1, h2, hr⟩
  have hs1 : splitChars ':' (w1 ++ ':' :: (w2 ++ ' ' :: rest)) =
      w1 :: splitChars ':' (w2 ++ ' ' :: rest) :=
    splitChars_append_sep _ (fun c hc => isWord_ne_colon (h1.2 c hc))
  have hh : (splitChars ':' (w2 ++ ' ' :: rest)).head? = some (w2 ++ ' ' :: upTo ':' rest) := by
    rw [splitChars_head]
    congr 1
    rw [List.takeWhile_append_of_pos]
    · simp [List.takeWhile, upTo]
    · intro c hc
      simpa using isWord_ne_colon (h2.2 c hc)
  have hs2 : splitChars ' ' (w2 ++ ' ' :: upTo ':' rest) =
      w2 :: splitChars ' ' (upTo ':' rest) :=
    splitChars_append_sep _ (fun c hc => isWord_ne_space (h2.2 c hc))
  have hh2 := splitChars_head ' ' (upTo ':' rest)
  unfold decodeRecipient
  rw [if_pos hm]
  simp only [Split, hs1, List.map_cons, index]
  have e1 : ((String.mk w1) :: List.map String.mk (splitChars ':' (w2 ++ ' ' :: rest))).get? 1 =
      some (String.mk (w2 ++ ' ' :: upTo ':' rest)) := by
    apply get?_one_of_head
    rw [List.head?_map, hh]; rfl
  rw [e1]
  simp only [bind, Except.bind, hs2, List.map_cons, List.get?_cons_zero]
  have e2 : ((String.mk w2) :: List.map String.mk (splitChars ' ' (upTo ':' rest))).get? 1 =
      some (String.mk (upTo ' ' (upTo ':' rest))) := by
    apply get?_one_of_head
    rw [List.head?_map, hh2]; rfl
  rw [e2]
  rfl

theorem toToken_not_of_no_space {s : List Char} (h : ∀ c ∈ s, c ≠ ' ') :
    toTokenPattern.matchChars s = false := by
  cases hm : toTokenPattern.matchChars s with
  | false => rfl
  | true =>
    obtain ⟨w1, w2, rest, hs, _, _, _⟩ := (toTokenPattern_iff s).1 hm
    exact absurd rfl (h ' ' (by rw [hs]; simp))

theorem decodeRecipient_plain (tos : List Feed) {w1 w2 : List Char}
    (h1 : IsWordRun w1) (h2 : IsWordRun w2) :
    decodeRecipient tos (String.mk (w1 ++ ':' :: w2)) =
      .ok (tos ++ [Feed.general ⟨String.mk w1, String.mk w2, ""⟩]) := by
  have hn : toTokenPattern.MatchString (String.mk (w1 ++ ':' :: w2)) = false := by
    apply toToken_not_of_no_space
    intro c hc
    rcases List.mem_append.1 hc with hc | hc
    · exact isWord_ne_space (h1.2 c hc)
    · rcases List.mem_cons.1 hc with hc | hc
      · rw [hc]; decide
      · exact isWord_ne_space (h2.2 c hc)
  have hm : toPlainPattern.MatchString (String.mk (w1 ++ ':' :: w2)) = true :=
    (toPlainPattern_iff _).2 ⟨w1, w2, rfl, h1, h2⟩
  have hs1 : splitChars ':' (w1 ++ ':' :: w2) = [w1, w2] := by
    rw [splitChars_append_sep _ (fun c hc => isWord_ne_colon (h1.2 c hc)),
      splitChars_no_sep (fun c hc => isWord_ne_colon (h2.2 c hc))]
  unfold decodeRecipient
  rw [hn, hm]
  simp only [Split, hs1, index]
  rfl

theorem decodeRecipient_eq (tos : List Feed) (entry : String) :
    decodeRecipient tos entry = .ok (tos ++ (recipientOf entry).toList) := by
  have he : entry = String.mk entry.data := rfl
  by_cases hm : toTokenPattern.MatchString entry = true
  · obtain ⟨w1, w2, rest, hs, h1, h2, hr⟩ := (toTokenPattern_iff _).1 hm
    have he2 : entry = String.mk (w1 ++ ':' :: (w2 ++ ' ' :: rest)) := by rw [← hs]
    rw [he2, decodeRecipient_token tos h1 h2 hr]
    simp [recipientOf, decodeRecipient_token [] h1 h2 hr]
  · by_cases hp : toPlainPattern.MatchString entry = true
    · obtain ⟨w1, w2, hs, h1, h2⟩ := (toPlainPattern_iff _).1 hp
      have he2 : entry = String.mk (w1 ++ ':' :: w2) := by rw [← hs]
      rw [he2, decodeRecipient_plain tos h1 h2]
      simp [recipientOf, decodeRecipient_plain [] h1 h2]
    · have e : ∀ t, decodeRecipient t entry = .ok t := by
        intro t
        unfold decodeRecipient
        rw [if_neg hm, if_neg hp]; rfl
      rw [e tos]
      simp [recipientOf, e []]

theorem recipientOf_isSome (entry : String) :
    (recipientOf entry).isSome = true ↔
      (toTokenPattern.MatchString entry = true ∨ toPlainPattern.MatchString entry = true) := by
  by_cases hm : toTokenPattern.MatchString entry = true
  · obtain ⟨w1, w2, rest, hs, h1, h2, hr⟩ := (toTokenPattern_iff _).1 hm
    have he2 : entry = String.mk (w1 ++ ':' :: (w2 ++ ' ' :: rest)) := by rw [← hs]
    simp only [hm, true_or, iff_true]
    rw [he2]
    simp [recipientOf, decodeRecipient_token [] h1 h2 hr]
  · by_cases hp : toPlainPattern.MatchString entry = true
    · obtain ⟨w1, w2, hs, h1, h2⟩ := (toPlainPattern_iff _).1 hp
      have he2 : entry = String.mk (w1 ++ ':' :: w2) := by rw [← hs]
      simp only [hp, or_true, iff_true]
      rw [he2]
      simp [recipientOf, decodeRecipient_plain [] h1 h2]
    · have e : decodeRecipient [] entry = .ok [] := by
        unfold decodeRecipient
        rw [if_neg hm, if_neg hp]; rfl
      simp [recipientOf, e, hm, hp]

theorem foldlM_decodeRecipient (entries : List String) (tos : List Feed) :
    entries.foldlM decodeRecipient tos = .ok (tos ++ entries.filterMap recipientOf) := by
  induction entries generalizing tos with
  | nil => simp [List.foldlM]; rfl
  | cons e es ih =>
    rw [List.foldlM_cons, decodeRecipient_eq]
    show es.foldlM decodeRecipient (tos ++ (recipientOf e).toList) = _
    rw [ih]
    cases h : recipientOf e <;> simp [List.filterMap_cons, h]

/-! ## The decoding loop never fails -/

theorem flattenPair_eq (to1D : List String) (pair : List String) :
    flattenPair to1D pair = .ok (to1D ++ (joinPair pair).toList) := by
  match pair with
  | [] => simp [flattenPair, joinPair]; rfl
  | [x] => rfl
  | [x, y] => rfl
  | x :: y :: z :: r => simp [flattenPair, joinPair]; rfl

theorem flattenPairs_eq (to2D : List (List String)) (to1D : List String) :
    flattenPairs to1D to2D = .ok (to1D ++ to2D.filterMap joinPair) := by
  unfold flattenPairs
  induction to2D generalizing to1D with
  | nil => simp [List.foldlM]; rfl
  | cons p ps ih =>
    rw [List.foldlM_cons, flattenPair_eq]
    show ps.foldlM flattenPair (to1D ++ (joinPair p).toList) = _
    rw [ih]
    cases h : joinPair p <;> simp [List.filterMap_cons, h]

theorem decodeTo_eq (a : AggregatedFeedActivity) (value : JVal) :
    decodeTo a value = .ok { a with To := a.To ++ (toEntries value).filterMap recipientOf } := by
  unfold decodeTo toEntries
  by_cases h1 : (unmarshalStrings value).2 = true
  · by_cases h2 : (unmarshalStrings2 value).2 = true
    · simp only [h1, h2, if_true, List.filterMap_nil, List.append_nil]
    · simp only [h1, h2, if_true, Bool.false_eq_true, if_false, flattenPairs_eq,
        foldlM_decodeRecipient]
  · simp only [h1, Bool.false_eq_true, if_false, foldlM_decodeRecipient]

theorem decodeField_ok (a : AggregatedFeedActivity) (md : GoMap String) (k : String)
    (value : JVal) : ∃ r, decodeField a md k value = .ok r := by
  unfold decodeField
  cases classify (ToLower k) <;> simp only [decodeTo_eq] <;> exact ⟨_, rfl⟩

theorem decodeEntry_ok (st : DecodeState) (e : String × Option JVal) :
    decodeEntry st e = .ok (decodeStep st e) := by
  have h : ∃ r, decodeEntry st e = .ok r := by
    obtain ⟨k, v⟩ := e
    cases v with
    | none => exact ⟨_, rfl⟩
    | some value => exact decodeField_ok _ _ _ _
  obtain ⟨r, hr⟩ := h
  simp [decodeStep, hr]

theorem decodeLoop_eq (visit : List (String × Option JVal)) (st : DecodeState) :
    decodeLoop visit st = .ok (visit.foldl decodeStep st) := by
  unfold decodeLoop
  induction visit generalizing st with
  | nil => rfl
  | cons e es ih =>
    rw [List.foldlM_cons, decodeEntry_ok]
    exact ih _

theorem UnmarshalJSON_of_map (order : RangeOrder) (a : AggregatedFeedActivity) {b : RawMessage}
    {m : GoMap (Option JVal)} (h : jsonUnmarshalMap b = .ok m) :
    UnmarshalJSON order a b =
      .ok (finish ((order.visit m.entries).foldl decodeStep (a, GoMap.empty))) := by
  unfold UnmarshalJSON
  rw [h]
  simp only [decodeLoop_eq]
  rfl

theorem UnmarshalJSON_of_error (order : RangeOrder) (a : AggregatedFeedActivity) {b : RawMessage}
    {e : Failure} (h : jsonUnmarshalMap b = .error e) : UnmarshalJSON order a b = .error e := by
  unfold UnmarshalJSON
  rw [h]

theorem decodeStep_none (st : DecodeState) (k : String) : decodeStep st (k, none) = st := rfl

theorem decodeStep_some (st : DecodeState) (k : String) (value : JVal) :
    decodeStep st (k, some value) =
      match classify (ToLower k) with
      | .id => ({ st.1 with ID := (unmarshalString value).1 }, st.2)
      | .actor => ({ st.1 with Actor := (unmarshalString value).1 }, st.2)
      | .verb => ({ st.1 with Verb := (unmarshalString value).1 }, st.2)
      | .foreignID => ({ st.1 with ForeignID := (unmarshalString value).1 }, st.2)
      | .object => ({ st.1 with Object := (unmarshalString value).1 }, st.2)
      | .origin => ({ st.1 with Origin := (unmarshalString value).1 }, st.2)
      | .target => ({ st.1 with Target := (unmarshalString value).1 }, st.2)
      | .time => (decodeTime st.1 value, st.2)
      | .data => ({ st.1 with Data := some (.json value) }, st.2)
      | .to => ({ st.1 with To := st.1.To ++ (toEntries value).filterMap recipientOf }, st.2)
      | .other => (st.1, st.2.set k (unmarshalString value).1) := by
  simp only [decodeStep, decodeEntry, decodeField]
  cases classify (ToLower k) <;> simp only [decodeTo_eq]

/-! ## Folds that touch a component at most once -/

theorem foldl_keep {S E T : Type} (f : S → E → S) (π : S → T) (l : List E)
    (h : ∀ e ∈ l, ∀ s, π (f s e) = π s) (s : S) : π (l.foldl f s) = π s := by
  induction l generalizing s with
  | nil => rfl
  | cons e l ih =>
    rw [List.foldl_cons, ih (fun x hx => h x (List.mem_cons_of_mem _ hx)),
      h e (List.mem_cons_self _ _)]

theorem foldl_set_or_keep {S E T : Type} (f : S → E → S) (π : S → T) (c : T) (l : List E)
    (h : ∀ e ∈ l, (∀ s, π (f s e) = π s) ∨ (∀ s, π (f s e) = c))
    (hex : ∃ e ∈ l, ∀ s, π (f s e) = c) (s : S) : π (l.foldl f s) = c := by
  induction l generalizing s with
  | nil => obtain ⟨e, he, _⟩ := hex; exact absurd he (List.not_mem_nil e)
  | cons x l ih =>
    rw [List.foldl_cons]
    by_cases hl : ∃ e ∈ l, ∀ s, π (f s e) = c
    · exact ih (fun e he => h e (List.mem_cons_of_mem _ he)) hl _
    · have hkeep : ∀ e ∈ l, ∀ s, π (f s e) = π s := by
        intro e he
        rcases h e (List.mem_cons_of_mem _ he) with hk | hs
        · exact hk
        · exact absurd ⟨e, he, hs⟩ hl
      rw [foldl_keep f π l hkeep]
      obtain ⟨e, he, hs⟩ := hex
      rcases List.mem_cons.1 he with he | he
      · subst he; exact hs s
      · exact absurd ⟨e, he, hs⟩ hl

theorem foldl_once {S E T : Type} (f : S → E → S) (π : S → T) (g : T → T) (l1 l2 : List E)
    (e : E) (h1 : ∀ x ∈ l1, ∀ s, π (f s x) = π s) (h2 : ∀ x ∈ l2, ∀ s, π (f s x) = π s)
    (he : ∀ s, π (f s e) = g (π s)) (s : S) : π ((l1 ++ e :: l2).foldl f s) = g (π s) := by
  rw [List.foldl_append, List.foldl_cons, foldl_keep f π l2 h2, he, foldl_keep f π l1 h1]

/-! ## Reading and writing maps -/

theorem GoMap.get?_empty {V : Type} (k : String) : (GoMap.empty : GoMap V).get? k = none := rfl

theorem GoMap.get?_set_self {V : Type} (m : GoMap V) (k : String) (v : V) :
    (m.set k v).get? k = some v := lookupKey_insertEntry_self k v m.entries

theorem GoMap.get?_set_ne {V : Type} (m : GoMap V) {k k2 : String} (v : V) (h : k2 ≠ k) :
    (m.set k v).get? k2 = m.get? k2 := lookupKey_insertEntry_ne v m.entries h

theorem GoMap.get?_set {V : Type} (m : GoMap V) (k k2 : String) (v : V) :
    (m.set k v).get? k2 = if k2 = k then some v else m.get? k2 := by
  by_cases h : k2 = k
  · subst h; simp [GoMap.get?_set_self]
  · simp [h, GoMap.get?_set_ne]

theorem GoMap.ext {V : Type} {m1 m2 : GoMap V} (h : ∀ k, m1.get? k = m2.get? k) : m1 = m2 := by
  cases m1 with
  | mk e1 s1 =>
    cases m2 with
    | mk e2 s2 =>
      have : e1 = e2 := sortedKeys_ext s1 s2 h
      subst this
      rfl

theorem GoMap.mem_entries_iff {V : Type} (m : GoMap V) (k : String) (v : V) :
    (k, v) ∈ m.entries ↔ m.get? k = some v :=
  ⟨lookupKey_of_mem m.sorted, lookupKey_mem⟩

theorem GoMap.set_comm {V : Type} (m : GoMap V) {k1 k2 : String} (v1 v2 : V) (h : k1 ≠ k2) :
    (m.set k1 v1).set k2 v2 = (m.set k2 v2).set k1 v1 := by
  apply GoMap.ext
  intro k
  simp only [GoMap.get?_set]
  by_cases h1 : k = k1
  · subst h1
    simp [h]
  · by_cases h2 : k = k2
    · subst h2
      simp [h1]
    · simp [h1, h2]

/-! ## The branch a key selects -/

theorem classify_cases (x : String) :
    (x = "id" ∧ classify x = .id) ∨ (x = "actor" ∧ classify x = .actor) ∨
    (x = "verb" ∧ classify x = .verb) ∨ (x = "foreign_id" ∧ classify x = .foreignID) ∨
    (x = "object" ∧ classify x = .object) ∨ (x = "origin" ∧ classify x = .origin) ∨
    (x = "target" ∧ classify x = .target) ∨ (x = "time" ∧ classify x = .time) ∨
    (x = "data" ∧ classify x = .data) ∨ (x = "to" ∧ classify x = .to) ∨
    (x ∉ knownFields ∧ classify x = .other) := by
  by_cases h1 : x = "id"
  · exact Or.inl ⟨h1, by rw [h1]; rfl⟩
  refine Or.inr ?_
  by_cases h2 : x = "actor"
  · exact Or.inl ⟨h2, by rw [h2]; rfl⟩
  refine Or.inr ?_
  by_cases h3 : x = "verb"
  · exact Or.inl ⟨h3, by rw [h3]; rfl⟩
  refine Or.inr ?_
  by_cases h4 : x = "foreign_id"
  · exact Or.inl ⟨h4, by rw [h4]; rfl⟩
  refine Or.inr ?_
  by_cases h5 : x = "object"
  · exact Or.inl ⟨h5, by rw [h5]; rfl⟩
  refine Or.inr ?_
  by_cases h6 : x = "origin"
  · exact Or.inl ⟨h6, by rw [h6]; rfl⟩
  refine Or.inr ?_
  by_cases h7 : x = "target"
  · exact Or.inl ⟨h7, by rw [h7]; rfl⟩
  refine Or.inr ?_
  by_cases h8 : x = "time"
  · exact Or.inl ⟨h8, by rw [h8]; rfl⟩
  refine Or.inr ?_
  by_cases h9 : x = "data"
  · exact Or.inl ⟨h9, by rw [h9]; rfl⟩
  refine Or.inr ?_
  by_cases h10 : x = "to"
  · exact Or.inl ⟨h10, by rw [h10]; rfl⟩
  refine Or.inr ⟨?_, ?_⟩
  · intro hx
    unfold knownFields at hx
    rcases List.mem_cons.1 hx with e | hx; exact h1 e
    rcases List.mem_cons.1 hx with e | hx; exact h2 e
    rcases List.mem_cons.1 hx with e | hx; exact h3 e
    rcases List.mem_cons.1 hx with e | hx; exact h5 e
    rcases List.mem_cons.1 hx with e | hx; exact h6 e
    rcases List.mem_cons.1 hx with e | hx; exact h7 e
    rcases List.mem_cons.1 hx with e | hx; exact h8 e
    rcases List.mem_cons.1 hx with e | hx; exact h4 e
    rcases List.mem_cons.1 hx with e | hx; exact h9 e
    rcases List.mem_cons.1 hx with e | hx; exact h10 e
    exact absurd hx (List.not_mem_nil x)
  · unfold classify
    rw [if_neg h1, if_neg h2, if_neg h3, if_neg h4, if_neg h5, if_neg h6, if_neg h7, if_neg h8,
      if_neg h9, if_neg h10]

theorem classify_other_iff (x : String) : classify x = .other ↔ x ∉ knownFields := by
  rcases classify_cases x with ⟨e, c⟩ | ⟨e, c⟩ | ⟨e, c⟩ | ⟨e, c⟩ | ⟨e, c⟩ | ⟨e, c⟩ | ⟨e, c⟩ |
    ⟨e, c⟩ | ⟨e, c⟩ | ⟨e, c⟩ | ⟨e, c⟩
  all_goals first
    | exact ⟨fun _ => e, fun _ => c⟩
    | (rw [c, e]; exact ⟨fun h => Field.noConfusion h, fun h => absurd (by decide) h⟩)

theorem classify_id (x : String) : classify x = .id ↔ x = "id" := by
  refine ⟨fun h => ?_, fun h => by rw [h]; rfl⟩
  rcases classify_cases x with ⟨e, c⟩ | ⟨e, c⟩ | ⟨e, c⟩ | ⟨e, c⟩ | ⟨e, c⟩ | ⟨e, c⟩ | ⟨e, c⟩ |
    ⟨e, c⟩ | ⟨e, c⟩ | ⟨e, c⟩ | ⟨e, c⟩
  all_goals first
    | exact e
    | (rw [c] at h; exact Field.noConfusion h)

theorem classify_actor (x : String) : classify x = .actor ↔ x = "actor" := by
  refine ⟨fun h => ?_, fun h => by rw [h]; rfl⟩
  rcases classify_cases x with ⟨e, c⟩ | ⟨e, c⟩ | ⟨e, c⟩ | ⟨e, c⟩ | ⟨e, c⟩ | ⟨e, c⟩ | ⟨e, c⟩ |
    ⟨e, c⟩ | ⟨e, c⟩ | ⟨e, c⟩ | ⟨e, c⟩
  all_goals first
    | exact e
    | (rw [c] at h; exact Field.noConfusion h)

theorem classify_verb (x : String) : classify x = .verb ↔ x = "verb" := by
  refine ⟨fun h => ?_, fun h => by rw [h]; rfl⟩
  rcases classify_cases x with ⟨e, c⟩ | ⟨e, c⟩ | ⟨e, c⟩ | ⟨e, c⟩ | ⟨e, c⟩ | ⟨e, c⟩ | ⟨e, c⟩ |
    ⟨e, c⟩ | ⟨e, c⟩ | ⟨e, c⟩ | ⟨e, c⟩
  all_goals first
    | exact e
    | (rw [c] at h; exact Field.noConfusion h)

theorem classify_foreignID (x : String) : classify x = .foreignID ↔ x = "foreign_id" := by
  refine ⟨fun h => ?_, fun h => by rw [h]; rfl⟩
  rcases classify_cases x with ⟨e, c⟩ | ⟨e, c⟩ | ⟨e, c⟩ | ⟨e, c⟩ | ⟨e, c⟩ | ⟨e, c⟩ | ⟨e, c⟩ |
    ⟨e, c⟩ | ⟨e, c⟩ | ⟨e, c⟩ | ⟨e, c⟩
  all_goals first
    | exact e
    | (rw [c] at h; exact Field.noConfusion h)

theorem classify_object (x : String) : classify x = .object ↔ x = "object" := by
  refine ⟨fun h => ?_, fun h => by rw [h]; rfl⟩
  rcases classify_cases x with ⟨e, c⟩ | ⟨e, c⟩ | ⟨e, c⟩ | ⟨e, c⟩ | ⟨e, c⟩ | ⟨e, c⟩ | ⟨e, c⟩ |
    ⟨e, c⟩ | ⟨e, c⟩ | ⟨e, c⟩ | ⟨e, c⟩
  all_goals first
    | exact e
    | (rw [c] at h; exact Field.noConfusion h)

theorem classify_origin (x : String) : classify x = .origin ↔ x = "origin" := by
  refine ⟨fun h => ?_, fun h => by rw [h]; rfl⟩
  rcases classify_cases x with ⟨e, c⟩ | ⟨e, c⟩ | ⟨e, c⟩ | ⟨e, c⟩ | ⟨e, c⟩ | ⟨e, c⟩ | ⟨e, c⟩ |
    ⟨e, c⟩ | ⟨e, c⟩ | ⟨e, c⟩ | ⟨e, c⟩
  all_goals first
    | exact e
    | (rw [c] at h; exact Field.noConfusion h)

theorem classify_target (x : String) : classify x = .target ↔ x = "target" := by
  refine ⟨fun h => ?_, fun h => by rw [h]; rfl⟩
  rcases classify_cases x with ⟨e, c⟩ | ⟨e, c⟩ | ⟨e, c⟩ | ⟨e, c⟩ | ⟨e, c⟩ | ⟨e, c⟩ | ⟨e, c⟩ |
    ⟨e, c⟩ | ⟨e, c⟩ | ⟨e, c⟩ | ⟨e, c⟩
  all_goals first
    | exact e
    | (rw [c] at h; exact Field.noConfusion h)

theorem classify_time (x : String) : classify x = .time ↔ x = "time" := by
  refine ⟨fun h => ?_, fun h => by rw [h]; rfl⟩
  rcases classify_cases x with ⟨e, c⟩ | ⟨e, c⟩ | ⟨e, c⟩ | ⟨e, c⟩ | ⟨e, c⟩ | ⟨e, c⟩ | ⟨e, c⟩ |
    ⟨e, c⟩ | ⟨e, c⟩ | ⟨e, c⟩ | ⟨e, c⟩
  all_goals first
    | exact e
    | (rw [c] at h; exact Field.noConfusion h)

theorem classify_data (x : String) : classify x = .data ↔ x = "data" := by
  refine ⟨fun h => ?_, fun h => by rw [h]; rfl⟩
  rcases classify_cases x with ⟨e, c⟩ | ⟨e, c⟩ | ⟨e, c⟩ | ⟨e, c⟩ | ⟨e, c⟩ | ⟨e, c⟩ | ⟨e, c⟩ |
    ⟨e, c⟩ | ⟨e, c⟩ | ⟨e, c⟩ | ⟨e, c⟩
  all_goals first
    | exact e
    | (rw [c] at h; exact Field.noConfusion h)

theorem classify_to (x : String) : classify x = .to ↔ x = "to" := by
  refine ⟨fun h => ?_, fun h => by rw [h]; rfl⟩
  rcases classify_cases x with ⟨e, c⟩ | ⟨e, c⟩ | ⟨e, c⟩ | ⟨e, c⟩ | ⟨e, c⟩ | ⟨e, c⟩ | ⟨e, c⟩ |
    ⟨e, c⟩ | ⟨e, c⟩ | ⟨e, c⟩ | ⟨e, c⟩
  all_goals first
    | exact e
    | (rw [c] at h; exact Field.noConfusion h)

/-! ## The metadata the decoder collects -/

theorem decodeStep_meta_known (st : DecodeState) (k : String) (v : Option JVal)
    (h : classify (ToLower k) ≠ .other) : (decodeStep st (k, v)).2 = st.2 := by
  cases v with
  | none => rfl
  | some value =>
    rw [decodeStep_some]
    cases hc : classify (ToLower k) <;> first | rfl | exact absurd hc h

theorem decodeStep_meta_get (st : DecodeState) (e : String × Option JVal) (k2 : String) :
    (decodeStep st e).2.get? k2 =
      match e.2 with
      | some value =>
        if e.1 = k2 ∧ classify (ToLower e.1) = .other then some (unmarshalString value).1
        else st.2.get? k2
      | none => st.2.get? k2 := by
  obtain ⟨k, v⟩ := e
  cases v with
  | none => rfl
  | some value =>
    by_cases hc : classify (ToLower k) = .other
    · rw [decodeStep_some, hc]
      simp only [GoMap.get?_set, and_true]
      by_cases hk : k2 = k
      · subst hk; simp
      · simp [hk, Ne.symm hk]
    · rw [decodeStep_meta_known st k _ hc]
      simp [hc]

theorem foldl_meta_get (m : GoMap (Option JVal)) (visit : List (String × Option JVal))
    (hp : visit.Perm m.entries) (st : DecodeState) (k2 : String)
    (h0 : st.2.get? k2 = none) :
    (visit.foldl decodeStep st).2.get? k2 = metaValue m k2 := by
  have hmem : ∀ e, e ∈ visit ↔ m.get? e.1 = some e.2 := by
    intro e
    rw [hp.mem_iff]
    exact GoMap.mem_entries_iff m e.1 e.2
  unfold metaValue
  by_cases hset : ∃ value, m.get? k2 = some (some value) ∧ classify (ToLower k2) = .other
  · obtain ⟨value, hv, hc⟩ := hset
    rw [hv]
    simp only [if_pos hc]
    apply foldl_set_or_keep decodeStep (fun s => s.2.get? k2)
    · intro e he
      by_cases hk : e.1 = k2
      · right
        intro s
        have h2 : e.2 = some value := by
          have := (hmem e).1 he
          rw [hk, hv] at this
          exact (Option.some.inj this).symm
        rw [decodeStep_meta_get, h2]
        simp [hk, hc]
      · left
        intro s
        rw [decodeStep_meta_get]
        cases e.2 <;> simp [hk]
    · refine ⟨(k2, some value), (hmem _).2 hv, ?_⟩
      intro s
      rw [decodeStep_meta_get]
      simp [hc]
  · have hkeep : ∀ e ∈ visit, ∀ s : DecodeState, (decodeStep s e).2.get? k2 = s.2.get? k2 := by
      intro e he s
      rw [decodeStep_meta_get]
      cases h2 : e.2 with
      | none => rfl
      | some value =>
        have hn : ¬ (e.1 = k2 ∧ classify (ToLower e.1) = .other) := by
          rintro ⟨hk, hc⟩
          apply hset
          refine ⟨value, ?_, hk ▸ hc⟩
          have := (hmem e).1 he
          rw [hk, h2] at this
          exact this
        simp [hn]
    rw [foldl_keep decodeStep (fun s => s.2.get? k2) visit hkeep, h0]
    cases hg : m.get? k2 with
    | none => rfl
    | some o =>
      cases o with
      | none => rfl
      | some value =>
        have hn : ¬ classify (ToLower k2) = .other := fun hc => hset ⟨value, hg, hc⟩
        simp [hn]

/-! ## Decoding: errors -/

theorem jsonUnmarshalMap_ok_iff (b : RawMessage) :
    (∃ m, jsonUnmarshalMap b = .ok m) ↔ (b.isObject = true ∨ b.isNull = true) := by
  cases b with
  | malformed => simp [jsonUnmarshalMap, RawMessage.isObject, RawMessage.isNull]
  | json v => cases v <;> simp [jsonUnmarshalMap, RawMessage.isObject, RawMessage.isNull]

theorem jsonUnmarshalMap_error (b : RawMessage) (h : ¬ ∃ m, jsonUnmarshalMap b = .ok m) :
    ∃ msg, jsonUnmarshalMap b = .error (.error msg) := by
  cases b with
  | malformed => exact ⟨_, rfl⟩
  | json v =>
    cases v with
    | null => exact absurd ⟨_, rfl⟩ h
    | obj ms => exact absurd ⟨_, rfl⟩ h
    | bool x => exact ⟨_, rfl⟩
    | num x => exact ⟨_, rfl⟩
    | str x => exact ⟨_, rfl⟩
    | arr x => exact ⟨_, rfl⟩

/-- C3, as corrected. `UnmarshalJSON` returns without error exactly for an input
that is a JSON object or the literal `null` (whatever the values under the keys
of the object are), and for every other input it returns an error; it never
panics. -/
theorem C3_unmarshal_error_iff (order : RangeOrder) (a : AggregatedFeedActivity)
    (b : RawMessage) :
    ((∃ a2, UnmarshalJSON order a b = .ok a2) ↔ (b.isObject = true ∨ b.isNull = true)) ∧
    ((∃ msg, UnmarshalJSON order a b = .error (.error msg)) ↔
      ¬ (b.isObject = true ∨ b.isNull = true)) ∧
    UnmarshalJSON order a b ≠ .error .panic := by
  rw [← jsonUnmarshalMap_ok_iff]
  by_cases h : ∃ m, jsonUnmarshalMap b = .ok m
  · obtain ⟨m, hm⟩ := h
    have e := UnmarshalJSON_of_map order a hm
    refine ⟨⟨fun _ => ⟨m, hm⟩, fun _ => ⟨_, e⟩⟩, ⟨?_, ?_⟩, ?_⟩
    · rintro ⟨msg, hmsg⟩; rw [e] at hmsg; exact Except.noConfusion hmsg
    · intro hn; exact absurd ⟨m, hm⟩ hn
    · rw [e]; exact fun hc => Except.noConfusion hc
  · obtain ⟨msg, hmsg⟩ := jsonUnmarshalMap_error b h
    have e := UnmarshalJSON_of_error order a hmsg
    refine ⟨⟨?_, fun hm => absurd hm h⟩, ⟨fun _ => h, fun _ => ⟨msg, e⟩⟩, ?_⟩
    · rintro ⟨a2, ha2⟩; rw [e] at ha2; exact Except.noConfusion ha2
    · rw [e]; intro hc; injection hc with hc; exact Failure.noConfusion hc

/-- C3, counterexample. The input `null` is not a JSON object, yet
`UnmarshalJSON` returns no error for it. -/
theorem C3_null_is_accepted :
    (RawMessage.json JVal.null).isObject = false ∧
    ∃ a2, UnmarshalJSON RangeOrder.stored AggregatedFeedActivity.zero (.json .null) = .ok a2 :=
  ⟨rfl, _, rfl⟩

/-! ## Decoding: metadata -/

theorem foldl_filter_proj {S E T : Type} (f : S → E → S) (π : S → T) (p : E → Bool)
    (hcong : ∀ e s s2, π s = π s2 → π (f s e) = π (f s2 e))
    (hkeep : ∀ e, p e = false → ∀ s, π (f s e) = π s) (l : List E) (s s2 : S)
    (h : π s = π s2) : π (l.foldl f s) = π ((l.filter p).foldl f s2) := by
  induction l generalizing s s2 with
  | nil => exact h
  | cons e l ih =>
    rw [List.foldl_cons, List.filter_cons]
    cases hp : p e with
    | true =>
      simp only [if_true, List.foldl_cons]
      exact ih _ _ (hcong e s s2 h)
    | false =>
      simp only [Bool.false_eq_true, if_false]
      exact ih _ _ ((hkeep e hp s).trans h)

theorem decodeStep_fst_congr (e : String × Option JVal) (s s2 : DecodeState)
    (h : s.1 = s2.1) : (decodeStep s e).1 = (decodeStep s2 e).1 := by
  obtain ⟨k, v⟩ := e
  cases v with
  | none => exact h
  | some value =>
    rw [decodeStep_some, decodeStep_some, h]
    cases classify (ToLower k) <;> rfl

theorem decodeStep_fst_other (st : DecodeState) (k : String) (v : Option JVal)
    (h : classify (ToLower k) = .other) : (decodeStep st (k, v)).1 = st.1 := by
  cases v with
  | none => rfl
  | some value => rw [decodeStep_some, h]

/-- C5. A key of the document whose lower-cased form is no known field name and
whose value is a JSON string `v` is stored in `MetaData` under its original
spelling with value `v`, and it reaches no typed field: all fields but
`MetaData` are as the same loop leaves them when the visit to that key is left
out. -/
theorem C5_unknown_key_is_captured (order : RangeOrder) (a : AggregatedFeedActivity)
    (b : RawMessage) (m : GoMap (Option JVal)) (hm : jsonUnmarshalMap b = .ok m)
    (k v : String) (hk : ToLower k ∉ knownFields) (hv : m.get? k = some (some (.str v))) :
    ∃ a2 st, UnmarshalJSON order a b = .ok a2 ∧ a2.MetaData.get? k = some v ∧
      decodeLoop ((order.visit m.entries).filter (fun e => !(e.1 == k))) (a, GoMap.empty)
        = .ok st ∧
      typedFields a2 = typedFields st.1 := by
  have hc : classify (ToLower k) = .other := (classify_other_iff _).2 hk
  refine ⟨_, _, UnmarshalJSON_of_map order a hm, ?_, decodeLoop_eq _ _, ?_⟩
  · show (List.foldl decodeStep (a, GoMap.empty) (order.visit m.entries)).2.get? k = some v
    rw [foldl_meta_get m _ (order.perm _) (a, GoMap.empty) k rfl]
    simp [metaValue, hv, hc, unmarshalString]
  · have key := foldl_filter_proj decodeStep (fun s => s.1) (fun e => !(e.1 == k))
      (fun e s s2 h => decodeStep_fst_congr e s s2 h)
      (fun e he s => by
        have hek : e.1 = k := by simpa using he
        obtain ⟨k2, v2⟩ := e
        simp only at hek
        subst hek
        exact decodeStep_fst_other s _ v2 hc)
      (order.visit m.entries) (a, GoMap.empty) (a, GoMap.empty) rfl
    simp only at key
    simp only [typedFields, finish]
    rw [key]

/-- C5, witness: in the sample document `"foo": "bar"` is captured as
`MetaData["foo"] == "bar"`. -/
theorem C5_witness :
    ∃ a2 st, UnmarshalJSON RangeOrder.stored AggregatedFeedActivity.zero sampleDocument = .ok a2 ∧
      a2.MetaData.get? "foo" = some "bar" ∧
      decodeLoop ((RangeOrder.stored.visit sampleMap.entries).filter (fun e => !(e.1 == "foo")))
        (AggregatedFeedActivity.zero, GoMap.empty) = .ok st ∧
      typedFields a2 = typedFields st.1 :=
  C5_unknown_key_is_captured RangeOrder.stored AggregatedFeedActivity.zero sampleDocument
    sampleMap rfl "foo" "bar" (by decide) rfl

theorem unmarshalString_not_string {v : JVal} (hs : ∀ s, v ≠ .str s) :
    (unmarshalString v).1 = "" := by
  cases v <;> first | rfl | exact absurd rfl (hs _)

/-- C14, as corrected. A key of the document whose lower-cased form is no known
field name and whose value is a JSON value that is not a string is stored in
`MetaData` with the empty string as its value, and no error is raised. -/
theorem C14_non_string_stored_empty (order : RangeOrder) (a : AggregatedFeedActivity)
    (b : RawMessage) (m : GoMap (Option JVal)) (hm : jsonUnmarshalMap b = .ok m)
    (k : String) (value : JVal) (hk : ToLower k ∉ knownFields)
    (hv : m.get? k = some (some value)) (hs : ∀ s, value ≠ .str s) :
    ∃ a2, UnmarshalJSON order a b = .ok a2 ∧ a2.MetaData.get? k = some "" := by
  have hc : classify (ToLower k) = .other := (classify_other_iff _).2 hk
  refine ⟨_, UnmarshalJSON_of_map order a hm, ?_⟩
  show (List.foldl decodeStep (a, GoMap.empty) (order.visit m.entries)).2.get? k = some ""
  rw [foldl_meta_get m _ (order.perm _) (a, GoMap.empty) k rfl]
  simp [metaValue, hv, hc, unmarshalString_not_string hs]

/-- C14, witness: the number under `n` in the sample document. -/
theorem C14_witness :
    ∃ a2, UnmarshalJSON RangeOrder.stored AggregatedFeedActivity.zero sampleDocument = .ok a2 ∧
      a2.MetaData.get? "n" = some "" :=
  C14_non_string_stored_empty RangeOrder.stored AggregatedFeedActivity.zero sampleDocument
    sampleMap rfl "n" (.num "7") (by decide) rfl (fun s h => JVal.noConfusion h)

/-- C14, counterexample. The document `{"n": 7}` decodes without error and its
`MetaData` has an entry for `n`, the empty string. -/
theorem C14_number_is_stored :
    ∃ a2, UnmarshalJSON RangeOrder.stored AggregatedFeedActivity.zero
        (.json (.obj [("n", .num "7")])) = .ok a2 ∧
      a2.MetaData.get? "n" = some "" ∧ a2.MetaData.get? "n" ≠ none :=
  ⟨_, rfl, rfl, fun h => Option.noConfusion h⟩

/-! ## Decoding: recipients -/

/-- C7, the failing inputs. For `user:1 a b` the token after the first space is
`a b`, for `user:1 to:k` it is `to:k`; the decoder keeps only `a` and `to`,
the text up to the next space or colon. -/
theorem C7_token_is_truncated :
    decodeRecipient [] "user:1 a b" = .ok [Feed.general ⟨"user", "1", "a"⟩] ∧
    decodeRecipient [] "user:1 to:k" = .ok [Feed.general ⟨"user", "1", "to"⟩] ∧
    decodeRecipient [] "user:1 tok" = .ok [Feed.general ⟨"user", "1", "tok"⟩] := by
  refine ⟨?_, ?_, ?_⟩ <;> rfl

theorem unmarshalStrings_strs (l : List String) :
    unmarshalStrings (.arr (l.map JVal.str)) = (l, false) := by
  simp only [unmarshalStrings, List.map_map, List.any_map]
  congr 1
  · induction l with
    | nil => rfl
    | cons x xs ih => simp [unmarshalString] at ih ⊢; exact ih
  · induction l with
    | nil => rfl
    | cons x xs ih => simp [unmarshalString] at ih ⊢

theorem toEntries_strs (l : List String) : toEntries (.arr (l.map JVal.str)) = l := by
  simp [toEntries, unmarshalStrings_strs]

theorem unmarshalStrings_paired (pairs : List (List String)) (hne : pairs ≠ []) :
    unmarshalStrings (pairedValue pairs) = (pairs.map (fun _ => ""), true) := by
  simp only [unmarshalStrings, pairedValue, List.map_map, List.any_map]
  congr 1
  cases pairs with
  | nil => exact absurd rfl hne
  | cons p ps => simp [unmarshalString]

theorem unmarshalStrings2_paired (pairs : List (List String)) :
    unmarshalStrings2 (pairedValue pairs) = (pairs, false) := by
  simp only [unmarshalStrings2, pairedValue, List.map_map, List.any_map]
  congr 1
  · induction pairs with
    | nil => rfl
    | cons p ps ih => simp [unmarshalStrings_strs] at ih ⊢; exact ih
  · induction pairs with
    | nil => rfl
    | cons p ps ih => simp [unmarshalStrings_strs] at ih ⊢

theorem recipientOf_empty : recipientOf "" = none := rfl

theorem filterMap_recipientOf_blank (pairs : List (List String)) :
    (pairs.map (fun _ => "")).filterMap recipientOf = [] := by
  induction pairs with
  | nil => rfl
  | cons p ps ih => simp [List.filterMap_cons, recipientOf_empty, ih]

theorem filterMap_joinPair (pairs : List (List String))
    (h : ∀ p ∈ pairs, p.length = 1 ∨ p.length = 2) :
    pairs.filterMap joinPair = pairs.map flatOf := by
  induction pairs with
  | nil => rfl
  | cons p ps ih =>
    have ihp := ih (fun q hq => h q (List.mem_cons_of_mem _ hq))
    have hp := h p (List.mem_cons_self _ _)
    match p, hp with
    | [x], _ => simp [List.filterMap_cons, joinPair, flatOf, ihp]
    | [x, y], _ => simp [List.filterMap_cons, joinPair, flatOf, ihp]
    | [], hp => simp at hp
    | _ :: _ :: _ :: _, hp => simp at hp

theorem toEntries_paired (pairs : List (List String))
    (h : ∀ p ∈ pairs, p.length = 1 ∨ p.length = 2) :
    (toEntries (pairedValue pairs)).filterMap recipientOf =
      (toEntries (flatValue pairs)).filterMap recipientOf := by
  rw [flatValue, toEntries_strs]
  by_cases hne : pairs = []
  · subst hne; rfl
  · simp only [toEntries, unmarshalStrings_paired pairs hne, unmarshalStrings2_paired,
      if_true, Bool.false_eq_true, if_false, List.filterMap_append,
      filterMap_recipientOf_blank, List.nil_append, filterMap_joinPair pairs h]

/-- C8. A `to` value that is a list of 1- or 2-element lists of strings decodes
exactly as the flat list obtained by passing each 1-element entry through and
joining each 2-element entry with one space: the branch of the decoder gives
the same receiver, and so does the whole loop over any visiting sequence in
which the one value stands for the other. -/
theorem C8_paired_form_decodes_as_flat (pairs : List (List String))
    (h : ∀ p ∈ pairs, p.length = 1 ∨ p.length = 2) :
    (∀ a, decodeTo a (pairedValue pairs) = decodeTo a (flatValue pairs)) ∧
    (∀ (before after : List (String × Option JVal)) (key : String) (st : DecodeState),
      ToLower key = "to" →
      decodeLoop (before ++ (key, some (pairedValue pairs)) :: after) st =
        decodeLoop (before ++ (key, some (flatValue pairs)) :: after) st) ∧
    (∀ order,
      UnmarshalJSON order AggregatedFeedActivity.zero (.json (.obj [("to", pairedValue pairs)])) =
        UnmarshalJSON order AggregatedFeedActivity.zero
          (.json (.obj [("to", flatValue pairs)]))) := by
  have hto : ∀ a, decodeTo a (pairedValue pairs) = decodeTo a (flatValue pairs) := by
    intro a
    rw [decodeTo_eq, decodeTo_eq, toEntries_paired pairs h]
  have hstep : ∀ (key : String) (st : DecodeState), ToLower key = "to" →
      decodeStep st (key, some (pairedValue pairs)) =
        decodeStep st (key, some (flatValue pairs)) := by
    intro key st hk
    have hc : classify (ToLower key) = .to := (classify_to _).2 hk
    rw [decodeStep_some, decodeStep_some, hc]
    simp only [toEntries_paired pairs h]
  refine ⟨hto, ?_, ?_⟩
  · intro before after key st hk
    rw [decodeLoop_eq, decodeLoop_eq, List.foldl_append, List.foldl_append, List.foldl_cons,
      List.foldl_cons, hstep key _ hk]
  · intro order
    have e1 : jsonUnmarshalMap (.json (.obj [("to", pairedValue pairs)])) =
        .ok (GoMap.empty.set "to" (some (pairedValue pairs))) := rfl
    have e2 : jsonUnmarshalMap (.json (.obj [("to", flatValue pairs)])) =
        .ok (GoMap.empty.set "to" (some (flatValue pairs))) := rfl
    rw [UnmarshalJSON_of_map order _ e1, UnmarshalJSON_of_map order _ e2]
    have p1 := List.perm_singleton.1 (order.perm (GoMap.empty.set "to" (some (pairedValue pairs))).entries)
    have p2 := List.perm_singleton.1 (order.perm (GoMap.empty.set "to" (some (flatValue pairs))).entries)
    have q1 : (GoMap.empty.set "to" (some (pairedValue pairs))).entries =
        [("to", some (pairedValue pairs))] := rfl
    have q2 : (GoMap.empty.set "to" (some (flatValue pairs))).entries =
        [("to", some (flatValue pairs))] := rfl
    rw [q1] at p1
    rw [q2] at p2
    rw [q1, q2, p1, p2]
    simp only [List.foldl_cons, List.foldl_nil]
    rw [hstep "to" _ rfl]

/-- C8, witness: `[["user:1"],["flat:2","tok"]]` decodes like
`["user:1","flat:2 tok"]`. -/
theorem C8_witness :
    decodeTo AggregatedFeedActivity.zero (pairedValue [["user:1"], ["flat:2", "tok"]]) =
      decodeTo AggregatedFeedActivity.zero (.arr [.str "user:1", .str "flat:2 tok"]) :=
  (C8_paired_form_decodes_as_flat [["user:1"], ["flat:2", "tok"]] (by decide)).1 _

theorem filterMap_length_le {α β : Type} (f : α → Option β) (l : List α) :
    (l.filterMap f).length ≤ l.length := by
  induction l with
  | nil => simp
  | cons x xs ih =>
    rw [List.filterMap_cons]
    cases f x <;> simp <;> omega

/-- C15. For a flat list of strings given as `to`, the decoder appends one
recipient for each entry that matches `^\w+:\w+ .*?$` or `^\w+:\w+$`, in input
order, and none for any other entry, without error: the result is never longer
than the input. An entry `slug:id` of two word runs gives that slug, that user
id and an empty token. -/
theorem C15_recipients_are_filtered_in_order (entries : List String) :
    (∀ a, decodeTo a (.arr (entries.map JVal.str)) =
      .ok { a with To := a.To ++ entries.filterMap recipientOf }) ∧
    (∀ order, UnmarshalJSON order AggregatedFeedActivity.zero
        (.json (.obj [("to", .arr (entries.map JVal.str))])) =
      .ok { AggregatedFeedActivity.zero with To := entries.filterMap recipientOf }) ∧
    (∀ entry, (recipientOf entry).isSome = true ↔
      (toTokenPattern.MatchString entry = true ∨ toPlainPattern.MatchString entry = true)) ∧
    (entries.filterMap recipientOf).length ≤ entries.length ∧
    (∀ slug user : List Char, IsWordRun slug → IsWordRun user →
      recipientOf (String.mk (slug ++ ':' :: user)) =
        some (Feed.general ⟨String.mk slug, String.mk user, ""⟩)) := by
  refine ⟨?_, ?_, recipientOf_isSome, filterMap_length_le _ _, ?_⟩
  · intro a
    rw [decodeTo_eq, toEntries_strs]
  · intro order
    have e1 : jsonUnmarshalMap (.json (.obj [("to", .arr (entries.map JVal.str))])) =
        .ok (GoMap.empty.set "to" (some (.arr (entries.map JVal.str)))) := rfl
    rw [UnmarshalJSON_of_map order _ e1]
    have q1 : (GoMap.empty.set "to" (some (JVal.arr (entries.map JVal.str)))).entries =
        [("to", some (.arr (entries.map JVal.str)))] := rfl
    have p1 := List.perm_singleton.1
      (order.perm (GoMap.empty.set "to" (some (JVal.arr (entries.map JVal.str)))).entries)
    rw [q1] at p1
    rw [q1, p1]
    simp only [List.foldl_cons, List.foldl_nil]
    rw [decodeStep_some, (classify_to _).2 (rfl : ToLower "to" = "to")]
    simp only [toEntries_strs]
    rfl
  · intro slug user h1 h2
    simp [recipientOf, decodeRecipient_plain [] h1 h2]

theorem Split_length_token {w1 w2 rest : List Char} (h1 : IsWordRun w1) :
    2 ≤ (Split (String.mk (w1 ++ ':' :: (w2 ++ ' ' :: rest))) ':').length := by
  have hs1 : splitChars ':' (w1 ++ ':' :: (w2 ++ ' ' :: rest)) =
      w1 :: splitChars ':' (w2 ++ ' ' :: rest) :=
    splitChars_append_sep _ (fun c hc => isWord_ne_colon (h1.2 c hc))
  simp only [Split, hs1, List.map_cons, List.length_cons, List.length_map]
  have := List.length_pos.2 (splitChars_ne_nil ':' (w2 ++ ' ' :: rest))
  omega

theorem UnmarshalJSON_ne_panic (order : RangeOrder) (a : AggregatedFeedActivity)
    (b : RawMessage) : UnmarshalJSON order a b ≠ .error .panic := by
  by_cases h : ∃ m, jsonUnmarshalMap b = .ok m
  · obtain ⟨m, hm⟩ := h
    rw [UnmarshalJSON_of_map order a hm]
    exact fun hc => Except.noConfusion hc
  · obtain ⟨msg, hmsg⟩ := jsonUnmarshalMap_error b h
    rw [UnmarshalJSON_of_error order a hmsg]
    intro hc; injection hc with hc; exact Failure.noConfusion hc

/-- C19. A string matching `^\w+:\w+ .*?$` splits on `:` into at least two
parts and its second part splits on a space into at least two parts; a string
matching `^\w+:\w+$` splits on `:` into exactly two parts. So no round of the
recipient loop panics, and neither does `UnmarshalJSON` on any input. -/
theorem C19_recipient_indexing_in_bounds :
    (∀ s : String, toTokenPattern.MatchString s = true →
      2 ≤ (Split s ':').length ∧
      ∃ second, (Split s ':').get? 1 = some second ∧ 2 ≤ (Split second ' ').length) ∧
    (∀ s : String, toPlainPattern.MatchString s = true → (Split s ':').length = 2) ∧
    (∀ tos entry, ∃ r, decodeRecipient tos entry = .ok r) ∧
    (∀ order a b, UnmarshalJSON order a b ≠ .error .panic) := by
  refine ⟨?_, ?_, fun tos entry => ⟨_, decodeRecipient_eq tos entry⟩,
    fun order a b => UnmarshalJSON_ne_panic order a b⟩
  · intro s hm
    obtain ⟨w1, w2, rest, hs, h1, h2, hr⟩ := (toTokenPattern_iff _).1 hm
    have he : s = String.mk (w1 ++ ':' :: (w2 ++ ' ' :: rest)) := by rw [← hs]
    subst he
    refine ⟨Split_length_token h1, String.mk (w2 ++ ' ' :: upTo ':' rest), ?_, ?_⟩
    · have hs1 : splitChars ':' (w1 ++ ':' :: (w2 ++ ' ' :: rest)) =
          w1 :: splitChars ':' (w2 ++ ' ' :: rest) :=
        splitChars_append_sep _ (fun c hc => isWord_ne_colon (h1.2 c hc))
      have hh : (splitChars ':' (w2 ++ ' ' :: rest)).head? =
          some (w2 ++ ' ' :: upTo ':' rest) := by
        rw [splitChars_head]
        congr 1
        rw [List.takeWhile_append_of_pos]
        · simp [List.takeWhile, upTo]
        · intro c hc
          simpa using isWord_ne_colon (h2.2 c hc)
      simp only [Split, hs1, List.map_cons]
      apply get?_one_of_head
      rw [List.head?_map, hh]; rfl
    · have hs2 : splitChars ' ' (w2 ++ ' ' :: upTo ':' rest) =
          w2 :: splitChars ' ' (upTo ':' rest) :=
        splitChars_append_sep _ (fun c hc => isWord_ne_space (h2.2 c hc))
      simp only [Split, hs2, List.map_cons, List.length_cons, List.length_map]
      have := List.length_pos.2 (splitChars_ne_nil ' ' (upTo ':' rest))
      omega
  · intro s hm
    obtain ⟨w1, w2, hs, h1, h2⟩ := (toPlainPattern_iff _).1 hm
    have he : s = String.mk (w1 ++ ':' :: w2) := by rw [← hs]
    subst he
    have hs1 : splitChars ':' (w1 ++ ':' :: w2) = [w1, w2] := by
      rw [splitChars_append_sep _ (fun c hc => isWord_ne_colon (h1.2 c hc)),
        splitChars_no_sep (fun c hc => isWord_ne_colon (h2.2 c hc))]
    simp [Split, hs1]

/-! ## Encoding: the payload -/

theorem foldl_set_get {V W : Type} (g : V → W) (l : List (String × V)) (hs : SortedKeys l)
    (p : GoMap W) (k : String) :
    (l.foldl (fun p e => p.set e.1 (g e.2)) p).get? k =
      match lookupKey k l with
      | some v => some (g v)
      | none => p.get? k := by
  induction l generalizing p with
  | nil => rfl
  | cons e l ih =>
    have hx := List.pairwise_cons.1 hs
    rw [List.foldl_cons, ih hx.2]
    by_cases hk : e.1 = k
    · have hn : lookupKey k l = none :=
        lookupKey_eq_none (fun x hxm => hk ▸ Ne.symm (keyLT_ne (hx.1 x hxm)))
      rw [hn]
      simp only [lookupKey, if_pos hk]
      rw [← hk, GoMap.get?_set_self]
    · simp only [lookupKey, if_neg hk]
      cases lookupKey k l with
      | none => exact GoMap.get?_set_ne _ _ (Ne.symm hk)
      | some v => rfl

theorem copyMetaData_get (md : GoMap String) (p : GoMap PayloadValue) (k : String) :
    (copyMetaData md p).get? k =
      match md.get? k with
      | some v => some (.str v)
      | none => p.get? k := by
  have h := foldl_set_get PayloadValue.str md.entries md.sorted p k
  unfold copyMetaData
  rw [h]
  show _ = match lookupKey k md.entries with
    | some v => some (PayloadValue.str v)
    | none => p.get? k
  cases lookupKey k md.entries <;> rfl

theorem encodeTos_eq (feeds : List Feed) : encodeTos feeds = feeds.map encodeTo := by
  unfold encodeTos
  have h : ∀ (acc : List String),
      feeds.foldl (fun tos feed => tos ++ [encodeTo feed]) acc = acc ++ feeds.map encodeTo := by
    induction feeds with
    | nil => intro acc; simp
    | cons f fs ih => intro acc; rw [List.foldl_cons, ih]; simp
  simpa using h []

theorem get?_ite_set {V : Type} (c : Prop) [Decidable c] (m : GoMap V) (k k2 : String) (v : V) :
    (if c then m.set k v else m).get? k2 = if c ∧ k2 = k then some v else m.get? k2 := by
  by_cases hc : c
  · rw [if_pos hc, GoMap.get?_set]
    by_cases hk : k2 = k
    · rw [if_pos hk, if_pos ⟨hc, hk⟩]
    · rw [if_neg hk, if_neg (fun h => hk h.2)]
  · rw [if_neg hc, if_neg (fun h => hc h.1)]

theorem payloadOf_get (now : Time) (a : AggregatedFeedActivity) (k : String) :
    (payloadOf now a).get? k = payloadValue now a k := by
  unfold payloadOf payloadValue
  cases hD : a.Data with
  | none =>
    simp only [get?_ite_set, GoMap.get?_set, copyMetaData_get, GoMap.get?_empty, FeedID.Value,
      Option.isSome_none, Bool.false_eq_true, false_and, if_false]
    cases a.MetaData.get? k <;> rfl
  | some d =>
    simp only [get?_ite_set, GoMap.get?_set, copyMetaData_get, GoMap.get?_empty, FeedID.Value,
      Option.isSome_some, true_and, Option.map_some']
    cases a.MetaData.get? k <;> rfl

theorem buildPayload_eq (now : Time) (a : AggregatedFeedActivity) :
    buildPayload now a =
      if (a.ForeignID != "") = true ∧ foreignIDPattern.MatchString a.ForeignID = false then
        .error (.error "invalid ForeignID")
      else .ok (payloadOf now a) := by
  unfold buildPayload
  by_cases h1 : (a.ForeignID != "") = true
  · cases h2 : foreignIDPattern.MatchString a.ForeignID <;> simp [h1, h2]
  · simp [h1]

/-! ## Encoding: the document -/

theorem marshalMembers_cons_ok {k : String} {v : PayloadValue}
    {rest : List (String × PayloadValue)} {ms : List (String × JVal)}
    (h : marshalMembers ((k, v) :: rest) = .ok ms) :
    ∃ j js, marshalValue v = .ok j ∧ marshalMembers rest = .ok js ∧ ms = (k, j) :: js := by
  unfold marshalMembers at h
  cases hv : marshalValue v with
  | error e => rw [hv] at h; exact Except.noConfusion h
  | ok j =>
    cases hr : marshalMembers rest with
    | error e => rw [hv, hr] at h; exact Except.noConfusion h
    | ok js =>
      rw [hv, hr] at h
      injection h with h
      exact ⟨j, js, rfl, rfl, h.symm⟩

theorem marshalMembers_lookup {l : List (String × PayloadValue)} {ms : List (String × JVal)}
    (h : marshalMembers l = .ok ms) (k : String) :
    lookupKey k ms = (lookupKey k l).bind jsonOf := by
  induction l generalizing ms with
  | nil =>
    unfold marshalMembers at h
    injection h with h
    subst h
    rfl
  | cons e l ih =>
    obtain ⟨k1, v⟩ := e
    obtain ⟨j, js, hv, hr, hms⟩ := marshalMembers_cons_ok h
    subst hms
    by_cases hk : k1 = k
    · simp only [lookupKey, if_pos hk, Option.some_bind, jsonOf, hv]
    · simp only [lookupKey, if_neg hk]
      exact ih hr

theorem marshalMembers_sorted {l : List (String × PayloadValue)} {ms : List (String × JVal)}
    (h : marshalMembers l = .ok ms) (hs : SortedKeys l) : SortedKeys ms := by
  have hkeys : ∀ (l : List (String × PayloadValue)) (ms : List (String × JVal)),
      marshalMembers l = .ok ms → ms.map Prod.fst = l.map Prod.fst := by
    intro l
    induction l with
    | nil =>
      intro ms h
      unfold marshalMembers at h
      injection h with h
      subst h
      rfl
    | cons e l ih =>
      intro ms h
      obtain ⟨k1, v⟩ := e
      obtain ⟨j, js, hv, hr, hms⟩ := marshalMembers_cons_ok h
      subst hms
      simp only [List.map_cons, ih js hr]
  have hk := hkeys l ms h
  unfold SortedKeys at hs ⊢
  have h1 : (l.map Prod.fst).Pairwise (fun x y => keyLT x y = true) :=
    List.pairwise_map.2 hs
  rw [← hk] at h1
  exact List.pairwise_map.1 h1

theorem marshalMembers_ok_of {l : List (String × PayloadValue)}
    (h : ∀ e ∈ l, e.2 ≠ .raw .malformed) : ∃ ms, marshalMembers l = .ok ms := by
  induction l with
  | nil => exact ⟨[], rfl⟩
  | cons e l ih =>
    obtain ⟨k1, v⟩ := e
    obtain ⟨js, hjs⟩ := ih (fun x hx => h x (List.mem_cons_of_mem _ hx))
    have hv : ∃ j, marshalValue v = .ok j := by
      cases v with
      | str s => exact ⟨_, rfl⟩
      | strs s => exact ⟨_, rfl⟩
      | raw m =>
        cases m with
        | json j => exact ⟨_, rfl⟩
        | malformed => exact absurd rfl (h (k1, .raw .malformed) (List.mem_cons_self _ _))
    obtain ⟨j, hj⟩ := hv
    refine ⟨(k1, j) :: js, ?_⟩
    unfold marshalMembers
    rw [hj, hjs]

theorem marshalMembers_error_of {l : List (String × PayloadValue)} {e : String × PayloadValue}
    (he : e ∈ l) (hm : e.2 = .raw .malformed) :
    marshalMembers l =
      .error (.error "json: error calling MarshalJSON for type json.RawMessage") := by
  induction l with
  | nil => exact absurd he (List.not_mem_nil e)
  | cons x l ih =>
    obtain ⟨k1, v⟩ := x
    unfold marshalMembers
    cases hv : marshalValue v with
    | error err =>
      have : err = .error "json: error calling MarshalJSON for type json.RawMessage" := by
        cases v with
        | str s => exact Except.noConfusion hv
        | strs s => exact Except.noConfusion hv
        | raw m =>
          cases m with
          | json j => exact Except.noConfusion hv
          | malformed =>
            unfold marshalValue at hv
            injection hv with hv
            exact hv.symm
      rw [this]
    | ok j =>
      rcases List.mem_cons.1 he with h1 | h1
      · subst h1
        simp only at hm
        subst hm
        exact Except.noConfusion hv
      · simp only [ih h1]

theorem payloadValue_to (now : Time) (a : AggregatedFeedActivity) :
    payloadValue now a "to" =
      if (encodeTos a.To).length > 0 then some (.strs (encodeTos a.To))
      else (a.MetaData.get? "to").map PayloadValue.str := by
  unfold payloadValue
  by_cases h : (encodeTos a.To).length > 0
  · rw [if_pos ⟨h, rfl⟩, if_pos h]
  · rw [if_neg (fun c => h c.1), if_neg h, if_neg (by decide), if_neg (fun c => absurd c.2 (by decide)),
      if_neg (fun c => absurd c.2 (by decide)), if_neg (fun c => absurd c.2 (by decide)),
      if_neg (fun c => absurd c.2 (by decide)), if_neg (by decide), if_neg (by decide),
      if_neg (by decide), if_neg (by decide)]

theorem payloadValue_time (now : Time) (a : AggregatedFeedActivity) :
    payloadValue now a "time" = some (.str (timeText now a)) := by
  unfold payloadValue
  rw [if_neg (fun c => absurd c.2 (by decide)), if_pos rfl]

theorem payloadValue_foreign_id (now : Time) (a : AggregatedFeedActivity) :
    payloadValue now a "foreign_id" =
      if (a.ForeignID != "") = true then some (.str a.ForeignID)
      else (a.MetaData.get? "foreign_id").map PayloadValue.str := by
  unfold payloadValue
  rw [if_neg (fun c => absurd c.2 (by decide)), if_neg (by decide)]
  by_cases h : (a.ForeignID != "") = true
  · rw [if_pos ⟨h, rfl⟩, if_pos h]
  · rw [if_neg (fun c => h c.1), if_neg h, if_neg (fun c => absurd c.2 (by decide)),
      if_neg (fun c => absurd c.2 (by decide)), if_neg (fun c => absurd c.2 (by decide)),
      if_neg (by decide), if_neg (by decide), if_neg (by decide), if_neg (by decide)]

theorem payloadValue_data (now : Time) (a : AggregatedFeedActivity) :
    payloadValue now a "data" =
      match a.Data with
      | some d => some (.raw d)
      | none => (a.MetaData.get? "data").map PayloadValue.str := by
  unfold payloadValue
  rw [if_neg (fun c => absurd c.2 (by decide)), if_neg (by decide),
    if_neg (fun c => absurd c.2 (by decide))]
  cases hD : a.Data with
  | some d => rw [if_pos ⟨rfl, rfl⟩]; rfl
  | none =>
    rw [if_neg (fun c => absurd c.1 (by decide)), if_neg (fun c => absurd c.2 (by decide)),
      if_neg (fun c => absurd c.2 (by decide)),
      if_neg (by decide), if_neg (by decide), if_neg (by decide), if_neg (by decide)]

theorem payloadValue_target (now : Time) (a : AggregatedFeedActivity) :
    payloadValue now a "target" =
      if (a.Target != "") = true then some (.str a.Target)
      else (a.MetaData.get? "target").map PayloadValue.str := by
  unfold payloadValue
  rw [if_neg (fun c => absurd c.2 (by decide)), if_neg (by decide),
    if_neg (fun c => absurd c.2 (by decide)), if_neg (fun c => absurd c.2 (by decide))]
  by_cases h : (a.Target != "") = true
  · rw [if_pos ⟨h, rfl⟩, if_pos h]
  · rw [if_neg (fun c => h c.1), if_neg h, if_neg (fun c => absurd c.2 (by decide)),
      if_neg (by decide), if_neg (by decide), if_neg (by decide), if_neg (by decide)]

theorem payloadValue_id (now : Time) (a : AggregatedFeedActivity) :
    payloadValue now a "id" =
      if (a.ID != "") = true then some (.str a.ID)
      else (a.MetaData.get? "id").map PayloadValue.str := by
  unfold payloadValue
  rw [if_neg (fun c => absurd c.2 (by decide)), if_neg (by decide),
    if_neg (fun c => absurd c.2 (by decide)), if_neg (fun c => absurd c.2 (by decide)),
    if_neg (fun c => absurd c.2 (by decide))]
  by_cases h : (a.ID != "") = true
  · rw [if_pos ⟨h, rfl⟩, if_pos h]
  · rw [if_neg (fun c => h c.1), if_neg h,
      if_neg (by decide), if_neg (by decide), if_neg (by decide), if_neg (by decide)]

theorem payloadValue_origin (now : Time) (a : AggregatedFeedActivity) :
    payloadValue now a "origin" = some (.str a.Origin) := by
  unfold payloadValue
  rw [if_neg (fun c => absurd c.2 (by decide)), if_neg (by decide),
    if_neg (fun c => absurd c.2 (by decide)), if_neg (fun c => absurd c.2 (by decide)),
    if_neg (fun c => absurd c.2 (by decide)), if_neg (fun c => absurd c.2 (by decide)),
    if_pos rfl]

theorem payloadValue_object (now : Time) (a : AggregatedFeedActivity) :
    payloadValue now a "object" = some (.str a.Object) := by
  unfold payloadValue
  rw [if_neg (fun c => absurd c.2 (by decide)), if_neg (by decide),
    if_neg (fun c => absurd c.2 (by decide)), if_neg (fun c => absurd c.2 (by decide)),
    if_neg (fun c => absurd c.2 (by decide)), if_neg (fun c => absurd c.2 (by decide)),
    if_neg (by decide), if_pos rfl]

theorem payloadValue_verb (now : Time) (a : AggregatedFeedActivity) :
    payloadValue now a "verb" = some (.str a.Verb) := by
  unfold payloadValue
  rw [if_neg (fun c => absurd c.2 (by decide)), if_neg (by decide),
    if_neg (fun c => absurd c.2 (by decide)), if_neg (fun c => absurd c.2 (by decide)),
    if_neg (fun c => absurd c.2 (by decide)), if_neg (fun c => absurd c.2 (by decide)),
    if_neg (by decide), if_neg (by decide), if_pos rfl]

theorem payloadValue_actor (now : Time) (a : AggregatedFeedActivity) :
    payloadValue now a "actor" = some (.str a.Actor) := by
  unfold payloadValue
  rw [if_neg (fun c => absurd c.2 (by decide)), if_neg (by decide),
    if_neg (fun c => absurd c.2 (by decide)), if_neg (fun c => absurd c.2 (by decide)),
    if_neg (fun c => absurd c.2 (by decide)), if_neg (fun c => absurd c.2 (by decide)),
    if_neg (by decide), if_neg (by decide), if_neg (by decide), if_pos rfl]

theorem payloadValue_other (now : Time) (a : AggregatedFeedActivity) {k : String}
    (h : k ∉ knownFields) : payloadValue now a k = (a.MetaData.get? k).map PayloadValue.str := by
  have hn : ∀ y ∈ knownFields, k ≠ y := fun y hy e => h (e ▸ hy)
  unfold payloadValue
  rw [if_neg (fun c => hn "to" (by decide) c.2), if_neg (hn "time" (by decide)),
    if_neg (fun c => hn "foreign_id" (by decide) c.2),
    if_neg (fun c => hn "data" (by decide) c.2), if_neg (fun c => hn "target" (by decide) c.2),
    if_neg (fun c => hn "id" (by decide) c.2), if_neg (hn "origin" (by decide)),
    if_neg (hn "object" (by decide)), if_neg (hn "verb" (by decide)),
    if_neg (hn "actor" (by decide))]

/-- The typed keys the encoder may write. -/
theorem payloadValue_cases (now : Time) (a : AggregatedFeedActivity) (k : String) :
    k ∈ knownFields ∨ payloadValue now a k = (a.MetaData.get? k).map PayloadValue.str := by
  by_cases h : k ∈ knownFields
  · exact Or.inl h
  · exact Or.inr (payloadValue_other now a h)

theorem MarshalJSON_eq (now : Time) (a : AggregatedFeedActivity) :
    MarshalJSON now a =
      if (a.ForeignID != "") = true ∧ foreignIDPattern.MatchString a.ForeignID = false then
        .error (.error "invalid ForeignID")
      else jsonMarshal (payloadOf now a) := by
  unfold MarshalJSON
  rw [buildPayload_eq]
  by_cases h : (a.ForeignID != "") = true ∧ foreignIDPattern.MatchString a.ForeignID = false
  · rw [if_pos h, if_pos h]
  · rw [if_neg h, if_neg h]

theorem ite_str_ne_raw (c : Prop) [Decidable c] (x : String) (o : Option String)
    (r : RawMessage) :
    (if c then some (PayloadValue.str x) else o.map PayloadValue.str) ≠ some (.raw r) := by
  by_cases hc : c
  · rw [if_pos hc]; intro h; injection h with h; exact PayloadValue.noConfusion h
  · rw [if_neg hc]
    cases o with
    | none => intro h; exact Option.noConfusion h
    | some v => intro h; injection h with h; exact PayloadValue.noConfusion h

theorem payloadValue_raw {now : Time} {a : AggregatedFeedActivity} {k : String}
    {r : RawMessage} (h : payloadValue now a k = some (.raw r)) : a.Data = some r := by
  rcases payloadValue_cases now a k with hk | hk
  · unfold knownFields at hk
    have hstr : ∀ x : String, some (PayloadValue.str x) ≠ some (.raw r) := by
      intro x hx; injection hx with hx; exact PayloadValue.noConfusion hx
    rcases List.mem_cons.1 hk with e | hk
    · rw [e, payloadValue_id] at h; exact absurd h (ite_str_ne_raw _ _ _ _)
    rcases List.mem_cons.1 hk with e | hk
    · rw [e, payloadValue_actor] at h; exact absurd h (hstr _)
    rcases List.mem_cons.1 hk with e | hk
    · rw [e, payloadValue_verb] at h; exact absurd h (hstr _)
    rcases List.mem_cons.1 hk with e | hk
    · rw [e, payloadValue_object] at h; exact absurd h (hstr _)
    rcases List.mem_cons.1 hk with e | hk
    · rw [e, payloadValue_origin] at h; exact absurd h (hstr _)
    rcases List.mem_cons.1 hk with e | hk
    · rw [e, payloadValue_target] at h; exact absurd h (ite_str_ne_raw _ _ _ _)
    rcases List.mem_cons.1 hk with e | hk
    · rw [e, payloadValue_time] at h; exact absurd h (hstr _)
    rcases List.mem_cons.1 hk with e | hk
    · rw [e, payloadValue_foreign_id] at h; exact absurd h (ite_str_ne_raw _ _ _ _)
    rcases List.mem_cons.1 hk with e | hk
    · rw [e, payloadValue_data] at h
      cases hD : a.Data with
      | some d =>
        rw [hD] at h
        simp only at h
        injection h with h
        injection h with h
        rw [h]
      | none =>
        rw [hD] at h
        simp only at h
        cases hm : a.MetaData.get? "data" with
        | none => rw [hm] at h; exact Option.noConfusion h
        | some v => rw [hm] at h; injection h with h; exact PayloadValue.noConfusion h
    rcases List.mem_cons.1 hk with e | hk
    · rw [e, payloadValue_to] at h
      by_cases hc : (encodeTos a.To).length > 0
      · rw [if_pos hc] at h; injection h with h; exact PayloadValue.noConfusion h
      · rw [if_neg hc] at h
        cases hm : a.MetaData.get? "to" with
        | none => rw [hm] at h; exact Option.noConfusion h
        | some v => rw [hm] at h; injection h with h; exact PayloadValue.noConfusion h
    exact absurd hk (List.not_mem_nil k)
  · rw [hk] at h
    cases hm : a.MetaData.get? k with
    | none => rw [hm] at h; exact Option.noConfusion h
    | some v => rw [hm] at h; injection h with h; exact PayloadValue.noConfusion h

theorem jsonMarshal_payload_ok {now : Time} {a : AggregatedFeedActivity}
    (h : a.Data ≠ some .malformed) : ∃ ms, marshalMembers (payloadOf now a).entries = .ok ms := by
  apply marshalMembers_ok_of
  intro e he hm
  have hg : (payloadOf now a).get? e.1 = some e.2 := (GoMap.mem_entries_iff _ _ _).1 he
  rw [payloadOf_get, hm] at hg
  exact h (payloadValue_raw hg)

theorem jsonMarshal_payload_error {now : Time} {a : AggregatedFeedActivity}
    (h : a.Data = some .malformed) :
    jsonMarshal (payloadOf now a) =
      .error (.error "json: error calling MarshalJSON for type json.RawMessage") := by
  have hg : (payloadOf now a).get? "data" = some (.raw .malformed) := by
    rw [payloadOf_get, payloadValue_data, h]
  have hmem := (GoMap.mem_entries_iff _ _ _).2 hg
  unfold jsonMarshal
  rw [marshalMembers_error_of hmem rfl]

theorem MarshalJSON_member {now : Time} {a : AggregatedFeedActivity} {doc : RawMessage}
    (h : MarshalJSON now a = .ok doc) (k : String) :
    doc.member? k = (payloadValue now a k).bind jsonOf := by
  rw [MarshalJSON_eq] at h
  by_cases hf : (a.ForeignID != "") = true ∧ foreignIDPattern.MatchString a.ForeignID = false
  · rw [if_pos hf] at h; exact Except.noConfusion h
  · rw [if_neg hf] at h
    unfold jsonMarshal at h
    cases hm : marshalMembers (payloadOf now a).entries with
    | error e => rw [hm] at h; exact Except.noConfusion h
    | ok ms =>
      rw [hm] at h
      injection h with h
      subst h
      show lookupKey k ms = _
      rw [marshalMembers_lookup hm k, ← payloadOf_get]
      rfl

theorem MarshalJSON_ok_data {now : Time} {a : AggregatedFeedActivity} {doc : RawMessage}
    (h : MarshalJSON now a = .ok doc) : a.Data ≠ some .malformed := by
  intro hd
  rw [MarshalJSON_eq] at h
  by_cases hf : (a.ForeignID != "") = true ∧ foreignIDPattern.MatchString a.ForeignID = false
  · rw [if_pos hf] at h; exact Except.noConfusion h
  · rw [if_neg hf, jsonMarshal_payload_error hd] at h; exact Except.noConfusion h

theorem bne_empty_iff (s : String) : (s != "") = true ↔ s ≠ "" := by simp

/-! ## Encoding: claims -/

/-- C2, as corrected. `MarshalJSON` fails with the error `invalid ForeignID`
exactly when `ForeignID` is not empty and does not match the pattern, whatever
the other fields are. Otherwise it succeeds exactly when `Data` is absent or a
JSON text; then, for an empty `ForeignID` the document has a `foreign_id` member
only from `MetaData`, and for a matching one its `foreign_id` is `ForeignID`.
The identifier `099978b6-3b72-4f5c-bc43-247ba6ae2dd9` matches and
`tester@mail.com` does not. -/
theorem C2_foreign_id_validation (now : Time) (a : AggregatedFeedActivity) :
    (MarshalJSON now a = .error (.error "invalid ForeignID") ↔
      (a.ForeignID ≠ "" ∧ foreignIDPattern.MatchString a.ForeignID = false)) ∧
    ((∃ doc, MarshalJSON now a = .ok doc) ↔
      ((a.ForeignID = "" ∨ foreignIDPattern.MatchString a.ForeignID = true) ∧
        a.Data ≠ some .malformed)) ∧
    (∀ doc, MarshalJSON now a = .ok doc → a.ForeignID = "" →
      doc.member? "foreign_id" = (a.MetaData.get? "foreign_id").map JVal.str) ∧
    (∀ doc, MarshalJSON now a = .ok doc → a.ForeignID ≠ "" →
      doc.member? "foreign_id" = some (.str a.ForeignID)) ∧
    foreignIDPattern.MatchString "099978b6-3b72-4f5c-bc43-247ba6ae2dd9" = true ∧
    foreignIDPattern.MatchString "tester@mail.com" = false := by
  have hb := bne_empty_iff a.ForeignID
  refine ⟨?_, ?_, ?_, ?_, by decide, by decide⟩
  · rw [MarshalJSON_eq]
    by_cases hf : (a.ForeignID != "") = true ∧ foreignIDPattern.MatchString a.ForeignID = false
    · rw [if_pos hf]; exact ⟨fun _ => ⟨hb.1 hf.1, hf.2⟩, fun _ => rfl⟩
    · rw [if_neg hf]
      refine ⟨fun h => ?_, fun h => absurd ⟨hb.2 h.1, h.2⟩ hf⟩
      exfalso
      by_cases hd : a.Data = some .malformed
      · rw [jsonMarshal_payload_error hd] at h
        injection h with h
        injection h with h
        revert h
        decide
      · obtain ⟨ms, hms⟩ := @jsonMarshal_payload_ok now a hd
        unfold jsonMarshal at h
        rw [hms] at h
        exact Except.noConfusion h
  · rw [MarshalJSON_eq]
    by_cases hf : (a.ForeignID != "") = true ∧ foreignIDPattern.MatchString a.ForeignID = false
    · rw [if_pos hf]
      constructor
      · rintro ⟨doc, h⟩; exact Except.noConfusion h
      · rintro ⟨h1 | h1, _⟩
        · exact absurd h1 (hb.1 hf.1)
        · rw [hf.2] at h1; exact Bool.noConfusion h1
    · rw [if_neg hf]
      have hv : a.ForeignID = "" ∨ foreignIDPattern.MatchString a.ForeignID = true := by
        by_cases h1 : a.ForeignID = ""
        · exact Or.inl h1
        · right
          cases hm : foreignIDPattern.MatchString a.ForeignID with
          | true => rfl
          | false => exact absurd ⟨hb.2 h1, hm⟩ hf
      constructor
      · rintro ⟨doc, h⟩
        refine ⟨hv, fun hd => ?_⟩
        rw [jsonMarshal_payload_error hd] at h
        exact Except.noConfusion h
      · rintro ⟨_, hd⟩
        obtain ⟨ms, hms⟩ := @jsonMarshal_payload_ok now a hd
        unfold jsonMarshal
        rw [hms]
        exact ⟨_, rfl⟩
  · intro doc h he
    rw [MarshalJSON_member h, payloadValue_foreign_id, if_neg (fun c => hb.1 c he)]
    cases a.MetaData.get? "foreign_id" <;> rfl
  · intro doc h hne
    rw [MarshalJSON_member h, payloadValue_foreign_id, if_pos (hb.2 hne)]
    rfl

/-- C2, counterexample. An activity with an empty `ForeignID` whose `Data` is
not a JSON text: encoding does not succeed, `json.Marshal` rejects the raw
message. -/
theorem C2_empty_foreign_id_can_fail :
    malformedDataActivity.ForeignID = "" ∧
    MarshalJSON sampleTime malformedDataActivity =
      .error (.error "json: error calling MarshalJSON for type json.RawMessage") :=
  ⟨rfl, rfl⟩

theorem encodeTo_eq (feed : Feed) :
    encodeTo feed = if feed.Token = "" then feed.FeedID else feed.FeedID ++ " " ++ feed.Token := by
  unfold encodeTo FeedID.Value
  by_cases h : feed.Token = ""
  · rw [if_pos h, if_neg (fun c => (bne_empty_iff _).1 c h)]
  · rw [if_neg h, if_pos ((bne_empty_iff _).2 h), String.append_assoc]

/-- C6. For a non-empty `To` list whose encoding succeeds, the `to` member of
the document is the list of strings, one per feed and in the same order, that
holds the reference alone for an empty token and reference, one space and token
otherwise. -/
theorem C6_recipient_encoding (now : Time) (a : AggregatedFeedActivity) (doc : RawMessage)
    (h : MarshalJSON now a = .ok doc) (hto : a.To ≠ []) :
    doc.member? "to" = some (.arr (a.To.map (fun feed =>
      .str (if feed.Token = "" then feed.FeedID else feed.FeedID ++ " " ++ feed.Token)))) := by
  have hlen : (encodeTos a.To).length > 0 := by
    rw [encodeTos_eq, List.length_map]
    exact List.length_pos.2 hto
  rw [MarshalJSON_member h, payloadValue_to, if_pos hlen, encodeTos_eq]
  simp only [Option.some_bind, jsonOf, marshalValue, List.map_map]
  congr 2
  apply List.map_congr_left
  intro feed _
  simp only [Function.comp, encodeTo_eq]

/-- C6, witness: `(user:1, "")` and `(user:1, "tok")` give
`["user:1", "user:1 tok"]`. -/
theorem C6_witness :
    ∃ doc, MarshalJSON sampleTime twoRecipients = .ok doc ∧
      doc.member? "to" = some (.arr [.str "user:1", .str "user:1 tok"]) :=
  ⟨_, rfl, C6_recipient_encoding sampleTime twoRecipients _ rfl (by decide)⟩

theorem isSome_ite_str (c : Prop) [Decidable c] (x : String) (o : Option String) :
    (((if c then some (PayloadValue.str x) else o.map PayloadValue.str).bind jsonOf).isSome
      = true) ↔ (c ∨ o.isSome = true) := by
  by_cases hc : c
  · rw [if_pos hc]
    exact ⟨fun _ => Or.inl hc, fun _ => rfl⟩
  · rw [if_neg hc]
    cases o with
    | none =>
      refine ⟨fun h => ?_, fun h => ?_⟩
      · exact Bool.noConfusion h
      · rcases h with h | h
        · exact absurd h hc
        · exact Bool.noConfusion h
    | some v => exact ⟨fun _ => Or.inr rfl, fun _ => rfl⟩

/-- C11, as corrected. In a document produced by `MarshalJSON` each of the keys
`id`, `target`, `foreign_id`, `data` and `to` is present exactly when its field
is non-empty (non-null for `Data`) or `MetaData` holds an entry under that key:
an empty field writes no key of its own. -/
theorem C11_conditional_keys (now : Time) (a : AggregatedFeedActivity) (doc : RawMessage)
    (h : MarshalJSON now a = .ok doc) :
    ((doc.member? "id").isSome = true ↔ (a.ID ≠ "" ∨ (a.MetaData.get? "id").isSome = true)) ∧
    ((doc.member? "target").isSome = true ↔
      (a.Target ≠ "" ∨ (a.MetaData.get? "target").isSome = true)) ∧
    ((doc.member? "foreign_id").isSome = true ↔
      (a.ForeignID ≠ "" ∨ (a.MetaData.get? "foreign_id").isSome = true)) ∧
    ((doc.member? "data").isSome = true ↔
      (a.Data ≠ none ∨ (a.MetaData.get? "data").isSome = true)) ∧
    ((doc.member? "to").isSome = true ↔
      (a.To ≠ [] ∨ (a.MetaData.get? "to").isSome = true)) := by
  refine ⟨?_, ?_, ?_, ?_, ?_⟩
  · rw [MarshalJSON_member h, payloadValue_id, isSome_ite_str, bne_empty_iff]
  · rw [MarshalJSON_member h, payloadValue_target, isSome_ite_str, bne_empty_iff]
  · rw [MarshalJSON_member h, payloadValue_foreign_id, isSome_ite_str, bne_empty_iff]
  · rw [MarshalJSON_member h, payloadValue_data]
    have hd := MarshalJSON_ok_data h
    cases hD : a.Data with
    | some d =>
      rw [hD] at hd
      cases d with
      | json v => exact ⟨fun _ => Or.inl (fun c => Option.noConfusion c), fun _ => rfl⟩
      | malformed => exact absurd rfl hd
    | none =>
      have := isSome_ite_str False "" (a.MetaData.get? "data")
      rw [if_neg (fun c => c)] at this
      simp only [this, false_or, ne_eq, not_true_eq_false]
  · rw [MarshalJSON_member h, payloadValue_to]
    have hlen : (encodeTos a.To).length > 0 ↔ a.To ≠ [] := by
      rw [encodeTos_eq, List.length_map]
      exact List.length_pos
    by_cases hc : (encodeTos a.To).length > 0
    · rw [if_pos hc]
      exact ⟨fun _ => Or.inl (hlen.1 hc), fun _ => rfl⟩
    · rw [if_neg hc]
      have := isSome_ite_str False "" (a.MetaData.get? "to")
      rw [if_neg (fun c => c)] at this
      rw [this]
      constructor
      · rintro (c | c)
        · exact absurd c (fun c => c)
        · exact Or.inr c
      · rintro (c | c)
        · exact absurd (hlen.2 c) hc
        · exact Or.inr c

/-- C11, witness: the activity with two recipients and no identifier has a `to`
member and no `id` member. -/
theorem C11_witness :
    ∃ doc, MarshalJSON sampleTime twoRecipients = .ok doc ∧
      (doc.member? "to").isSome = true ∧ ¬ (doc.member? "id").isSome = true := by
  refine ⟨_, rfl, ?_, ?_⟩
  · exact (C11_conditional_keys sampleTime twoRecipients _ rfl).2.2.2.2.2 (Or.inl (by decide))
  · exact fun c => Bool.noConfusion c

/-- C11, counterexample. An activity with an empty `ID` and a metadata entry
under `id`: the encoded document contains the key `id`. -/
theorem C11_id_from_metadata :
    metaIdActivity.ID = "" ∧
    ∃ doc, MarshalJSON sampleTime metaIdActivity = .ok doc ∧
      doc.member? "id" = some (.str "7") :=
  ⟨rfl, _, rfl, rfl⟩

/-- C12. A document produced by `MarshalJSON` has the members `actor`, `verb`,
`object`, `origin` and `time`; the first four hold the fields `Actor`, `Verb`,
`Object` and `Origin` (the empty string for an empty field), also when
`MetaData` has an entry under the same key, and `time` holds the formatted time. -/
theorem C12_required_keys (now : Time) (a : AggregatedFeedActivity) (doc : RawMessage)
    (h : MarshalJSON now a = .ok doc) :
    doc.member? "actor" = some (.str a.Actor) ∧ doc.member? "verb" = some (.str a.Verb) ∧
    doc.member? "object" = some (.str a.Object) ∧ doc.member? "origin" = some (.str a.Origin) ∧
    doc.member? "time" = some (.str (timeText now a)) := by
  refine ⟨?_, ?_, ?_, ?_, ?_⟩
  · rw [MarshalJSON_member h, payloadValue_actor]; rfl
  · rw [MarshalJSON_member h, payloadValue_verb]; rfl
  · rw [MarshalJSON_member h, payloadValue_object]; rfl
  · rw [MarshalJSON_member h, payloadValue_origin]; rfl
  · rw [MarshalJSON_member h, payloadValue_time]; rfl

/-- C12, witness: metadata entries under `actor` and `origin` are overridden by
the typed fields, the empty `Origin` included. -/
theorem C12_witness :
    ∃ doc, MarshalJSON sampleTime shadowedActivity = .ok doc ∧
      doc.member? "actor" = some (.str "user:1") ∧ doc.member? "origin" = some (.str "") :=
  ⟨_, rfl, (C12_required_keys sampleTime shadowedActivity _ rfl).1,
    (C12_required_keys sampleTime shadowedActivity _ rfl).2.2.2.1⟩

/-! ## The ForeignID pattern -/

theorem matches_rep_cls {p : Char → Bool} (n : Nat) {s : List Char} :
    Regex.Matches (Regex.rep n (Regex.cls p)) s ↔ s.length = n ∧ ∀ c ∈ s, p c = true := by
  induction n generalizing s with
  | zero =>
    simp only [Regex.rep, Regex.Matches]
    constructor
    · intro h; subst h; exact ⟨rfl, fun c hc => absurd hc (List.not_mem_nil c)⟩
    · intro h; exact List.length_eq_zero.1 h.1
  | succ n ih =>
    simp only [Regex.rep]
    rw [Regex.matches_seq]
    constructor
    · rintro ⟨u, v, hs, h1, h2⟩
      obtain ⟨c, hc, hp⟩ := Regex.matches_cls.1 h1
      obtain ⟨hl, hall⟩ := ih.1 h2
      subst hc; subst hs
      refine ⟨by simp [hl], ?_⟩
      intro x hx
      rcases List.mem_cons.1 hx with hx | hx
      · rw [hx]; exact hp
      · exact hall x hx
    · rintro ⟨hl, hall⟩
      cases s with
      | nil => simp at hl
      | cons x s =>
        refine ⟨[x], s, rfl, Regex.matches_cls.2 ⟨x, rfl, hall x (List.mem_cons_self _ _)⟩,
          ih.2 ⟨by simpa using hl, fun c hc => hall c (List.mem_cons_of_mem _ hc)⟩⟩

theorem foreignIDPattern_iff (s : List Char) :
    foreignIDPattern.matchChars s = true ↔ IsForeignIDShape s := by
  rw [Regex.matchChars_iff]
  unfold foreignIDPattern IsForeignIDShape IsGroup
  simp only [Regex.matches_seq, Regex.matches_chr, Regex.matches_cls, matches_rep_cls]
  constructor
  · rintro ⟨g1, r1, hs, hg1, c1, r2, hr1, hc1, g2, r3, hr2, hg2, c2, r4, hr3, hc2, cv, r5, hr4,
      ⟨v, hv, hpv⟩, g3, r6, hr5, hg3, c3, r7, hr6, hc3, g4, r8, hr7, hg4, c4, g5, hr8, hc4, hg5⟩
    subst hc1; subst hc2; subst hc3; subst hc4; subst hv
    subst hr8; subst hr7; subst hr6; subst hr5; subst hr4; subst hr3; subst hr2; subst hr1
    subst hs
    exact ⟨g1, g2, v, g3, g4, g5, by simp, hg1, hg2, hpv, hg3, hg4, hg5⟩
  · rintro ⟨g1, g2, v, g3, g4, g5, hs, hg1, hg2, hpv, hg3, hg4, hg5⟩
    exact ⟨g1, _, hs, hg1, ['-'], _, rfl, rfl, g2, _, rfl, hg2, ['-'], _, rfl, rfl, [v], _, rfl,
      ⟨v, rfl, hpv⟩, g3, _, rfl, hg3, ['-'], _, rfl, rfl, g4, _, rfl, hg4, ['-'], g5, rfl, rfl,
      hg5⟩

/-- C13, as corrected. `MarshalJSON` fails with the validation error
`invalid ForeignID`, and so produces no document, for every activity whose
non-empty `ForeignID` is not five hyphen-separated groups of 8, 4, 4, 4 and 12
lowercase letters or digits (`a`-`z`, `0`-`9`) with the first character of the
third group in `1`..`5`. -/
theorem C13_foreign_id_shape (now : Time) (a : AggregatedFeedActivity)
    (hne : a.ForeignID ≠ "") (hshape : ¬ IsForeignIDShape a.ForeignID.data) :
    MarshalJSON now a = .error (.error "invalid ForeignID") := by
  rw [MarshalJSON_eq]
  have hm : foreignIDPattern.MatchString a.ForeignID = false := by
    cases h : foreignIDPattern.MatchString a.ForeignID with
    | false => rfl
    | true => exact absurd ((foreignIDPattern_iff _).1 h) hshape
  rw [if_pos ⟨(bne_empty_iff _).2 hne, hm⟩]

/-- C13, witness: `tester@mail.com` is rejected. -/
theorem C13_witness :
    MarshalJSON sampleTime mailActivity = .error (.error "invalid ForeignID") :=
  C13_foreign_id_shape sampleTime mailActivity (by decide)
    (fun h => Bool.noConfusion ((foreignIDPattern_iff _).2 h))

/-- C13, counterexample. The identifier `zzzzzzzz-zzzz-1zzz-zzzz-zzzzzzzzzzzz`
is not made of hexadecimal digits, yet `MarshalJSON` accepts it and writes it
as `foreign_id`. -/
theorem C13_non_hex_is_accepted :
    nonHexActivity.ForeignID.data.all (fun c => isLowerHex c || c == '-') = false ∧
    ∃ doc, MarshalJSON sampleTime nonHexActivity = .ok doc ∧
      doc.member? "foreign_id" = some (.str "zzzzzzzz-zzzz-1zzz-zzzz-zzzzzzzzzzzz") :=
  ⟨by decide, _, rfl, rfl⟩

/-! ## Reshaping the grouped listing: the copy -/

theorem copyActivities_eq (l : List (Option AggregatedFeedActivity)) : copyActivities l = l := by
  unfold copyActivities
  have h : ∀ (acc : List (Option AggregatedFeedActivity)),
      l.foldl (fun acc activity => acc ++ [activity]) acc = acc ++ l := by
    induction l with
    | nil => intro acc; simp
    | cons x xs ih => intro acc; rw [List.foldl_cons, ih]; simp
  simpa using h []

theorem foldlM_outputGroup (groups : List getAggregatedFeedOutputResult)
    (acc : List GetAggregatedFeedOutputResult) :
    (groups.map some).foldlM outputGroup acc = .ok (acc ++ groups.map copyGroup) := by
  induction groups generalizing acc with
  | nil => simp [List.foldlM]; rfl
  | cons g gs ih =>
    rw [List.map_cons, List.foldlM_cons]
    show (gs.map some).foldlM outputGroup (acc ++ [_]) = _
    rw [ih, copyActivities_eq]
    simp [copyGroup]

theorem all_some_eq_map {α : Type} (l : List (Option α)) (h : ∀ x ∈ l, x ≠ none) :
    ∃ l2 : List α, l = l2.map some := by
  induction l with
  | nil => exact ⟨[], rfl⟩
  | cons x xs ih =>
    obtain ⟨l2, hl2⟩ := ih (fun y hy => h y (List.mem_cons_of_mem _ hy))
    cases x with
    | none => exact absurd rfl (h none (List.mem_cons_self _ _))
    | some v => exact ⟨v :: l2, by rw [hl2]; rfl⟩

/-- C16. For a wire response with no nil group, `output` returns a result with
the same `Duration` and `Next` and as many groups; the group at each index has
the same `ActivityCount`, `ActorCount`, `CreatedAt`, `UpdatedAt`, `Group`, `ID`
and `Verb` as the input group at that index and the same list of activities in
the same order. An empty input list gives an empty output list. -/
theorem C16_output_copies_fields (r : getAggregatedFeedOutput)
    (h : ∀ g ∈ r.Results, g ≠ none) :
    ∃ out, r.output = .ok out ∧ out.Duration = r.Duration ∧ out.Next = r.Next ∧
      out.Results.length = r.Results.length ∧
      (r.Results = [] → out.Results = []) ∧
      ∀ (i : Nat) (g : getAggregatedFeedOutputResult), r.Results.get? i = some (some g) →
        ∃ o, out.Results.get? i = some o ∧
          o.ActivityCount = g.ActivityCount ∧ o.ActorCount = g.ActorCount ∧
          o.CreatedAt = g.CreatedAt ∧ o.UpdatedAt = g.UpdatedAt ∧ o.Group = g.Group ∧
          o.ID = g.ID ∧ o.Verb = g.Verb ∧ o.Activities = g.Activities := by
  obtain ⟨groups, hg⟩ := all_some_eq_map r.Results h
  refine ⟨⟨r.Duration, r.Next, groups.map copyGroup⟩, ?_, rfl, rfl, ?_, ?_, ?_⟩
  · unfold getAggregatedFeedOutput.output
    rw [hg, foldlM_outputGroup]
    rfl
  · rw [hg]; simp
  · intro he
    rw [hg] at he
    have : groups = [] := by
      cases groups with
      | nil => rfl
      | cons x xs => simp at he
    rw [this]; rfl
  · intro i g hi
    rw [hg, List.get?_eq_getElem?, List.getElem?_map, ← List.get?_eq_getElem?] at hi
    cases hgi : groups.get? i with
    | none => rw [hgi] at hi; exact Option.noConfusion hi
    | some g2 =>
      rw [hgi] at hi
      simp only [Option.map_some', Option.some.injEq] at hi
      subst hi
      refine ⟨copyGroup g2, ?_, rfl, rfl, rfl, rfl, rfl, rfl, rfl, rfl⟩
      show (groups.map copyGroup).get? i = _
      rw [List.get?_eq_getElem?, List.getElem?_map, ← List.get?_eq_getElem?, hgi]
      rfl

/-- C16, witness: the sample response is reshaped with both groups kept. -/
theorem C16_witness :
    ∃ out, sampleResponse.output = .ok out ∧ out.Duration = sampleResponse.Duration ∧
      out.Next = sampleResponse.Next ∧
      out.Results.length = sampleResponse.Results.length ∧
      (sampleResponse.Results = [] → out.Results = []) ∧
      ∀ (i : Nat) (g : getAggregatedFeedOutputResult),
        sampleResponse.Results.get? i = some (some g) →
        ∃ o, out.Results.get? i = some o ∧
          o.ActivityCount = g.ActivityCount ∧ o.ActorCount = g.ActorCount ∧
          o.CreatedAt = g.CreatedAt ∧ o.UpdatedAt = g.UpdatedAt ∧ o.Group = g.Group ∧
          o.ID = g.ID ∧ o.Verb = g.Verb ∧ o.Activities = g.Activities :=
  C16_output_copies_fields sampleResponse (by
    intro g hg
    simp only [sampleResponse, List.mem_cons, List.mem_singleton, List.not_mem_nil,
      or_false] at hg
    rcases hg with hg | hg <;> (rw [hg]; exact fun c => Option.noConfusion c))

/-! ## Decoding: the time stamp -/

theorem decodeTime_of_malformed (a : AggregatedFeedActivity) {value : JVal}
    (h : timeMalformed value = true) : decodeTime a value = a := by
  unfold decodeTime
  unfold timeMalformed at h
  by_cases h1 : (unmarshalString value).2 = true
  · rw [if_pos h1]
  · rw [if_neg h1]
    cases hp : Parse (unmarshalString value).1 with
    | none => rfl
    | some t =>
      rw [hp] at h
      simp only [Option.isNone_some, Bool.or_false] at h
      exact absurd h h1

theorem foldl_filter_mem {S E : Type} (f : S → E → S) (p : E → Bool) (l : List E)
    (hkeep : ∀ e ∈ l, p e = false → ∀ s, f s e = s) (s : S) :
    l.foldl f s = (l.filter p).foldl f s := by
  induction l generalizing s with
  | nil => rfl
  | cons e l ih =>
    have ih2 := ih (fun x hx => hkeep x (List.mem_cons_of_mem _ hx))
    rw [List.foldl_cons, List.filter_cons]
    cases hp : p e with
    | true =>
      simp only [if_true, List.foldl_cons]
      exact ih2 _
    | false =>
      simp only [Bool.false_eq_true, if_false]
      rw [hkeep e (List.mem_cons_self _ _) hp s]
      exact ih2 _

/-- C17, as corrected. For a document in which every key that lower-cases to
`time` has a value that is not a JSON string `time.Parse` accepts, decoding
returns no error, leaves `TimeStamp` as it was in the receiver (unset for a
fresh activity), and gives every field the value the same loop gives when the
visits to those keys are left out. -/
theorem C17_malformed_time_is_skipped (order : RangeOrder) (a : AggregatedFeedActivity)
    (b : RawMessage) (m : GoMap (Option JVal)) (hm : jsonUnmarshalMap b = .ok m)
    (hbad : ∀ k value, m.get? k = some (some value) → ToLower k = "time" →
      timeMalformed value = true) :
    ∃ a2 st, UnmarshalJSON order a b = .ok a2 ∧ a2.TimeStamp = a.TimeStamp ∧
      decodeLoop ((order.visit m.entries).filter (fun e => !(ToLower e.1 == "time")))
        (a, GoMap.empty) = .ok st ∧
      a2 = finish st := by
  have hmem : ∀ e, e ∈ order.visit m.entries → m.get? e.1 = some e.2 := by
    intro e he
    exact (GoMap.mem_entries_iff m e.1 e.2).1 ((order.perm _).mem_iff.1 he)
  have hid : ∀ e ∈ order.visit m.entries, (!(ToLower e.1 == "time")) = false →
      ∀ s, decodeStep s e = s := by
    intro e he hp s
    have hk : ToLower e.1 = "time" := by simpa using hp
    obtain ⟨k, v⟩ := e
    cases v with
    | none => rfl
    | some value =>
      rw [decodeStep_some, (classify_time _).2 hk]
      simp only
      rw [decodeTime_of_malformed _ (hbad k value (hmem _ he) hk)]
  have hfold := foldl_filter_mem decodeStep (fun e => !(ToLower e.1 == "time"))
    (order.visit m.entries) hid (a, GoMap.empty)
  refine ⟨_, _, UnmarshalJSON_of_map order a hm, ?_, decodeLoop_eq _ _, ?_⟩
  · show (List.foldl decodeStep (a, GoMap.empty) (order.visit m.entries)).1.TimeStamp = _
    rw [hfold]
    apply foldl_keep decodeStep (fun s => s.1.TimeStamp)
    intro e he s
    have hne : ToLower e.1 ≠ "time" := by
      have := (List.mem_filter.1 he).2
      simpa using this
    obtain ⟨k, v⟩ := e
    cases v with
    | none => rfl
    | some value =>
      rw [decodeStep_some]
      cases hc : classify (ToLower k) <;> first | rfl | exact absurd ((classify_time _).1 hc) hne
  · rw [hfold]

/-- C17, witness: the sample document, whose `time` is `yesterday`. -/
theorem C17_witness :
    ∃ a2 st, UnmarshalJSON RangeOrder.stored AggregatedFeedActivity.zero sampleDocument = .ok a2 ∧
      a2.TimeStamp = AggregatedFeedActivity.zero.TimeStamp ∧
      decodeLoop ((RangeOrder.stored.visit sampleMap.entries).filter
          (fun e => !(ToLower e.1 == "time")))
        (AggregatedFeedActivity.zero, GoMap.empty) = .ok st ∧
      a2 = finish st :=
  C17_malformed_time_is_skipped RangeOrder.stored AggregatedFeedActivity.zero sampleDocument
    sampleMap rfl (by
      intro k value hk hl
      have hmem := (GoMap.mem_entries_iff sampleMap k (some value)).2 hk
      have he : sampleMap.entries = [("Actor", some (.str "user:1")), ("foo", some (.str "bar")),
          ("id", some (.str "1")), ("n", some (.num "7")), ("time", some (.str "yesterday")),
          ("to", some (.arr [.str "user:1 tok", .str "flat:2", .str "junk"]))] := rfl
      rw [he] at hmem
      simp only [List.mem_cons, List.mem_singleton, Prod.mk.injEq, Option.some.injEq,
        List.not_mem_nil, or_false] at hmem
      rcases hmem with ⟨h1, h2⟩ | ⟨h1, h2⟩ | ⟨h1, h2⟩ | ⟨h1, h2⟩ | ⟨h1, h2⟩ | ⟨h1, h2⟩
      · rw [h1] at hl; exact absurd hl (by decide)
      · rw [h1] at hl; exact absurd hl (by decide)
      · rw [h1] at hl; exact absurd hl (by decide)
      · rw [h1] at hl; exact absurd hl (by decide)
      · rw [h2]; rfl
      · rw [h1] at hl; exact absurd hl (by decide))

/-- C17, counterexample. The value under `time` is a number, not a string in the
layout, yet decoding into a fresh activity sets `TimeStamp`, from the key `Time`. -/
theorem C17_time_set_by_other_key :
    twoTimesDocument.member? "time" = some (.num "5") ∧
    ∃ a2, UnmarshalJSON RangeOrder.stored AggregatedFeedActivity.zero twoTimesDocument = .ok a2 ∧
      a2.TimeStamp = some sampleTime :=
  ⟨rfl, _, rfl, rfl⟩

/-! ## Decoding: rounds on different keys -/

theorem decodeTime_eq (a : AggregatedFeedActivity) (value : JVal) :
    decodeTime a value = { a with TimeStamp := newTimeStamp a.TimeStamp value } := by
  unfold decodeTime newTimeStamp
  by_cases h1 : (unmarshalString value).2 = true
  · rw [if_pos h1, if_pos h1]
  · rw [if_neg h1, if_neg h1]
    cases Parse (unmarshalString value).1 <;> rfl

theorem classify_inj {x y : String} (h : classify x = classify y)
    (hne : classify x ≠ .other) : x = y := by
  cases hc : classify x
  · rw [hc] at h; exact ((classify_id x).1 hc).trans ((classify_id y).1 h.symm).symm
  · rw [hc] at h; exact ((classify_actor x).1 hc).trans ((classify_actor y).1 h.symm).symm
  · rw [hc] at h; exact ((classify_verb x).1 hc).trans ((classify_verb y).1 h.symm).symm
  · rw [hc] at h
    exact ((classify_foreignID x).1 hc).trans ((classify_foreignID y).1 h.symm).symm
  · rw [hc] at h; exact ((classify_object x).1 hc).trans ((classify_object y).1 h.symm).symm
  · rw [hc] at h; exact ((classify_origin x).1 hc).trans ((classify_origin y).1 h.symm).symm
  · rw [hc] at h; exact ((classify_target x).1 hc).trans ((classify_target y).1 h.symm).symm
  · rw [hc] at h; exact ((classify_time x).1 hc).trans ((classify_time y).1 h.symm).symm
  · rw [hc] at h; exact ((classify_data x).1 hc).trans ((classify_data y).1 h.symm).symm
  · rw [hc] at h; exact ((classify_to x).1 hc).trans ((classify_to y).1 h.symm).symm
  · exact absurd hc hne

theorem decodeStep_comm (st : DecodeState) (k1 k2 : String) (v1 v2 : JVal) (hk : k1 ≠ k2)
    (hl : classify (ToLower k1) = classify (ToLower k2) → classify (ToLower k1) = .other) :
    decodeStep (decodeStep st (k1, some v1)) (k2, some v2) =
      decodeStep (decodeStep st (k2, some v2)) (k1, some v1) := by
  simp only [decodeStep_some, decodeTime_eq]
  cases h1 : classify (ToLower k1) <;> cases h2 : classify (ToLower k2) <;>
    first
    | rfl
    | (rw [h1, h2] at hl; exact Field.noConfusion (hl rfl))
    | (simp only; rw [GoMap.set_comm _ _ _ hk])

/-! ## Round trip: the raw payload of an encoded document -/

theorem MarshalJSON_map {now : Time} {a : AggregatedFeedActivity} {doc : RawMessage}
    (h : MarshalJSON now a = .ok doc) :
    ∃ m, jsonUnmarshalMap doc = .ok m ∧
      ∀ k, m.get? k = ((payloadValue now a k).bind jsonOf).map nilIfNull := by
  have hmem := fun k => MarshalJSON_member h k
  rw [MarshalJSON_eq] at h
  by_cases hf : (a.ForeignID != "") = true ∧ foreignIDPattern.MatchString a.ForeignID = false
  · rw [if_pos hf] at h; exact Except.noConfusion h
  · rw [if_neg hf] at h
    unfold jsonMarshal at h
    cases hms : marshalMembers (payloadOf now a).entries with
    | error e => rw [hms] at h; exact Except.noConfusion h
    | ok ms =>
      rw [hms] at h
      injection h with h
      subst h
      have hs := marshalMembers_sorted hms (payloadOf now a).sorted
      refine ⟨_, rfl, ?_⟩
      intro k
      rw [← hmem k]
      have := foldl_set_get nilIfNull ms hs GoMap.empty k
      rw [this]
      show _ = Option.map nilIfNull (lookupKey k ms)
      cases lookupKey k ms <;> rfl

theorem ToLower_known {k : String} (h : k ∈ knownFields) : ToLower k = k := by
  unfold knownFields at h
  rcases List.mem_cons.1 h with e | h; rw [e]; rfl
  rcases List.mem_cons.1 h with e | h; rw [e]; rfl
  rcases List.mem_cons.1 h with e | h; rw [e]; rfl
  rcases List.mem_cons.1 h with e | h; rw [e]; rfl
  rcases List.mem_cons.1 h with e | h; rw [e]; rfl
  rcases List.mem_cons.1 h with e | h; rw [e]; rfl
  rcases List.mem_cons.1 h with e | h; rw [e]; rfl
  rcases List.mem_cons.1 h with e | h; rw [e]; rfl
  rcases List.mem_cons.1 h with e | h; rw [e]; rfl
  rcases List.mem_cons.1 h with e | h; rw [e]; rfl
  exact absurd h (List.not_mem_nil k)

/-- A key of the encoded payload is a known field name or a key of `MetaData`
written with its string value. -/
theorem payload_key_cases {now : Time} {a : AggregatedFeedActivity} {k : String}
    {m : GoMap (Option JVal)}
    (hm : ∀ k, m.get? k = ((payloadValue now a k).bind jsonOf).map nilIfNull)
    {v : Option JVal} (hv : m.get? k = some v) :
    k ∈ knownFields ∨ ∃ s, a.MetaData.get? k = some s ∧ v = some (.str s) := by
  rcases payloadValue_cases now a k with hk | hk
  · exact Or.inl hk
  · right
    rw [hm k, hk] at hv
    cases hg : a.MetaData.get? k with
    | none => rw [hg] at hv; exact Option.noConfusion hv
    | some s =>
      rw [hg] at hv
      refine ⟨s, rfl, ?_⟩
      injection hv with hv
      exact hv.symm

/-! ## Round trip: metadata -/

/-- C9, as corrected. For an activity whose encoding succeeds and whose
`MetaData` has no key that lower-cases to a known field name, decoding the
encoded document into a fresh activity gives a `MetaData` equal to the
original: the same keys with the same values, and no other. -/
theorem C9_metadata_round_trip (order : RangeOrder) (now : Time) (a : AggregatedFeedActivity)
    (doc : RawMessage) (h : MarshalJSON now a = .ok doc)
    (hmd : ∀ k, a.MetaData.get? k ≠ none → ToLower k ∉ knownFields) :
    ∃ a2, UnmarshalJSON order AggregatedFeedActivity.zero doc = .ok a2 ∧
      a2.MetaData = a.MetaData := by
  obtain ⟨m, hm, hget⟩ := MarshalJSON_map h
  refine ⟨_, UnmarshalJSON_of_map order _ hm, ?_⟩
  apply GoMap.ext
  intro k
  show (List.foldl decodeStep (AggregatedFeedActivity.zero, GoMap.empty)
    (order.visit m.entries)).2.get? k = _
  rw [foldl_meta_get m _ (order.perm _) (AggregatedFeedActivity.zero, GoMap.empty) k rfl]
  unfold metaValue
  by_cases hk : ToLower k ∈ knownFields
  · have hc : classify (ToLower k) ≠ .other := fun c => (classify_other_iff _).1 c hk
    have hn : a.MetaData.get? k = none := by
      by_contra hne
      exact hmd k hne hk
    rw [hn]
    cases m.get? k with
    | none => rfl
    | some o =>
      cases o with
      | none => rfl
      | some v => simp only [if_neg hc]
  · have hc : classify (ToLower k) = .other := (classify_other_iff _).2 hk
    have hkn : k ∉ knownFields := fun c => hk (by rw [ToLower_known c]; exact c)
    rw [hget k, payloadValue_other now a hkn]
    cases a.MetaData.get? k with
    | none => rfl
    | some s => simp only [Option.map_some', Option.some_bind, jsonOf, marshalValue, nilIfNull,
        if_pos hc, unmarshalString]

/-- C9, witness: the metadata `Color` and `size` round-trip. -/
theorem C9_witness :
    ∃ doc, MarshalJSON sampleTime plainMetaActivity = .ok doc ∧
      ∃ a2, UnmarshalJSON RangeOrder.stored AggregatedFeedActivity.zero doc = .ok a2 ∧
        a2.MetaData = plainMetaActivity.MetaData :=
  ⟨_, rfl, C9_metadata_round_trip RangeOrder.stored sampleTime plainMetaActivity _ rfl (by
    intro k hk
    have hmem : ∃ v, (k, v) ∈ plainMetaActivity.MetaData.entries := by
      cases hg : plainMetaActivity.MetaData.get? k with
      | none => exact absurd hg hk
      | some v => exact ⟨v, (GoMap.mem_entries_iff _ _ _).2 hg⟩
    obtain ⟨v, hv⟩ := hmem
    have he : plainMetaActivity.MetaData.entries = [("Color", "red"), ("size", "9")] := rfl
    rw [he] at hv
    simp only [List.mem_cons, List.mem_singleton, Prod.mk.injEq, List.not_mem_nil,
      or_false] at hv
    rcases hv with ⟨e, _⟩ | ⟨e, _⟩ <;> (rw [e]; decide))⟩

/-- C9, counterexample. The activity whose `MetaData` holds `id` encodes, and
the decoded `MetaData` has lost that entry. -/
theorem C9_metadata_entry_lost :
    metaIdActivity.MetaData.get? "id" = some "7" ∧
    ∃ doc a2, MarshalJSON sampleTime metaIdActivity = .ok doc ∧
      UnmarshalJSON RangeOrder.stored AggregatedFeedActivity.zero doc = .ok a2 ∧
      a2.MetaData.get? "id" = none :=
  ⟨rfl, _, _, rfl, rfl, rfl⟩

/-! ## Round trip: the string fields -/

theorem foldl_field_keep (fld : Field) (π : AggregatedFeedActivity → String)
    (hstep : ∀ (st : DecodeState) k v, π (decodeStep st (k, some v)).1 =
      if classify (ToLower k) = fld then (unmarshalString v).1 else π st.1)
    (visit : List (String × Option JVal)) (st : DecodeState)
    (h : ∀ e ∈ visit, ∀ v, e.2 = some v → classify (ToLower e.1) ≠ fld) :
    π (visit.foldl decodeStep st).1 = π st.1 := by
  apply foldl_keep decodeStep (fun s => π s.1)
  intro e he s
  obtain ⟨k, v⟩ := e
  cases v with
  | none => rfl
  | some v =>
    show π (decodeStep s (k, some v)).1 = π s.1
    rw [hstep, if_neg (h _ he v rfl)]

theorem foldl_field_set (fld : Field) (π : AggregatedFeedActivity → String)
    (hstep : ∀ (st : DecodeState) k v, π (decodeStep st (k, some v)).1 =
      if classify (ToLower k) = fld then (unmarshalString v).1 else π st.1)
    (visit : List (String × Option JVal)) (st : DecodeState) (c : String)
    (hex : ∃ e ∈ visit, ∃ v, e.2 = some v ∧ classify (ToLower e.1) = fld)
    (h : ∀ e ∈ visit, ∀ v, e.2 = some v → classify (ToLower e.1) = fld →
      (unmarshalString v).1 = c) :
    π (visit.foldl decodeStep st).1 = c := by
  apply foldl_set_or_keep decodeStep (fun s => π s.1) c
  · intro e he
    obtain ⟨k, v⟩ := e
    cases v with
    | none => left; intro s; rfl
    | some v =>
      by_cases hc : classify (ToLower k) = fld
      · right
        intro s
        show π (decodeStep s (k, some v)).1 = c
        rw [hstep, if_pos hc]
        exact h _ he v rfl hc
      · left
        intro s
        show π (decodeStep s (k, some v)).1 = π s.1
        rw [hstep, if_neg hc]
  · obtain ⟨e, he, v, hv, hc⟩ := hex
    refine ⟨e, he, ?_⟩
    intro s
    obtain ⟨k, v2⟩ := e
    simp only at hv hc
    subst hv
    show π (decodeStep s (k, some v)).1 = c
    rw [hstep, if_pos hc]
    exact h _ he v rfl hc

/-- The round trip of one string field: `key` is its wire key, `x` its value,
written when `c` holds, and no metadata key selects its branch. -/
theorem string_field_round_trip (fld : Field) (π : AggregatedFeedActivity → String)
    (hstep : ∀ (st : DecodeState) k v, π (decodeStep st (k, some v)).1 =
      if classify (ToLower k) = fld then (unmarshalString v).1 else π st.1)
    (hzero : π AggregatedFeedActivity.zero = "")
    (key : String) (hknown : key ∈ knownFields) (hkey : classify key = fld)
    (now : Time) (a : AggregatedFeedActivity) (x : String) (c : Prop) [Decidable c]
    (hval : payloadValue now a key =
      if c then some (.str x) else (a.MetaData.get? key).map PayloadValue.str)
    (hempty : ¬ c → x = "")
    (hmd : ∀ k, a.MetaData.get? k ≠ none → classify (ToLower k) ≠ fld)
    (m : GoMap (Option JVal))
    (hget : ∀ k, m.get? k = ((payloadValue now a k).bind jsonOf).map nilIfNull)
    (visit : List (String × Option JVal)) (hp : visit.Perm m.entries) :
    π (visit.foldl decodeStep (AggregatedFeedActivity.zero, GoMap.empty)).1 = x := by
  have hmem : ∀ e, e ∈ visit ↔ m.get? e.1 = some e.2 := fun e => by
    rw [hp.mem_iff]; exact GoMap.mem_entries_iff m e.1 e.2
  have hlow : ToLower key = key := ToLower_known hknown
  have hfld : fld ≠ .other := by
    intro e
    rw [e] at hkey
    exact (classify_other_iff _).1 hkey hknown
  -- every visited entry of this branch is the typed key itself
  have honly : ∀ e ∈ visit, ∀ v, e.2 = some v → classify (ToLower e.1) = fld → e.1 = key := by
    intro e he v hv hc
    have hg := (hmem e).1 he
    rcases payload_key_cases hget hg with hk | ⟨s, hs, _⟩
    · rw [ToLower_known hk] at hc
      exact classify_inj (hc.trans hkey.symm) (by rw [hc]; exact hfld)
    · exact absurd hc (hmd e.1 (by rw [hs]; exact fun c => Option.noConfusion c))
  have hnometa : a.MetaData.get? key = none := by
    by_contra hne
    exact hmd key hne (by rw [hlow]; exact hkey)
  by_cases hc : c
  · have hmk : m.get? key = some (some (.str x)) := by
      rw [hget key, hval, if_pos hc]; rfl
    apply foldl_field_set fld π hstep
    · exact ⟨(key, some (.str x)), (hmem _).2 hmk, .str x, rfl, by
        show classify (ToLower key) = fld
        rw [hlow]; exact hkey⟩
    · intro e he v hv hcl
      have hk := honly e he v hv hcl
      have hg := (hmem e).1 he
      rw [hk, hmk, hv] at hg
      injection hg with hg
      injection hg with hg
      rw [← hg]; rfl
  · rw [hempty hc, ← hzero]
    apply foldl_field_keep fld π hstep
    intro e he v hv hcl
    have hk := honly e he v hv hcl
    have hg := (hmem e).1 he
    rw [hk, hget key, hval, if_neg hc, hnometa] at hg
    exact Option.noConfusion hg

theorem decodeStep_ID (st : DecodeState) (k : String) (v : JVal) :
    (decodeStep st (k, some v)).1.ID =
      if classify (ToLower k) = .id then (unmarshalString v).1 else st.1.ID := by
  rw [decodeStep_some, decodeTime_eq]
  cases classify (ToLower k) <;> rfl

theorem decodeStep_Actor (st : DecodeState) (k : String) (v : JVal) :
    (decodeStep st (k, some v)).1.Actor =
      if classify (ToLower k) = .actor then (unmarshalString v).1 else st.1.Actor := by
  rw [decodeStep_some, decodeTime_eq]
  cases classify (ToLower k) <;> rfl

theorem decodeStep_Verb (st : DecodeState) (k : String) (v : JVal) :
    (decodeStep st (k, some v)).1.Verb =
      if classify (ToLower k) = .verb then (unmarshalString v).1 else st.1.Verb := by
  rw [decodeStep_some, decodeTime_eq]
  cases classify (ToLower k) <;> rfl

theorem decodeStep_Object (st : DecodeState) (k : String) (v : JVal) :
    (decodeStep st (k, some v)).1.Object =
      if classify (ToLower k) = .object then (unmarshalString v).1 else st.1.Object := by
  rw [decodeStep_some, decodeTime_eq]
  cases classify (ToLower k) <;> rfl

theorem decodeStep_Origin (st : DecodeState) (k : String) (v : JVal) :
    (decodeStep st (k, some v)).1.Origin =
      if classify (ToLower k) = .origin then (unmarshalString v).1 else st.1.Origin := by
  rw [decodeStep_some, decodeTime_eq]
  cases classify (ToLower k) <;> rfl

theorem decodeStep_Target (st : DecodeState) (k : String) (v : JVal) :
    (decodeStep st (k, some v)).1.Target =
      if classify (ToLower k) = .target then (unmarshalString v).1 else st.1.Target := by
  rw [decodeStep_some, decodeTime_eq]
  cases classify (ToLower k) <;> rfl

theorem decodeStep_ForeignID (st : DecodeState) (k : String) (v : JVal) :
    (decodeStep st (k, some v)).1.ForeignID =
      if classify (ToLower k) = .foreignID then (unmarshalString v).1 else st.1.ForeignID := by
  rw [decodeStep_some, decodeTime_eq]
  cases classify (ToLower k) <;> rfl

/-- C1, as corrected. For an activity whose encoding succeeds and whose
`MetaData` has no key that lower-cases to `id`, `actor`, `verb`, `object`,
`origin`, `target` or `foreign_id`, decoding the encoded document into a fresh
activity gives back `Actor`, `Object`, `Origin`, `Target`, `Verb`, `ForeignID`
and `ID`, whatever `Data`, `To`, the time stamp and the order of the visits
are. -/
theorem C1_string_fields_round_trip (order : RangeOrder) (now : Time)
    (a : AggregatedFeedActivity) (doc : RawMessage) (h : MarshalJSON now a = .ok doc)
    (hmd : ∀ k, a.MetaData.get? k ≠ none → ToLower k ∉ stringFieldNames) :
    ∃ a2, UnmarshalJSON order AggregatedFeedActivity.zero doc = .ok a2 ∧
      a2.Actor = a.Actor ∧ a2.Object = a.Object ∧ a2.Origin = a.Origin ∧
      a2.Target = a.Target ∧ a2.Verb = a.Verb ∧ a2.ForeignID = a.ForeignID ∧ a2.ID = a.ID := by
  obtain ⟨m, hm, hget⟩ := MarshalJSON_map h
  have hp := order.perm m.entries
  refine ⟨_, UnmarshalJSON_of_map order _ hm, ?_, ?_, ?_, ?_, ?_, ?_, ?_⟩
  · exact string_field_round_trip .actor (fun x => x.Actor) decodeStep_Actor rfl "actor"
      (by decide) rfl now a a.Actor True
      (by rw [if_pos trivial]; exact payloadValue_actor now a) (fun c => absurd trivial c)
      (fun k hk c => hmd k hk (by rw [(classify_actor _).1 c]; decide)) m hget _ hp
  · exact string_field_round_trip .object (fun x => x.Object) decodeStep_Object rfl "object"
      (by decide) rfl now a a.Object True
      (by rw [if_pos trivial]; exact payloadValue_object now a) (fun c => absurd trivial c)
      (fun k hk c => hmd k hk (by rw [(classify_object _).1 c]; decide)) m hget _ hp
  · exact string_field_round_trip .origin (fun x => x.Origin) decodeStep_Origin rfl "origin"
      (by decide) rfl now a a.Origin True
      (by rw [if_pos trivial]; exact payloadValue_origin now a) (fun c => absurd trivial c)
      (fun k hk c => hmd k hk (by rw [(classify_origin _).1 c]; decide)) m hget _ hp
  · exact string_field_round_trip .target (fun x => x.Target) decodeStep_Target rfl "target"
      (by decide) rfl now a a.Target ((a.Target != "") = true)
      (payloadValue_target now a)
      (fun c => by
        by_contra hne
        exact c ((bne_empty_iff _).2 hne))
      (fun k hk c => hmd k hk (by rw [(classify_target _).1 c]; decide)) m hget _ hp
  · exact string_field_round_trip .verb (fun x => x.Verb) decodeStep_Verb rfl "verb"
      (by decide) rfl now a a.Verb True
      (by rw [if_pos trivial]; exact payloadValue_verb now a) (fun c => absurd trivial c)
      (fun k hk c => hmd k hk (by rw [(classify_verb _).1 c]; decide)) m hget _ hp
  · exact string_field_round_trip .foreignID (fun x => x.ForeignID) decodeStep_ForeignID rfl
      "foreign_id" (by decide) rfl now a a.ForeignID ((a.ForeignID != "") = true)
      (payloadValue_foreign_id now a)
      (fun c => by
        by_contra hne
        exact c ((bne_empty_iff _).2 hne))
      (fun k hk c => hmd k hk (by rw [(classify_foreignID _).1 c]; decide)) m hget _ hp
  · exact string_field_round_trip .id (fun x => x.ID) decodeStep_ID rfl "id"
      (by decide) rfl now a a.ID ((a.ID != "") = true)
      (payloadValue_id now a)
      (fun c => by
        by_contra hne
        exact c ((bne_empty_iff _).2 hne))
      (fun k hk c => hmd k hk (by rw [(classify_id _).1 c]; decide)) m hget _ hp

theorem plainMeta_keys (k : String) (hk : plainMetaActivity.MetaData.get? k ≠ none) :
    k = "Color" ∨ k = "size" := by
  have hmem : ∃ v, (k, v) ∈ plainMetaActivity.MetaData.entries := by
    cases hg : plainMetaActivity.MetaData.get? k with
    | none => exact absurd hg hk
    | some v => exact ⟨v, (GoMap.mem_entries_iff _ _ _).2 hg⟩
  obtain ⟨v, hv⟩ := hmem
  have he : plainMetaActivity.MetaData.entries = [("Color", "red"), ("size", "9")] := rfl
  rw [he] at hv
  simp only [List.mem_cons, List.mem_singleton, Prod.mk.injEq, List.not_mem_nil,
    or_false] at hv
  rcases hv with ⟨e, _⟩ | ⟨e, _⟩
  · exact Or.inl e
  · exact Or.inr e

/-- C1, witness: an activity with identifier, recipients and plain metadata. -/
theorem C1_witness :
    ∃ doc, MarshalJSON sampleTime plainMetaActivity = .ok doc ∧
      ∃ a2, UnmarshalJSON RangeOrder.reversed AggregatedFeedActivity.zero doc = .ok a2 ∧
        a2.Actor = plainMetaActivity.Actor ∧ a2.Object = plainMetaActivity.Object ∧
        a2.Origin = plainMetaActivity.Origin ∧ a2.Target = plainMetaActivity.Target ∧
        a2.Verb = plainMetaActivity.Verb ∧ a2.ForeignID = plainMetaActivity.ForeignID ∧
        a2.ID = plainMetaActivity.ID :=
  ⟨_, rfl, C1_string_fields_round_trip RangeOrder.reversed sampleTime plainMetaActivity _ rfl
    (fun k hk => by rcases plainMeta_keys k hk with e | e <;> (rw [e]; decide))⟩

/-- C1, counterexample. An activity with an explicit time stamp, an empty `ID`
and a metadata entry under `id`: it encodes, and the decoded `ID` is `7`, not
the empty `ID` of the original. -/
theorem C1_id_not_restored :
    metaIdActivity.TimeStamp = some sampleTime ∧ metaIdActivity.ID = "" ∧
    ∃ doc a2, MarshalJSON sampleTime metaIdActivity = .ok doc ∧
      UnmarshalJSON RangeOrder.stored AggregatedFeedActivity.zero doc = .ok a2 ∧
      a2.ID = "7" :=
  ⟨rfl, rfl, _, _, rfl, rfl, rfl⟩

/-! ## Round trip: the recipients -/

theorem decodeStep_To (st : DecodeState) (k : String) (v : JVal) :
    (decodeStep st (k, some v)).1.To =
      if classify (ToLower k) = .to then st.1.To ++ (toEntries v).filterMap recipientOf
      else st.1.To := by
  rw [decodeStep_some, decodeTime_eq]
  cases classify (ToLower k) <;> rfl

theorem toEntries_str (s : String) : toEntries (.str s) = [] := rfl

theorem upTo_of_not_mem {sep : Char} {l : List Char} (h : ∀ c ∈ l, c ≠ sep) :
    upTo sep l = l := by
  unfold upTo
  rw [List.takeWhile_eq_self_iff]
  intro c hc
  simpa using h c hc

theorem recipientOf_encoded (slug user token : List Char) (h1 : IsWordRun slug)
    (h2 : IsWordRun user) (h3 : IsPlainToken token) (feed : Feed)
    (hid : feed.FeedID = String.mk (slug ++ ':' :: user)) (htok : feed.Token = String.mk token) :
    recipientOf (encodeTo feed) =
      some (Feed.general ⟨String.mk slug, String.mk user, String.mk token⟩) := by
  rw [encodeTo_eq, hid, htok]
  cases token with
  | nil =>
    rw [if_pos rfl]
    simp only [recipientOf, decodeRecipient_plain [] h1 h2]
    rfl
  | cons c cs =>
    have hne : String.mk (c :: cs) ≠ "" := by
      intro e
      have := congrArg String.data e
      exact List.cons_ne_nil _ _ this
    rw [if_neg hne]
    have he : String.mk (slug ++ ':' :: user) ++ " " ++ String.mk (c :: cs) =
        String.mk (slug ++ ':' :: (user ++ ' ' :: (c :: cs))) := by
      apply String.ext
      simp [String.data_append]
    rw [he]
    have hdot : ∀ x ∈ c :: cs, isDot x = true := by
      intro x hx
      have := (h3 x hx).2.2
      simp [isDot, this]
    simp only [recipientOf, decodeRecipient_token [] h1 h2 hdot]
    rw [upTo_of_not_mem (fun x hx => (h3 x hx).2.1), upTo_of_not_mem (fun x hx => (h3 x hx).1)]
    rfl

theorem SortedKeys.nodup {V : Type} {l : List (String × V)} (h : SortedKeys l) : l.Nodup := by
  unfold SortedKeys at h
  exact h.imp (fun {x y} hxy e => keyLT_ne hxy (congrArg Prod.fst e))

theorem filterMap_encoded (feeds : List Feed) (recips : List (String × String × String))
    (hto : feeds.map (fun f => (f.FeedID, f.Token)) =
      recips.map (fun r => (r.1 ++ ":" ++ r.2.1, r.2.2)))
    (hok : ∀ r ∈ recips, IsWordRun r.1.data ∧ IsWordRun r.2.1.data ∧ IsPlainToken r.2.2.data) :
    (feeds.map encodeTo).filterMap recipientOf =
      recips.map (fun r => Feed.general ⟨r.1, r.2.1, r.2.2⟩) := by
  induction feeds generalizing recips with
  | nil =>
    cases recips with
    | nil => rfl
    | cons r rs => simp at hto
  | cons f fs ih =>
    cases recips with
    | nil => simp at hto
    | cons r rs =>
      simp only [List.map_cons, List.cons.injEq, Prod.mk.injEq] at hto
      obtain ⟨⟨hid, htok⟩, hrest⟩ := hto
      obtain ⟨h1, h2, h3⟩ := hok r (List.mem_cons_self _ _)
      have hid2 : f.FeedID = String.mk (r.1.data ++ ':' :: r.2.1.data) := by
        rw [hid]
        apply String.ext
        simp [String.data_append]
      have := recipientOf_encoded r.1.data r.2.1.data r.2.2.data h1 h2 h3 f hid2 htok
      rw [List.map_cons, List.filterMap_cons, this, List.map_cons]
      simp only
      rw [ih rs hrest (fun x hx => hok x (List.mem_cons_of_mem _ hx))]

/-- C20. For an activity whose encoding succeeds and whose recipients each have
a reference `slug:id` of two non-empty word runs and a token without space,
colon and line feed, decoding the encoded document into a fresh activity gives
a `To` list of the same length and order whose entries are the general feeds
with the same slug, user id and token. -/
theorem C20_recipients_round_trip (order : RangeOrder) (now : Time)
    (a : AggregatedFeedActivity) (doc : RawMessage) (h : MarshalJSON now a = .ok doc)
    (recips : List (String × String × String))
    (hto : a.To.map (fun f => (f.FeedID, f.Token)) =
      recips.map (fun r => (r.1 ++ ":" ++ r.2.1, r.2.2)))
    (hok : ∀ r ∈ recips, IsWordRun r.1.data ∧ IsWordRun r.2.1.data ∧ IsPlainToken r.2.2.data) :
    ∃ a2, UnmarshalJSON order AggregatedFeedActivity.zero doc = .ok a2 ∧
      a2.To = recips.map (fun r => Feed.general ⟨r.1, r.2.1, r.2.2⟩) := by
  obtain ⟨m, hm, hget⟩ := MarshalJSON_map h
  have hp := order.perm m.entries
  refine ⟨_, UnmarshalJSON_of_map order _ hm, ?_⟩
  show (List.foldl decodeStep (AggregatedFeedActivity.zero, GoMap.empty)
    (order.visit m.entries)).1.To = _
  have hmem : ∀ e, e ∈ order.visit m.entries ↔ m.get? e.1 = some e.2 := fun e => by
    rw [hp.mem_iff]; exact GoMap.mem_entries_iff m e.1 e.2
  have hlen : (encodeTos a.To).length > 0 ↔ a.To ≠ [] := by
    rw [encodeTos_eq, List.length_map]
    exact List.length_pos
  -- an entry of the `to` branch other than the typed key holds a string
  have hother : ∀ e ∈ order.visit m.entries, ∀ v, e.2 = some v →
      classify (ToLower e.1) = .to → e.1 ≠ "to" → ∃ s, v = .str s := by
    intro e he v hv hc hne
    have hg := (hmem e).1 he
    rcases payload_key_cases hget hg with hk | ⟨s, _, hs⟩
    · rw [ToLower_known hk] at hc
      exact absurd ((classify_to _).1 hc) hne
    · rw [hv] at hs
      injection hs with hs
      exact ⟨s, hs⟩
  by_cases hempty : a.To = []
  · have hr : recips = [] := by
      rw [hempty] at hto
      cases recips with
      | nil => rfl
      | cons r rs => simp at hto
    rw [hr]
    apply foldl_keep decodeStep (fun s => s.1.To)
    intro e he s
    obtain ⟨k, v⟩ := e
    cases v with
    | none => rfl
    | some v =>
      show (decodeStep s (k, some v)).1.To = s.1.To
      rw [decodeStep_To]
      by_cases hc : classify (ToLower k) = .to
      · rw [if_pos hc]
        have hs : ∃ s2, v = .str s2 := by
          by_cases hk : k = "to"
          · have hg := (hmem _).1 he
            simp only at hg
            rw [hk, hget "to", payloadValue_to, if_neg (fun c => hlen.1 c hempty)] at hg
            cases hmd : a.MetaData.get? "to" with
            | none => rw [hmd] at hg; exact Option.noConfusion hg
            | some s2 =>
              rw [hmd] at hg
              injection hg with hg
              injection hg with hg
              exact ⟨s2, hg.symm⟩
          · exact hother _ he v rfl hc hk
        obtain ⟨s2, hs2⟩ := hs
        rw [hs2, toEntries_str]
        simp
      · rw [if_neg hc]
  · have hmk : m.get? "to" = some (some (.arr ((encodeTos a.To).map JVal.str))) := by
      rw [hget "to", payloadValue_to, if_pos (hlen.2 hempty)]
      rfl
    have he0 := (hmem ("to", some (.arr ((encodeTos a.To).map JVal.str)))).2 hmk
    obtain ⟨l1, l2, hsplit⟩ := List.append_of_mem he0
    have hnd : (order.visit m.entries).Nodup := (hp.nodup_iff).2 (SortedKeys.nodup m.sorted)
    rw [hsplit] at hnd
    have hnd1 : ("to", some (JVal.arr ((encodeTos a.To).map JVal.str))) ∉ l1 := by
      intro c
      have := (List.nodup_append.1 hnd).2.2
      exact this c (List.mem_cons_self _ _)
    have hnd2 : ("to", some (JVal.arr ((encodeTos a.To).map JVal.str))) ∉ l2 :=
      (List.nodup_cons.1 (List.nodup_append.1 hnd).2.1).1
    have hkeep : ∀ x, x ∈ order.visit m.entries →
        x ≠ ("to", some (JVal.arr ((encodeTos a.To).map JVal.str))) →
        ∀ s : DecodeState, (decodeStep s x).1.To = s.1.To := by
      intro x hx hne s
      obtain ⟨k, v⟩ := x
      cases v with
      | none => rfl
      | some v =>
        rw [decodeStep_To]
        by_cases hc : classify (ToLower k) = .to
        · rw [if_pos hc]
          have hk : k ≠ "to" := by
            intro hk
            apply hne
            have hg := (hmem _).1 hx
            simp only at hg
            rw [hk, hmk] at hg
            injection hg with hg
            rw [hk, hg]
          obtain ⟨s2, hs2⟩ := hother _ hx v rfl hc hk
          rw [hs2, toEntries_str]
          simp
        · rw [if_neg hc]
    rw [hsplit]
    have hx1 : ∀ x ∈ l1, ∀ s : DecodeState, (decodeStep s x).1.To = s.1.To := by
      intro x hx
      apply hkeep x (by rw [hsplit]; exact List.mem_append_left _ hx)
      intro c; rw [c] at hx; exact hnd1 hx
    have hx2 : ∀ x ∈ l2, ∀ s : DecodeState, (decodeStep s x).1.To = s.1.To := by
      intro x hx
      apply hkeep x (by rw [hsplit]; exact List.mem_append_right _ (List.mem_cons_of_mem _ hx))
      intro c; rw [c] at hx; exact hnd2 hx
    have hone := foldl_once decodeStep (fun s => s.1.To)
      (fun t => t ++ (encodeTos a.To).filterMap recipientOf) l1 l2
      ("to", some (.arr ((encodeTos a.To).map JVal.str))) hx1 hx2
      (fun s => by
        show (decodeStep s ("to", some (.arr ((encodeTos a.To).map JVal.str)))).1.To = _
        rw [decodeStep_To, if_pos ((classify_to (ToLower "to")).2 rfl), toEntries_strs])
      (AggregatedFeedActivity.zero, GoMap.empty)
    rw [hone]
    show [] ++ _ = _
    rw [List.nil_append, encodeTos_eq]
    exact filterMap_encoded a.To recips hto hok

/-- C20, witness: the recipients `user:1` with token `tok` and `flat:2` without
a token come back as general feeds. -/
theorem C20_witness :
    ∃ doc, MarshalJSON sampleTime plainMetaActivity = .ok doc ∧
      ∃ a2, UnmarshalJSON RangeOrder.stored AggregatedFeedActivity.zero doc = .ok a2 ∧
        a2.To = [Feed.general ⟨"user", "1", "tok"⟩, Feed.general ⟨"flat", "2", ""⟩] :=
  ⟨_, rfl, C20_recipients_round_trip RangeOrder.stored sampleTime plainMetaActivity _ rfl
    [("user", "1", "tok"), ("flat", "2", "")] rfl (by
      intro r hr
      simp only [List.mem_cons, List.mem_singleton, List.not_mem_nil, or_false] at hr
      rcases hr with e | e <;> (rw [e]; unfold IsWordRun IsPlainToken; decide))⟩

/-! ## Formatting and parsing the time -/

theorem digitChar_isDigit {d : Nat} (h : d < 10) : (digitChar d).isDigit = true := by
  interval_cases d <;> decide

theorem digitVal_digitChar {d : Nat} (h : d < 10) : digitVal (digitChar d) = d := by
  interval_cases d <;> decide

theorem digitChar_zero_iff {d : Nat} (h : d < 10) : digitChar d = '0' ↔ d = 0 := by
  interval_cases d <;> decide

theorem lowDigits_length (w n : Nat) : (lowDigits w n).length = w := by
  induction w generalizing n with
  | zero => rfl
  | succ w ih => simp [lowDigits, ih]

theorem lowDigits_isDigit (w n : Nat) : ∀ c ∈ lowDigits w n, c.isDigit = true := by
  induction w generalizing n with
  | zero => intro c hc; exact absurd hc (List.not_mem_nil c)
  | succ w ih =>
    intro c hc
    simp only [lowDigits, List.mem_append, List.mem_singleton] at hc
    rcases hc with hc | hc
    · exact ih _ c hc
    · rw [hc]; exact digitChar_isDigit (Nat.mod_lt _ (by decide))

theorem digitsVal_append_single (ds : List Char) (c : Char) :
    digitsVal (ds ++ [c]) = digitsVal ds * 10 + digitVal c := by
  simp [digitsVal, List.foldl_append]

theorem digitsVal_lowDigits (w n : Nat) : digitsVal (lowDigits w n) = n % 10 ^ w := by
  induction w generalizing n with
  | zero => simp [lowDigits, digitsVal, Nat.mod_one]
  | succ w ih =>
    rw [lowDigits, digitsVal_append_single, ih, digitVal_digitChar (Nat.mod_lt _ (by decide))]
    rw [pow_succ, Nat.mul_comm (10 ^ w) 10, Nat.mod_mul]
    ring

theorem numDigits_le (fuel n w : Nat) (hw : 1 ≤ w) (h : n < 10 ^ w) : numDigits fuel n ≤ w := by
  induction fuel generalizing n w with
  | zero => exact hw
  | succ fuel ih =>
    unfold numDigits
    split_ifs with h10
    · exact hw
    · have hw2 : 2 ≤ w := by
        by_contra hlt
        have : w = 1 := by omega
        subst this
        simp at h
        omega
      have hdiv : n / 10 < 10 ^ (w - 1) := by
        rw [Nat.div_lt_iff_lt_mul (by decide)]
        have : 10 ^ w = 10 ^ (w - 1) * 10 := by
          rw [← pow_succ]; congr 1; omega
        omega
      have := ih (n / 10) (w - 1) (by omega) hdiv
      omega

theorem appendInt_nat (n w : Nat) (hw : 1 ≤ w) (h : n < 10 ^ w) :
    appendInt (n : Int) w = lowDigits w n := by
  unfold appendInt
  have hneg : ¬ ((n : Int) < 0) := by omega
  rw [if_neg hneg, Int.natAbs_ofNat, Nat.max_eq_left (numDigits_le n n w hw h)]
  rfl

theorem lowDigits_two (n : Nat) :
    lowDigits 2 n = [digitChar (n / 10 % 10), digitChar (n % 10)] := rfl

theorem getnum_two (a b : Nat) (ha : a < 10) (hb : b < 10) (fixed : Bool) (rest : List Char) :
    getnum (digitChar a :: digitChar b :: rest) fixed = some (a * 10 + b, rest) := by
  unfold getnum
  simp [digitChar_isDigit ha, digitChar_isDigit hb, digitVal_digitChar ha, digitVal_digitChar hb]

theorem getnum_appendInt (n : Nat) (h : n < 100) (fixed : Bool) (rest : List Char) :
    getnum (appendInt (n : Int) 2 ++ rest) fixed = some (n, rest) := by
  rw [appendInt_nat n 2 (by decide) (by simpa using h), lowDigits_two]
  have h1 : n / 10 % 10 < 10 := Nat.mod_lt _ (by decide)
  have h2 : n % 10 < 10 := Nat.mod_lt _ (by decide)
  have := getnum_two (n / 10 % 10) (n % 10) h1 h2 fixed rest
  simp only [List.cons_append, List.nil_append]
  rw [this]
  congr 2
  omega

theorem parseYear_appendInt (y : Nat) (h : y < 10000) (rest : List Char) :
    parseYear (appendInt (y : Int) 4 ++ rest) = some ((y : Int), rest) := by
  rw [appendInt_nat y 4 (by decide) (by simpa using h)]
  unfold parseYear
  have hl := lowDigits_length 4 y
  have htake : (lowDigits 4 y ++ rest).take 4 = lowDigits 4 y := by
    rw [List.take_append_of_le_length (by omega), List.take_of_length_le (by omega)]
  have hdrop : (lowDigits 4 y ++ rest).drop 4 = rest := by
    exact List.drop_left' hl
  have hlen : ¬ (lowDigits 4 y ++ rest).length < 4 := by
    rw [List.length_append, hl]; omega
  rw [if_neg hlen, htake, hdrop]
  have hall : (lowDigits 4 y).all Char.isDigit = true := by
    rw [List.all_eq_true]
    exact lowDigits_isDigit 4 y
  rw [if_pos hall, digitsVal_lowDigits, Nat.mod_eq_of_lt (by simpa using h)]

theorem digitsVal_foldl (acc : Nat) (cs : List Char) :
    cs.foldl (fun acc c => acc * 10 + digitVal c) acc = acc * 10 ^ cs.length + digitsVal cs := by
  induction cs generalizing acc with
  | nil => simp [digitsVal]
  | cons c cs ih =>
    have e1 := ih (acc * 10 + digitVal c)
    have e2 := ih (0 * 10 + digitVal c)
    have e3 : digitsVal (c :: cs) =
        cs.foldl (fun acc c => acc * 10 + digitVal c) (0 * 10 + digitVal c) := rfl
    rw [List.foldl_cons, e1, e3, e2, List.length_cons, pow_succ]
    ring

theorem digitsVal_cons (c : Char) (cs : List Char) :
    digitsVal (c :: cs) = digitVal c * 10 ^ cs.length + digitsVal cs := by
  unfold digitsVal
  rw [List.foldl_cons, digitsVal_foldl]
  simp [digitsVal]

theorem trimZeros_val (ds : List Char) :
    (trimZeros ds).length ≤ ds.length ∧
    digitsVal ds = digitsVal (trimZeros ds) * 10 ^ (ds.length - (trimZeros ds).length) := by
  induction ds with
  | nil => exact ⟨Nat.le_refl _, by simp [trimZeros, digitsVal]⟩
  | cons c cs ih =>
    obtain ⟨hlen, hval⟩ := ih
    unfold trimZeros
    cases ht : trimZeros cs with
    | nil =>
      rw [ht] at hval
      have hz : digitsVal cs = 0 := by simpa [digitsVal] using hval
      by_cases hc : c = '0'
      · subst hc
        simp only [if_true, List.length_nil, Nat.zero_le, true_and]
        rw [digitsVal_cons, hz]
        simp [digitsVal, digitVal]
      · simp only [if_neg hc, List.length_cons, List.length_nil]
        refine ⟨by omega, ?_⟩
        rw [digitsVal_cons, hz, digitsVal_cons]
        simp [digitsVal]
    | cons x xs =>
      rw [ht] at hlen hval
      simp only [List.length_cons] at hlen ⊢
      refine ⟨by omega, ?_⟩
      rw [digitsVal_cons, hval, digitsVal_cons c (x :: xs)]
      simp only [List.length_cons]
      have e : cs.length + 1 - (xs.length + 1 + 1) = cs.length - (xs.length + 1) := by omega
      rw [e, Nat.add_mul, Nat.mul_assoc, ← pow_add]
      congr 3
      omega

theorem trimZeros_mem (ds : List Char) : ∀ c ∈ trimZeros ds, c ∈ ds := by
  induction ds with
  | nil => intro c hc; exact hc
  | cons d ds ih =>
    intro c hc
    unfold trimZeros at hc
    cases ht : trimZeros ds with
    | nil =>
      rw [ht] at hc
      by_cases hd : d = '0'
      · rw [if_pos hd] at hc; exact absurd hc (List.not_mem_nil c)
      · rw [if_neg hd] at hc
        rw [List.mem_singleton.1 hc]; exact List.mem_cons_self _ _
    | cons x xs =>
      rw [ht] at hc
      rcases List.mem_cons.1 hc with e | e
      · rw [e]; exact List.mem_cons_self _ _
      · exact List.mem_cons_of_mem _ (ih c (by rw [ht]; exact e))

theorem take_lowDigits (a b n : Nat) :
    (lowDigits (a + b) n).take a = lowDigits a (n / 10 ^ b) := by
  induction b generalizing n with
  | zero => simp [List.take_of_length_le, lowDigits_length]
  | succ b ih =>
    have : a + (b + 1) = (a + b) + 1 := by omega
    rw [this, lowDigits, List.take_append_of_le_length (by rw [lowDigits_length]; omega), ih,
      Nat.div_div_eq_div_mul, pow_succ, Nat.mul_comm]

theorem parseFrac_appendNano (ns : Nat) (hlt : ns < 1000000000) (hus : ns % 1000 = 0) :
    parseFrac (appendNano ns) = (ns, []) := by
  unfold appendNano
  by_cases h0 : ns = 0
  · rw [if_pos h0, h0]; rfl
  · rw [if_neg h0]
    have htake : (lowDigits 9 ns).take 6 = lowDigits 6 (ns / 1000) := take_lowDigits 6 3 ns
    rw [htake]
    obtain ⟨hlen, hval⟩ := trimZeros_val (lowDigits 6 (ns / 1000))
    rw [lowDigits_length, digitsVal_lowDigits] at hval
    rw [lowDigits_length] at hlen
    have hu : ns / 1000 < 10 ^ 6 := by
      rw [Nat.div_lt_iff_lt_mul (by decide)]; omega
    rw [Nat.mod_eq_of_lt hu] at hval
    have hdig : ∀ c ∈ trimZeros (lowDigits 6 (ns / 1000)), c.isDigit = true :=
      fun c hc => lowDigits_isDigit 6 _ c (trimZeros_mem _ c hc)
    cases ht : trimZeros (lowDigits 6 (ns / 1000)) with
    | nil =>
      rw [ht] at hval
      simp [digitsVal] at hval
      omega
    | cons d rest =>
      rw [ht] at hval hlen hdig
      simp only
      unfold parseFrac
      have hd : d.isDigit = true := hdig d (List.mem_cons_self _ _)
      have htw : (d :: rest).takeWhile Char.isDigit = d :: rest :=
        List.takeWhile_eq_self_iff.2 hdig
      have hdw : (d :: rest).dropWhile Char.isDigit = [] :=
        List.dropWhile_eq_nil_iff.2 hdig
      have ht9 : (d :: rest).take 9 = d :: rest := List.take_of_length_le (by omega)
      simp only [beq_self_eq_true, Bool.true_or, hd, Bool.and_self, if_true, htw, hdw, ht9]
      congr 1
      have e : 9 - (d :: rest).length = (6 - (d :: rest).length) + 3 := by omega
      rw [e, pow_add, ← Nat.mul_assoc, ← hval]
      omega

theorem Format_data (t : Time) :
    t.Format.data = appendInt t.year 4 ++ ('-' :: (appendInt t.month 2 ++ ('-' ::
      (appendInt t.day 2 ++ ('T' :: (appendInt t.hour 2 ++ (':' :: (appendInt t.minute 2 ++
      (':' :: (appendInt t.second 2 ++ appendNano t.nanosecond)))))))))) := by
  simp [Time.Format, List.append_assoc]

theorem skipChar_cons (c : Char) (rest : List Char) : skipChar c (c :: rest) = some rest := by
  simp [skipChar]

theorem daysIn_le (month : Nat) (year : Int) : daysIn month year ≤ 31 := by
  unfold daysIn
  split_ifs
  · decide
  · by_cases h : month - 1 < 12
    · interval_cases (month - 1) <;> decide
    · have h12 : 12 ≤ month - 1 := by omega
      rw [List.getD_eq_default _ _ (by simpa using h12)]
      decide

theorem Parse_Format (t : Time) (h : t.roundTrips) : Parse t.Format = some t := by
  obtain ⟨⟨hm1, hm2, hd1, hd2, hh, hmi, hs, hn⟩, hz, hy0, hy1, hus⟩ := h
  have hday : t.day < 100 := by
    have := daysIn_le t.month t.year
    omega
  obtain ⟨y, hy⟩ : ∃ y : Nat, t.year = (y : Int) := ⟨t.year.toNat, (Int.toNat_of_nonneg hy0).symm⟩
  have hylt : y < 10000 := by omega
  unfold Parse
  rw [Format_data, hy, parseYear_appendInt y hylt]
  simp only [skipChar_cons, getnum_appendInt t.month (by omega), getnum_appendInt t.day hday,
    getnum_appendInt t.hour (by omega), getnum_appendInt t.minute (by omega),
    getnum_appendInt t.second (by omega), parseFrac_appendNano t.nanosecond hn hus]
  have g1 : ¬ ¬ (1 ≤ t.month ∧ t.month ≤ 12) := fun c => c ⟨hm1, hm2⟩
  have g2 : ¬ ¬ t.hour < 24 := fun c => c hh
  have g3 : ¬ ¬ t.minute < 60 := fun c => c hmi
  have g4 : ¬ ¬ t.second < 60 := fun c => c hs
  have g5 : ¬ (([] : List Char) ≠ []) := fun c => c rfl
  have g6 : ¬ ¬ (1 ≤ t.day ∧ t.day ≤ daysIn t.month (y : Int)) := fun c => c ⟨hd1, hy ▸ hd2⟩
  rw [if_neg g1, if_neg g2, if_neg g3, if_neg g4, if_neg g5, if_neg g6]
  cases t
  simp only at hy hz
  subst hy; subst hz
  rfl

theorem decodeStep_TimeStamp (st : DecodeState) (k : String) (v : JVal) :
    (decodeStep st (k, some v)).1.TimeStamp =
      if classify (ToLower k) = .time then newTimeStamp st.1.TimeStamp v
      else st.1.TimeStamp := by
  rw [decodeStep_some, decodeTime_eq]
  cases classify (ToLower k) <;> rfl

theorem newTimeStamp_format (old : Option Time) (t : Time) (h : t.roundTrips) :
    newTimeStamp old (.str t.Format) = some t := by
  unfold newTimeStamp
  simp only [unmarshalString, Bool.false_eq_true, if_false, Parse_Format t h]

/-- C10, as corrected. For an activity whose explicit `TimeStamp` is a reading
in UTC with a year from 0 to 9999 and whole microseconds, whose `MetaData` has
no key that lower-cases to `time` and whose encoding succeeds, the `time` text
written by `MarshalJSON` is parsed back by `UnmarshalJSON` to the same
`TimeStamp`. -/
theorem C10_time_round_trip (order : RangeOrder) (now : Time) (a : AggregatedFeedActivity)
    (doc : RawMessage) (t : Time) (ht : a.TimeStamp = some t) (hrt : t.roundTrips)
    (h : MarshalJSON now a = .ok doc)
    (hmd : ∀ k, a.MetaData.get? k ≠ none → ToLower k ≠ "time") :
    ∃ a2, UnmarshalJSON order AggregatedFeedActivity.zero doc = .ok a2 ∧
      a2.TimeStamp = some t := by
  obtain ⟨m, hm, hget⟩ := MarshalJSON_map h
  have hp := order.perm m.entries
  refine ⟨_, UnmarshalJSON_of_map order _ hm, ?_⟩
  show (List.foldl decodeStep (AggregatedFeedActivity.zero, GoMap.empty)
    (order.visit m.entries)).1.TimeStamp = _
  have hmem : ∀ e, e ∈ order.visit m.entries ↔ m.get? e.1 = some e.2 := fun e => by
    rw [hp.mem_iff]; exact GoMap.mem_entries_iff m e.1 e.2
  have hmk : m.get? "time" = some (some (.str t.Format)) := by
    rw [hget "time", payloadValue_time, timeText, ht]
    rfl
  have hset : ∀ e ∈ order.visit m.entries, ∀ v, e.2 = some v →
      classify (ToLower e.1) = .time → v = .str t.Format := by
    intro e he v hv hc
    have hg := (hmem e).1 he
    rcases payload_key_cases hget hg with hk | ⟨s, hs, _⟩
    · rw [ToLower_known hk] at hc
      rw [(classify_time _).1 hc, hmk, hv] at hg
      injection hg with hg
      injection hg with hg
      exact hg.symm
    · exact absurd ((classify_time _).1 hc)
        (hmd e.1 (by rw [hs]; exact fun c => Option.noConfusion c))
  apply foldl_set_or_keep decodeStep (fun s => s.1.TimeStamp) (some t)
  · intro e he
    obtain ⟨k, v⟩ := e
    cases v with
    | none => left; intro s; rfl
    | some v =>
      by_cases hc : classify (ToLower k) = .time
      · right
        intro s
        show (decodeStep s (k, some v)).1.TimeStamp = some t
        rw [decodeStep_TimeStamp, if_pos hc, hset _ he v rfl hc, newTimeStamp_format _ t hrt]
      · left
        intro s
        show (decodeStep s (k, some v)).1.TimeStamp = s.1.TimeStamp
        rw [decodeStep_TimeStamp, if_neg hc]
  · refine ⟨("time", some (.str t.Format)), (hmem _).2 hmk, ?_⟩
    intro s
    show (decodeStep s ("time", some (.str t.Format))).1.TimeStamp = some t
    rw [decodeStep_TimeStamp, if_pos ((classify_time (ToLower "time")).2 rfl),
      newTimeStamp_format _ t hrt]

/-- C10, witness: the instant 2016-03-09 07:05:00.12 UTC is read back. -/
theorem C10_witness :
    ∃ doc, MarshalJSON sampleTime plainMetaActivity = .ok doc ∧
      ∃ a2, UnmarshalJSON RangeOrder.stored AggregatedFeedActivity.zero doc = .ok a2 ∧
        a2.TimeStamp = some sampleTime :=
  ⟨_, rfl, C10_time_round_trip RangeOrder.stored sampleTime plainMetaActivity _ sampleTime rfl
    (by decide) rfl
    (fun k hk => by rcases plainMeta_keys k hk with e | e <;> (rw [e]; decide))⟩

/-- C10, counterexample. An instant with a sub-microsecond part, an instant in
a zone other than UTC and an instant in the year 10000 are valid time stamps
whose encoding succeeds; the first two are read back as 07:05:00.12 UTC, which
is another instant, and the third is not read back at all. -/
theorem C10_instant_not_restored :
    (nanoTime.valid ∧ ∃ doc a2, MarshalJSON sampleTime (stamped nanoTime) = .ok doc ∧
      UnmarshalJSON RangeOrder.stored AggregatedFeedActivity.zero doc = .ok a2 ∧
      a2.TimeStamp = some sampleTime ∧ ¬ nanoTime.Equal sampleTime) ∧
    (zoneTime.valid ∧ ∃ doc a2, MarshalJSON sampleTime (stamped zoneTime) = .ok doc ∧
      UnmarshalJSON RangeOrder.stored AggregatedFeedActivity.zero doc = .ok a2 ∧
      a2.TimeStamp = some sampleTime ∧ ¬ zoneTime.Equal sampleTime) ∧
    (farTime.valid ∧ ∃ doc a2, MarshalJSON sampleTime (stamped farTime) = .ok doc ∧
      UnmarshalJSON RangeOrder.stored AggregatedFeedActivity.zero doc = .ok a2 ∧
      a2.TimeStamp = none) :=
  ⟨⟨by decide, _, _, rfl, rfl, rfl, by decide⟩, ⟨by decide, _, _, rfl, rfl, rfl, by decide⟩,
    ⟨by decide, _, _, rfl, rfl, rfl⟩⟩

/-! ## Decoding: the typed fields and the order of the visits -/

theorem routed_cons_none (name k : String) (l : List (String × Option JVal)) :
    routed name ((k, none) :: l) = routed name l := by
  unfold routed
  rw [List.filterMap_cons]
  simp

theorem routed_cons_pos {name k : String} (v : JVal) (l : List (String × Option JVal))
    (h : ToLower k = name) : routed name ((k, some v) :: l) = v :: routed name l := by
  unfold routed
  rw [List.filterMap_cons]
  simp [h]

theorem routed_cons_neg {name k : String} (v : Option JVal) (l : List (String × Option JVal))
    (h : ToLower k ≠ name) : routed name ((k, v) :: l) = routed name l := by
  unfold routed
  rw [List.filterMap_cons]
  simp [h]

theorem foldl_routed {T : Type} (fld : Field) (name : String)
    (hname : ∀ x, classify x = fld ↔ x = name)
    (π : AggregatedFeedActivity → T) (g : T → JVal → T)
    (hstep : ∀ (st : DecodeState) k v, π (decodeStep st (k, some v)).1 =
      if classify (ToLower k) = fld then g (π st.1) v else π st.1)
    (visit : List (String × Option JVal)) (st : DecodeState) :
    π (visit.foldl decodeStep st).1 = (routed name visit).foldl g (π st.1) := by
  induction visit generalizing st with
  | nil => rfl
  | cons e l ih =>
    obtain ⟨k, v⟩ := e
    rw [List.foldl_cons, ih]
    cases v with
    | none => rw [routed_cons_none, decodeStep_none]
    | some v =>
      rw [hstep]
      by_cases hk : ToLower k = name
      · rw [routed_cons_pos v l hk, if_pos ((hname _).2 hk), List.foldl_cons]
      · rw [routed_cons_neg _ l hk, if_neg (fun hc => hk ((hname _).1 hc))]

theorem foldl_last {T : Type} (c : JVal → T) (old : T) (vs : List JVal) :
    vs.foldl (fun _ v => c v) old =
      match vs.getLast? with
      | some v => c v
      | none => old := by
  induction vs using List.reverseRecOn with
  | nil => rfl
  | append_singleton xs x _ =>
    rw [List.foldl_append, List.getLast?_concat]
    rfl

theorem newTimeStamp_eq (old : Option Time) (v : JVal) :
    newTimeStamp old v = if timeMalformed v then old else Parse (unmarshalString v).1 := by
  unfold newTimeStamp timeMalformed
  by_cases h1 : (unmarshalString v).2 = true
  · rw [if_pos h1, h1]; rfl
  · rw [if_neg h1]
    have h2 : (unmarshalString v).2 = false := by simpa using h1
    rw [h2]
    cases Parse (unmarshalString v).1 <;> rfl

theorem foldl_newTimeStamp (old : Option Time) (vs : List JVal) :
    vs.foldl newTimeStamp old = lastTime old vs := by
  unfold lastTime
  induction vs using List.reverseRecOn with
  | nil => rfl
  | append_singleton xs x ih =>
    rw [List.foldl_append, List.filter_append, List.foldl_cons, List.foldl_nil, ih,
      newTimeStamp_eq]
    by_cases hx : timeMalformed x = true
    · rw [if_pos hx]
      have : List.filter (fun v => !timeMalformed v) [x] = [] := by simp [hx]
      rw [this, List.append_nil]
    · rw [if_neg hx]
      have : List.filter (fun v => !timeMalformed v) [x] = [x] := by simp [hx]
      rw [this, List.getLast?_concat]

theorem foldl_recipients (init : List Feed) (vs : List JVal) :
    vs.foldl (fun acc v => acc ++ (toEntries v).filterMap recipientOf) init =
      init ++ recipientsOf vs := by
  unfold recipientsOf
  induction vs generalizing init with
  | nil => simp
  | cons v vs ih => rw [List.foldl_cons, ih, List.flatMap_cons, List.append_assoc]

theorem decodeStep_Data (st : DecodeState) (k : String) (v : JVal) :
    (decodeStep st (k, some v)).1.Data =
      if classify (ToLower k) = .data then some (.json v) else st.1.Data := by
  rw [decodeStep_some, decodeTime_eq]
  cases classify (ToLower k) <;> rfl

theorem foldl_string_field (fld : Field) (name : String)
    (hname : ∀ x, classify x = fld ↔ x = name) (π : AggregatedFeedActivity → String)
    (hstep : ∀ (st : DecodeState) k v, π (decodeStep st (k, some v)).1 =
      if classify (ToLower k) = fld then (unmarshalString v).1 else π st.1)
    (visit : List (String × Option JVal)) (st : DecodeState) :
    π (visit.foldl decodeStep st).1 = lastString (π st.1) (routed name visit) := by
  rw [foldl_routed fld name hname π (fun _ v => (unmarshalString v).1) hstep, foldl_last]
  rfl

theorem foldl_Data (visit : List (String × Option JVal)) (st : DecodeState) :
    (visit.foldl decodeStep st).1.Data = lastRaw st.1.Data (routed "data" visit) := by
  rw [foldl_routed .data "data" classify_data (fun a => a.Data) (fun _ v => some (.json v))
    decodeStep_Data, foldl_last]
  rfl

theorem foldl_TimeStamp (visit : List (String × Option JVal)) (st : DecodeState) :
    (visit.foldl decodeStep st).1.TimeStamp =
      lastTime st.1.TimeStamp (routed "time" visit) := by
  rw [foldl_routed .time "time" classify_time (fun a => a.TimeStamp) newTimeStamp
    decodeStep_TimeStamp, foldl_newTimeStamp]

theorem foldl_To (visit : List (String × Option JVal)) (st : DecodeState) :
    (visit.foldl decodeStep st).1.To = st.1.To ++ recipientsOf (routed "to" visit) := by
  rw [foldl_routed .to "to" classify_to (fun a => a.To)
    (fun acc v => acc ++ (toEntries v).filterMap recipientOf) decodeStep_To, foldl_recipients]

theorem mem_routed {m : GoMap (Option JVal)} {visit : List (String × Option JVal)}
    (hp : visit.Perm m.entries) {k : String} {v : JVal} (h : m.get? k = some (some v)) :
    v ∈ routed (ToLower k) visit := by
  unfold routed
  rw [List.mem_filterMap]
  refine ⟨(k, some v), hp.mem_iff.2 ((GoMap.mem_entries_iff m k (some v)).2 h), ?_⟩
  simp

theorem filterMap_eq_singleton {α β : Type} (f : α → Option β) (l : List α) (e : α) (v : β)
    (hn : l.Nodup) (he : e ∈ l) (hv : f e = some v) (ho : ∀ x ∈ l, x ≠ e → f x = none) :
    l.filterMap f = [v] := by
  induction l with
  | nil => exact absurd he (List.not_mem_nil e)
  | cons x l ih =>
    rw [List.nodup_cons] at hn
    by_cases hx : x = e
    · subst hx
      rw [List.filterMap_cons_some hv]
      congr 1
      rw [List.filterMap_eq_nil_iff]
      intro y hy
      exact ho y (List.mem_cons_of_mem _ hy) (fun e2 => hn.1 (e2 ▸ hy))
    · rw [List.filterMap_cons_none (ho x (List.mem_cons_self _ _) hx)]
      rcases List.mem_cons.1 he with h2 | h2
      · exact absurd h2.symm hx
      · exact ih hn.2 h2 (fun y hy => ho y (List.mem_cons_of_mem _ hy))

theorem routed_eq_singleton {m : GoMap (Option JVal)} {visit : List (String × Option JVal)}
    (hp : visit.Perm m.entries) {k : String} {v : JVal} (h : m.get? k = some (some v))
    (hu : ∀ k2 v2, m.get? k2 = some (some v2) → ToLower k2 = ToLower k → k2 = k) :
    routed (ToLower k) visit = [v] := by
  unfold routed
  apply filterMap_eq_singleton _ visit (k, some v) v
  · exact (hp.nodup_iff).2 (SortedKeys.nodup m.sorted)
  · exact hp.mem_iff.2 ((GoMap.mem_entries_iff m k (some v)).2 h)
  · simp
  · intro x hx hne
    obtain ⟨k2, v2⟩ := x
    have hg := (GoMap.mem_entries_iff m k2 v2).1 (hp.mem_iff.1 hx)
    cases v2 with
    | none => simp
    | some v2 =>
      by_cases hl : ToLower k2 = ToLower k
      · have hk := hu k2 v2 hg hl
        subst hk
        rw [h] at hg
        injection hg with hg
        injection hg with hg
        subst hg
        exact absurd rfl hne
      · simp [hl]

theorem activity_eq {x y : AggregatedFeedActivity} (h1 : x.ID = y.ID) (h2 : x.Actor = y.Actor)
    (h3 : x.Verb = y.Verb) (h4 : x.Object = y.Object) (h5 : x.Target = y.Target)
    (h6 : x.Origin = y.Origin) (h7 : x.TimeStamp = y.TimeStamp)
    (h8 : x.ForeignID = y.ForeignID) (h9 : x.Data = y.Data) (h10 : x.MetaData = y.MetaData)
    (h11 : x.To = y.To) : x = y := by
  cases x
  cases y
  simp only at h1 h2 h3 h4 h5 h6 h7 h8 h9 h10 h11
  subst h1 h2 h3 h4 h5 h6 h7 h8 h9 h10 h11
  rfl

theorem foldl_meta_ext (m : GoMap (Option JVal)) (v1 v2 : List (String × Option JVal))
    (hp1 : v1.Perm m.entries) (hp2 : v2.Perm m.entries) (a : AggregatedFeedActivity) :
    (v1.foldl decodeStep (a, GoMap.empty)).2 = (v2.foldl decodeStep (a, GoMap.empty)).2 := by
  apply GoMap.ext
  intro k
  rw [foldl_meta_get m v1 hp1 (a, GoMap.empty) k rfl,
    foldl_meta_get m v2 hp2 (a, GoMap.empty) k rfl]

/-- C4. After a successful `UnmarshalJSON`, `MetaData` has no entry under a key
whose lower-cased form is a known field name, and every such key of the document
is routed to its typed field instead. The value of such a key, unless it is null
(a null is skipped), is among the values routed to the name the key lower-cases
to, and it is the only one when no other key of the document lower-cases to that
name. Each of the seven string fields, and `Data`, holds what the value routed
last to its name gives; `TimeStamp` holds the time of the last value routed to
`time` that is a string the layout parses; each keeps the value of the receiver
when there is no such value; `To` is the list of the receiver followed by the
recipients of the values routed to `to`, in the order visited. -/
theorem C4_metadata_has_no_known_key (order : RangeOrder) (a a2 : AggregatedFeedActivity)
    (b : RawMessage) (h : UnmarshalJSON order a b = .ok a2) :
    (∀ k, ToLower k ∈ knownFields → a2.MetaData.get? k = none) ∧
    ∃ m, jsonUnmarshalMap b = .ok m ∧
      (∀ k v, ToLower k ∈ knownFields → m.get? k = some (some v) →
        v ∈ routed (ToLower k) (order.visit m.entries) ∧
        ((∀ k2 v2, m.get? k2 = some (some v2) → ToLower k2 = ToLower k → k2 = k) →
          routed (ToLower k) (order.visit m.entries) = [v])) ∧
      a2.ID = lastString a.ID (routed "id" (order.visit m.entries)) ∧
      a2.Actor = lastString a.Actor (routed "actor" (order.visit m.entries)) ∧
      a2.Verb = lastString a.Verb (routed "verb" (order.visit m.entries)) ∧
      a2.ForeignID = lastString a.ForeignID (routed "foreign_id" (order.visit m.entries)) ∧
      a2.Object = lastString a.Object (routed "object" (order.visit m.entries)) ∧
      a2.Origin = lastString a.Origin (routed "origin" (order.visit m.entries)) ∧
      a2.Target = lastString a.Target (routed "target" (order.visit m.entries)) ∧
      a2.TimeStamp = lastTime a.TimeStamp (routed "time" (order.visit m.entries)) ∧
      a2.Data = lastRaw a.Data (routed "data" (order.visit m.entries)) ∧
      a2.To = a.To ++ recipientsOf (routed "to" (order.visit m.entries)) := by
  have hm : ∃ m, jsonUnmarshalMap b = .ok m := by
    cases hj : jsonUnmarshalMap b with
    | ok m => exact ⟨m, rfl⟩
    | error e => rw [UnmarshalJSON_of_error order a hj] at h; exact Except.noConfusion h
  obtain ⟨m, hm⟩ := hm
  rw [UnmarshalJSON_of_map order a hm] at h
  injection h with h
  subst h
  have hp := order.perm m.entries
  refine ⟨?_, m, hm, ?_, ?_, ?_, ?_, ?_, ?_, ?_, ?_, ?_, ?_, ?_⟩
  · intro k hk
    have hc : classify (ToLower k) ≠ .other := fun hc => (classify_other_iff _).1 hc hk
    show (List.foldl decodeStep (a, GoMap.empty) (order.visit m.entries)).2.get? k = none
    rw [foldl_meta_get m _ hp (a, GoMap.empty) k rfl]
    unfold metaValue
    split
    · simp [hc]
    · rfl
  · intro k v _ hv
    exact ⟨mem_routed hp hv, routed_eq_singleton hp hv⟩
  · exact foldl_string_field .id "id" classify_id (fun x => x.ID) decodeStep_ID _ _
  · exact foldl_string_field .actor "actor" classify_actor (fun x => x.Actor) decodeStep_Actor _ _
  · exact foldl_string_field .verb "verb" classify_verb (fun x => x.Verb) decodeStep_Verb _ _
  · exact foldl_string_field .foreignID "foreign_id" classify_foreignID (fun x => x.ForeignID)
      decodeStep_ForeignID _ _
  · exact foldl_string_field .object "object" classify_object (fun x => x.Object)
      decodeStep_Object _ _
  · exact foldl_string_field .origin "origin" classify_origin (fun x => x.Origin)
      decodeStep_Origin _ _
  · exact foldl_string_field .target "target" classify_target (fun x => x.Target)
      decodeStep_Target _ _
  · exact foldl_TimeStamp _ _
  · exact foldl_Data _ _
  · exact foldl_To _ _

/-- C4, witness: the sample document decodes; its key `Actor` is no metadata
key, and its value is what `Actor` holds. -/
theorem C4_witness :
    ∃ a2, UnmarshalJSON RangeOrder.stored AggregatedFeedActivity.zero sampleDocument = .ok a2 ∧
      a2.MetaData.get? "Actor" = none ∧ a2.Actor = "user:1" ∧
      ∃ m, jsonUnmarshalMap sampleDocument = .ok m ∧
        a2.Actor = lastString "" (routed "actor" (RangeOrder.stored.visit m.entries)) :=
  ⟨_, rfl, (C4_metadata_has_no_known_key RangeOrder.stored AggregatedFeedActivity.zero _
    sampleDocument rfl).1 "Actor" (by decide), rfl,
    (C4_metadata_has_no_known_key RangeOrder.stored AggregatedFeedActivity.zero _
      sampleDocument rfl).2.imp (fun _ hm => ⟨hm.1, hm.2.2.2.1⟩)⟩

/-- C18, as corrected. For every document, `UnmarshalJSON` gives the same result
under any two visiting orders when no two distinct keys (with values that are
not null) lower-case to the same known field name, and more generally when, for
each known field name, both orders meet the same sequence of values (not null)
under the keys that lower-case to that name. -/
theorem C18_order_independent (order1 order2 : RangeOrder) (a : AggregatedFeedActivity)
    (b : RawMessage) (m : GoMap (Option JVal)) (hm : jsonUnmarshalMap b = .ok m) :
    (CaseDistinct m → UnmarshalJSON order1 a b = UnmarshalJSON order2 a b) ∧
    ((∀ name ∈ knownFields,
        routed name (order1.visit m.entries) = routed name (order2.visit m.entries)) →
      UnmarshalJSON order1 a b = UnmarshalJSON order2 a b) := by
  rw [UnmarshalJSON_of_map order1 a hm, UnmarshalJSON_of_map order2 a hm]
  constructor
  · intro hd
    have hp : (order1.visit m.entries).Perm (order2.visit m.entries) :=
      (order1.perm _).trans (order2.perm _).symm
    have hmem : ∀ e, e ∈ order1.visit m.entries → m.get? e.1 = some e.2 := by
      intro e he
      exact (GoMap.mem_entries_iff m e.1 e.2).1 ((order1.perm _).mem_iff.1 he)
    have hcomm : ∀ x ∈ order1.visit m.entries, ∀ y ∈ order1.visit m.entries, ∀ z,
        decodeStep (decodeStep z x) y = decodeStep (decodeStep z y) x := by
      intro x hx y hy z
      obtain ⟨k1, v1⟩ := x
      obtain ⟨k2, v2⟩ := y
      cases v1 with
      | none => rfl
      | some v1 =>
        cases v2 with
        | none => rfl
        | some v2 =>
          by_cases hk : k1 = k2
          · subst hk
            have e1 := hmem _ hx
            have e2 := hmem _ hy
            simp only at e1 e2
            rw [e1] at e2
            injection e2 with e2
            injection e2 with e2
            subst e2
            rfl
          · apply decodeStep_comm z k1 k2 v1 v2 hk
            intro hc
            by_contra hne
            have hl := classify_inj hc hne
            have hkn : ToLower k1 ∈ knownFields := by
              by_contra hnk
              exact hne ((classify_other_iff _).2 hnk)
            exact hk (hd k1 k2 v1 v2 (hmem _ hx) (hmem _ hy) hl hkn)
    rw [List.Perm.foldl_eq' hp hcomm]
  · intro hr
    congr 1
    apply activity_eq
    · show (List.foldl decodeStep _ _).1.ID = (List.foldl decodeStep _ _).1.ID
      rw [foldl_string_field .id "id" classify_id (fun x => x.ID) decodeStep_ID,
        foldl_string_field .id "id" classify_id (fun x => x.ID) decodeStep_ID,
        hr "id" (by decide)]
    · show (List.foldl decodeStep _ _).1.Actor = (List.foldl decodeStep _ _).1.Actor
      rw [foldl_string_field .actor "actor" classify_actor (fun x => x.Actor) decodeStep_Actor,
        foldl_string_field .actor "actor" classify_actor (fun x => x.Actor) decodeStep_Actor,
        hr "actor" (by decide)]
    · show (List.foldl decodeStep _ _).1.Verb = (List.foldl decodeStep _ _).1.Verb
      rw [foldl_string_field .verb "verb" classify_verb (fun x => x.Verb) decodeStep_Verb,
        foldl_string_field .verb "verb" classify_verb (fun x => x.Verb) decodeStep_Verb,
        hr "verb" (by decide)]
    · show (List.foldl decodeStep _ _).1.Object = (List.foldl decodeStep _ _).1.Object
      rw [foldl_string_field .object "object" classify_object (fun x => x.Object)
          decodeStep_Object,
        foldl_string_field .object "object" classify_object (fun x => x.Object)
          decodeStep_Object,
        hr "object" (by decide)]
    · show (List.foldl decodeStep _ _).1.Target = (List.foldl decodeStep _ _).1.Target
      rw [foldl_string_field .target "target" classify_target (fun x => x.Target)
          decodeStep_Target,
        foldl_string_field .target "target" classify_target (fun x => x.Target)
          decodeStep_Target,
        hr "target" (by decide)]
    · show (List.foldl decodeStep _ _).1.Origin = (List.foldl decodeStep _ _).1.Origin
      rw [foldl_string_field .origin "origin" classify_origin (fun x => x.Origin)
          decodeStep_Origin,
        foldl_string_field .origin "origin" classify_origin (fun x => x.Origin)
          decodeStep_Origin,
        hr "origin" (by decide)]
    · show (List.foldl decodeStep _ _).1.TimeStamp = (List.foldl decodeStep _ _).1.TimeStamp
      rw [foldl_TimeStamp, foldl_TimeStamp, hr "time" (by decide)]
    · show (List.foldl decodeStep _ _).1.ForeignID = (List.foldl decodeStep _ _).1.ForeignID
      rw [foldl_string_field .foreignID "foreign_id" classify_foreignID (fun x => x.ForeignID)
          decodeStep_ForeignID,
        foldl_string_field .foreignID "foreign_id" classify_foreignID (fun x => x.ForeignID)
          decodeStep_ForeignID,
        hr "foreign_id" (by decide)]
    · show (List.foldl decodeStep _ _).1.Data = (List.foldl decodeStep _ _).1.Data
      rw [foldl_Data, foldl_Data, hr "data" (by decide)]
    · exact foldl_meta_ext m _ _ (order1.perm _) (order2.perm _) a
    · show (List.foldl decodeStep _ _).1.To = (List.foldl decodeStep _ _).1.To
      rw [foldl_To, foldl_To, hr "to" (by decide)]

/-- C18, witness: the small document decodes alike in the stored and in the
reversed order, and the document with `id`, `ID` and `A` decodes alike in the
stored order and in the one that visits `A` last instead of first. -/
theorem C18_witness :
    UnmarshalJSON RangeOrder.stored AggregatedFeedActivity.zero smallDocument =
      UnmarshalJSON RangeOrder.reversed AggregatedFeedActivity.zero smallDocument ∧
    UnmarshalJSON RangeOrder.stored AggregatedFeedActivity.zero threeKeysDocument =
      UnmarshalJSON RangeOrder.rotated AggregatedFeedActivity.zero threeKeysDocument :=
  ⟨(C18_order_independent RangeOrder.stored RangeOrder.reversed AggregatedFeedActivity.zero
    smallDocument smallMap rfl).1 (by
      intro k1 k2 v1 v2 h1 h2 hl _
      have m1 := (GoMap.mem_entries_iff smallMap k1 (some v1)).2 h1
      have m2 := (GoMap.mem_entries_iff smallMap k2 (some v2)).2 h2
      have he : smallMap.entries = [("Foo", some (.str "bar")), ("id", some (.str "1"))] := rfl
      rw [he] at m1 m2
      simp only [List.mem_cons, List.mem_singleton, Prod.mk.injEq, List.not_mem_nil,
        or_false] at m1 m2
      rcases m1 with ⟨e1, _⟩ | ⟨e1, _⟩ <;> rcases m2 with ⟨e2, _⟩ | ⟨e2, _⟩
      · rw [e1, e2]
      · rw [e1, e2] at hl; exact absurd hl (by decide)
      · rw [e1, e2] at hl; exact absurd hl (by decide)
      · rw [e1, e2]),
   (C18_order_independent RangeOrder.stored RangeOrder.rotated AggregatedFeedActivity.zero
    threeKeysDocument threeKeysMap rfl).2 (by
      intro name hn
      simp only [knownFields, List.mem_cons, List.mem_singleton, List.not_mem_nil,
        or_false] at hn
      rcases hn with h | h | h | h | h | h | h | h | h | h <;> (subst h; rfl))⟩

/-- C18, counterexample. For the document with the keys `id` and `ID` the
decoded `ID` depends on the order of the visits: `1` when `id` comes last, `2`
when `ID` comes last. -/
theorem C18_order_matters :
    ∃ a1 a2, UnmarshalJSON RangeOrder.stored AggregatedFeedActivity.zero twoIdsDocument = .ok a1 ∧
      UnmarshalJSON RangeOrder.reversed AggregatedFeedActivity.zero twoIdsDocument = .ok a2 ∧
      a1.ID = "1" ∧ a2.ID = "2" :=
  ⟨_, _, rfl, rfl, rfl, rfl⟩

end Getstream
